import Mathlib

/-!
# windows/wiminfo.go

A shallow embedding of `ParseWimInfo`, the `WimInfo` accessors, `Aliases.MatchString`,
`DetectWindowsVersion` and `DetectWindowsArchitecture`.

Conventions of the embedding:

* a Go `string` is the list of its code points (`Str`); the text is taken to be
  well-formed UTF-8, so that byte offsets of ASCII bytes and rune offsets split a
  string at the same place;
* a Go `map` is an association list with pairwise distinct keys: `mapSet` overwrites
  the entry of a key that is present and appends otherwise, `mapGet` returns the zero
  value for an absent key, `len` is the length of the list;
* `int` is the 64-bit two's-complement integer: `strconv.Atoi` rejects numerals outside
  it and `i++` wraps;
* the pair `(WimInfo, error)` returned by `ParseWimInfo` is an `Except`: the code
  returns `nil` with every error and a `nil` error with every record;
* `bufio.Scanner` with the default split function `bufio.ScanLines` and the default
  buffer: it delivers the lines of the text, a trailing carriage return removed, up to
  the first line of `bufio.MaxScanTokenSize` bytes or more; there `Scan` returns false
  once (the error `ErrTooLong`, which `ParseWimInfo` does not read), the next call
  delivers the first `MaxScanTokenSize` bytes of that line as a token, and every call
  after it returns false. The reader is taken to return its content without an error
  and to report the end of file after the last byte, not along with it;
* the bytes of a character that the scanner cuts in two at the end of its buffer are
  held as one U+FFFD each, what decoding makes of them;
* ranging over a Go map visits the entries in an order the runtime picks: the order is
  an explicit argument `RangeOrder`, any permutation of the entries.
-/

namespace Windows

/-- Go strings, as the list of their code points. -/
abbrev Str := List Char

/-! ## Package variables -/

def SupportedWindowsVersions : List Str :=
  ["w11".toList, "w10".toList, "w8".toList, "w7".toList, "2k19".toList, "2k12".toList,
   "2k16".toList, "2k22".toList, "2k25".toList, "2k3".toList, "2k8".toList, "xp".toList,
   "2k12r2".toList, "2k8r2".toList, "w8.1".toList]

def SupportedWindowsArchitectures : List Str :=
  ["amd64".toList, "ARM64".toList, "x86".toList]

/-! ## Go maps -/

/-- Map lookup `m[key]`: the value stored under `key`, the zero value when absent. -/
def mapGet {κ ν : Type} [DecidableEq κ] (zero : ν) : List (κ × ν) → κ → ν
  | [], _ => zero
  | (k, v) :: m, key => if k = key then v else mapGet zero m key

/-- Map assignment `m[key] = val`. -/
def mapSet {κ ν : Type} [DecidableEq κ] : List (κ × ν) → κ → ν → List (κ × ν)
  | [], key, val => [(key, val)]
  | (k, v) :: m, key, val => if k = key then (k, val) :: m else (k, v) :: mapSet m key val

/-- A section, `map[string]string`. -/
abbrev Section := List (Str × Str)

/-- The record, `type WimInfo map[int]map[string]string`. -/
abbrev WimInfo := List (Int × Section)

def WimInfo.ImageCount (info : WimInfo) : Int :=
  (info.length : Int) - 1

def WimInfo.Name (info : WimInfo) (index : Int) : Str :=
  mapGet [] (mapGet [] info index) "Name".toList

def WimInfo.MajorVersion (info : WimInfo) (index : Int) : Str :=
  mapGet [] (mapGet [] info index) "Major Version".toList

def WimInfo.Architecture (info : WimInfo) (index : Int) : Str :=
  mapGet [] (mapGet [] info index) "Architecture".toList

/-! ## Library functions used by the parser -/

/-- The predicate `unicode.IsSpace`: the code points with the White_Space property. -/
def isSpace (c : Char) : Bool :=
  let n := c.toNat
  (9 ≤ n && n ≤ 13) || n = 32 || n = 0x85 || n = 0xA0 || n = 0x1680 ||
  (0x2000 ≤ n && n ≤ 0x200A) || n = 0x2028 || n = 0x2029 || n = 0x202F ||
  n = 0x205F || n = 0x3000

/-- The function `strings.TrimSpace`: leading and trailing white space removed. -/
def TrimSpace (s : Str) : Str :=
  ((s.dropWhile isSpace).reverse.dropWhile isSpace).reverse

/-- The function `strings.IndexByte`: the offset of the first `c` in `s`, or `-1`. -/
def IndexByte : Str → Char → Int
  | [], _ => -1
  | x :: s, c => if x = c then 0 else
      let i := IndexByte s c
      if i = -1 then -1 else i + 1

/-- The two sentinel errors of `strconv`: `ErrSyntax` and `ErrRange`. -/
inductive NumErr where
  | invalid
  | outOfRange
  deriving DecidableEq, Repr

/-- The errors `ParseWimInfo` returns: a `*strconv.NumError` of `Atoi` for the numeral
`num`, or the error `fmt.Errorf` builds from a message. -/
inductive Error where
  | numError (num : Str) (err : NumErr)
  | errorf (msg : Str)
  deriving DecidableEq, Repr

/-- The digit loop of `strconv.ParseUint(s, 10, 64)` from the accumulator `n` on. -/
def parseUintLoop : Nat → Str → Except NumErr Nat
  | n, [] => .ok n
  | n, c :: s =>
    if '0' ≤ c ∧ c ≤ '9' then
      let d := c.toNat - '0'.toNat
      if n ≥ 2 ^ 64 / 10 + 1 then .error .outOfRange
      else
        let n1 := n * 10 + d
        if n1 ≥ 2 ^ 64 then .error .outOfRange else parseUintLoop n1 s
    else .error .invalid

/-- The function `strconv.ParseUint(s, 10, 64)`. -/
def ParseUint (s : Str) : Except NumErr Nat :=
  if s = [] then .error .invalid else parseUintLoop 0 s

/-- The function `strconv.Atoi` for the 64-bit `int`: an optional sign, then decimal
digits, at least one, naming a value of the `int` range. -/
def Atoi (s : Str) : Except Error Int :=
  let neg := s.head? = some '-'
  let digits := if s.head? = some '+' ∨ s.head? = some '-' then s.tail else s
  match ParseUint digits with
  | .error e => .error (.numError s e)
  | .ok un =>
    if ¬ neg ∧ un ≥ 2 ^ 63 then .error (.numError s .outOfRange)
    else if neg ∧ un > 2 ^ 63 then .error (.numError s .outOfRange)
    else .ok (if neg then -(un : Int) else (un : Int))

/-- The verb `%d` of `fmt` for an `int`. -/
def formatInt : Int → Str
  | .ofNat n => Nat.toDigits 10 n
  | .negSucc n => '-' :: Nat.toDigits 10 (n + 1)

/-- The increment `i++` of a 64-bit `int`. -/
def incrInt (i : Int) : Int :=
  (i + 1 + 2 ^ 63) % 2 ^ 64 - 2 ^ 63

/-- The helper `dropCR` of `bufio`: one trailing carriage return removed. -/
def dropCR (data : Str) : Str :=
  if data.getLast? = some '\r' then data.dropLast else data

/-- The constant `bufio.MaxScanTokenSize`, the size the buffer of a scanner grows to. -/
def MaxScanTokenSize : Nat := 64 * 1024

/-- The number of bytes of a string, `len(s)`: the length of its UTF-8 encoding. -/
def byteLen : Str → Nat
  | [] => 0
  | c :: s => c.utf8Size + byteLen s

/-- The first `n` bytes of a string, the string itself when it has no more: the
characters wholly within them and, for a character cut in two, one U+FFFD for each of
its bytes within. -/
def takeBytes : Nat → Str → Str
  | _, [] => []
  | n, c :: s =>
    if n = 0 then []
    else if c.utf8Size ≤ n then c :: takeBytes (n - c.utf8Size) s
    else List.replicate n (Char.ofNat 0xFFFD)

/-- The lines of a text as `bufio.ScanLines` cuts them, before the carriage return is
removed: the runs of characters between line feeds, and the run after the last line
feed when it is not empty. -/
def rawLines : Str → List Str
  | [] => []
  | c :: data =>
    if c = '\n' then [] :: rawLines data
    else
      match rawLines data with
      | [] => [[c]]
      | line :: lines => (c :: line) :: lines

/-- What the calls of `Scan` make of the lines of the text. A line shorter than the
buffer is delivered as a token, its carriage return removed. At the first line of
`MaxScanTokenSize` bytes or more `Scan` returns false; the loop `for scanner.Scan()` of
`nextSection` ends on it as it does on an empty token, and it is held in the list as an
empty token. The call after it delivers the bytes held in the buffer, the first
`MaxScanTokenSize` of the line, and the calls after that return false: the list ends. -/
def scanTokens : List Str → List Str
  | [] => []
  | line :: lines =>
    if byteLen line < MaxScanTokenSize then dropCR line :: scanTokens lines
    else [[], dropCR (takeBytes MaxScanTokenSize line)]

/-- The scanner over the text `r`, as `ParseWimInfo` sees it: the tokens of the calls of
`Scan` that return true, in order, with an empty token for the call that returns false
at an over-long line. -/
def ScanLines (r : Str) : List Str :=
  scanTokens (rawLines r)

/-! ## ParseWimInfo -/

/-- The `for scanner.Scan()` loop of the closure `nextSection`: the section built so
far and the lines the scanner has left, to the finished section and the lines left. -/
def nextSectionLoop : Section → List Str → Section × List Str
  | sect, [] => (sect, [])
  | sect, line :: scanner =>
    if line = [] then (sect, scanner)
    else
      let idx := IndexByte line ':'
      if idx = -1 then nextSectionLoop sect scanner
      else
        let key := TrimSpace (line.take idx.toNat)
        if key = [] then nextSectionLoop sect scanner
        else
          let val := TrimSpace (line.drop (idx.toNat + 1))
          nextSectionLoop (mapSet sect key val) scanner

/-- The closure `nextSection`: the next section and the state of the scanner after it. -/
def nextSection (scanner : List Str) : Section × List Str :=
  nextSectionLoop [] scanner

/-- The loop `for i := 1; i <= count; i++` of `ParseWimInfo`, from the counter `i`, the
scanner state and the record built so far. -/
def imageLoop (count : Int) (i : Int) (scanner : List Str) (info : WimInfo) :
    Except Error WimInfo :=
  if i ≤ count then
    match hs : nextSection scanner with
    | (sect, rest) =>
      match hi : Atoi (mapGet [] sect "Index".toList) with
      | .error err => .error err
      | .ok index =>
        if index ≠ i then
          .error (.errorf ("Failed to parse wim info: ".toList ++ formatInt index ++
            " != ".toList ++ formatInt i))
        else
          imageLoop count (incrInt i) rest (mapSet info i sect)
  else .ok info
termination_by scanner.length
decreasing_by
  have key : ∀ (l : List Str) (s : Section),
      (nextSectionLoop s l).2.length ≤ l.length := by
    intro l
    induction l with
    | nil => intro s; simp [nextSectionLoop]
    | cons line rest ih =>
      intro s
      unfold nextSectionLoop
      split
      · simp
      · simp only []
        split
        · exact Nat.le_succ_of_le (ih _)
        · split
          · exact Nat.le_succ_of_le (ih _)
          · exact Nat.le_succ_of_le (ih _)
  have h2 : rest = (nextSection scanner).2 := by rw [hs]
  have h1 : sect = (nextSection scanner).1 := by rw [hs]
  cases scanner with
  | nil =>
    simp [nextSection, nextSectionLoop] at h1
    subst h1
    simp [mapGet, Atoi, ParseUint] at hi
  | cons line tl =>
    rw [h2]
    unfold nextSection nextSectionLoop
    split
    · simp
    · simp only []
      split
      · exact Nat.lt_succ_of_le (key _ _)
      · split
        · exact Nat.lt_succ_of_le (key _ _)
        · exact Nat.lt_succ_of_le (key _ _)

def ParseWimInfo (r : Str) : Except Error WimInfo :=
  match nextSection (ScanLines r) with
  | (header, scanner) =>
    match Atoi (mapGet [] header "Image Count".toList) with
    | .error err => .error err
    | .ok count =>
      if count = 0 then .error (.errorf "Failed to parse wim info".toList)
      else imageLoop count 1 scanner [(0, header)]

/-! ## Aliases -/

/-- The alias table, `type Aliases map[string][]string`, in the order of the literal. -/
abbrev Aliases := List (Str × List Str)

/-- The order in which a `range` statement visits the entries of a map: the runtime may
pick any permutation of them. -/
structure RangeOrder where
  iter : Aliases → Aliases
  perm : ∀ as, (iter as).Perm as

/-- The order of the map literal. -/
def RangeOrder.declared : RangeOrder :=
  ⟨fun as => as, fun as => List.Perm.refl as⟩

/-- The order of the map literal, backwards. -/
def RangeOrder.reversed : RangeOrder :=
  ⟨fun as => as.reverse, fun as => List.reverse_perm as⟩

/-- A regular-expression engine: `regexp.Compile` followed by `(*Regexp).MatchString`;
`none` stands for an expression that does not compile, on which `regexp.MustCompile`
panics. -/
abbrev Regexp := Str → Option (Str → Bool)

/-- The inner loop of `MatchString` over the patterns of one tag: `some true` when a
pattern matches (the loop returns the tag), `some false` when the loop runs to its end,
`none` when `regexp.MustCompile` panics. -/
def matchPatterns (re : Regexp) (desc : Str) : List Str → Option Bool
  | [] => some false
  | a :: v =>
    match re ("(?i)".toList ++ a) with
    | none => none
    | some m => if m desc then some true else matchPatterns re desc v

/-- The outer loop of `MatchString` over the entries in the order they are visited. -/
def matchEntries (re : Regexp) (desc : Str) : List (Str × List Str) → Option Str
  | [] => some []
  | (k, v) :: rest =>
    match matchPatterns re desc v with
    | none => none
    | some true => some k
    | some false => matchEntries re desc rest

/-- The method `Aliases.MatchString`, for the engine `re` and the visiting order `ρ`;
`none` is a panic. -/
def Aliases.MatchString (re : Regexp) (ρ : RangeOrder) (as : Aliases) (desc : Str) :
    Option Str :=
  matchEntries re desc (ρ.iter as)

/-! ## The regular expressions of the built-in tables

The built-in patterns use literal characters, `.` and `?` only, under the flag `(?i)`.
-/

/-- One character position of a pattern: a literal or `.`. -/
inductive Atom where
  | lit (c : Char)
  | any
  deriving DecidableEq, Repr

/-- An atom and whether `?` follows it. -/
structure Piece where
  atom : Atom
  optional : Bool
  deriving DecidableEq, Repr

/-- The characters with a meaning of their own in the pattern syntax. -/
def isMeta (c : Char) : Bool :=
  c ∈ ['\\', '.', '+', '*', '?', '(', ')', '|', '[', ']', '{', '}', '^', '$']

/-- The atom a pattern character stands for: `.` or a literal; `none` for the other
characters with a meaning of their own and for literals outside ASCII. -/
def atomOf (c : Char) : Option Atom :=
  if c = '.' then some .any
  else if isMeta c ∨ c.toNat ≥ 128 then none
  else some (.lit c)

/-- The pieces of a pattern, read left to right; `pending` is the atom just read, which
a following `?` makes optional. -/
def parsePiecesFrom : Option Atom → Str → Option (List Piece)
  | none, [] => some []
  | some a, [] => some [⟨a, false⟩]
  | none, c :: s =>
    match atomOf c with
    | none => none
    | some b => parsePiecesFrom (some b) s
  | some a, c :: s =>
    if c = '?' then (parsePiecesFrom none s).map (fun ps => ⟨a, true⟩ :: ps)
    else
      match atomOf c with
      | none => none
      | some b => (parsePiecesFrom (some b) s).map (fun ps => ⟨a, false⟩ :: ps)

/-- A pattern of literals, `.` and `?` as its pieces; `none` for an expression outside
this fragment (among them those that do not compile, like one starting with `?`). -/
def parsePieces (expr : Str) : Option (List Piece) :=
  parsePiecesFrom none expr

/-- ASCII lower case. -/
def asciiLower (c : Char) : Char :=
  if 'A' ≤ c ∧ c ≤ 'Z' then Char.ofNat (c.toNat + 32) else c

/-- Whether the text character `c` is matched by the ASCII literal `p` under `(?i)`:
the two are equal up to case, where the case orbit of `k` has the Kelvin sign U+212A
and that of `s` the long s U+017F. -/
def foldEq (p c : Char) : Bool :=
  asciiLower c = asciiLower p ||
  (asciiLower p = 'k' && c.toNat = 0x212A) ||
  (asciiLower p = 's' && c.toNat = 0x17F)

/-- Whether an atom matches a character; `.` matches all but the line feed. -/
def Atom.accepts (fold : Bool) : Atom → Char → Bool
  | .lit p, c => if fold then foldEq p c else p = c
  | .any, c => c ≠ '\n'

/-- Whether the pieces match a beginning of the text. -/
def matchHere (fold : Bool) : List Piece → Str → Bool
  | [], _ => true
  | p :: ps, s =>
    (match s with
     | [] => false
     | c :: t => p.atom.accepts fold c && matchHere fold ps t) ||
    (p.optional && matchHere fold ps s)

/-- Whether the pieces match somewhere in the text (an unanchored search). -/
def searchPieces (fold : Bool) (ps : List Piece) : Str → Bool
  | [] => matchHere fold ps []
  | c :: t => matchHere fold ps (c :: t) || searchPieces fold ps t

/-- The engine of package `regexp` on the fragment of the built-in patterns, with or
without the leading flag `(?i)`; `none` for an expression that does not compile and for
one outside the fragment. -/
def goRegexp : Regexp := fun expr =>
  match expr with
  | '(' :: '?' :: 'i' :: ')' :: body => (parsePieces body).map (fun ps => searchPieces true ps)
  | _ => (parsePieces expr).map (fun ps => searchPieces false ps)

/-- The first map literal of `DetectWindowsVersion`. -/
def versionAliases : Aliases :=
  [("2k12r2".toList, ["2k12r2".toList, "w2k12r2".toList, "win2k12r2".toList,
      "windows.?server.?2012?.r2".toList]),
   ("2k8r2".toList, ["2k8r2".toList, "w2k8r2".toList, "win2k8r2".toList,
      "windows.?server.?2008?.r2".toList]),
   ("w8.1".toList, ["w8.1".toList, "win8.1".toList, "windows.?8.1".toList])]

/-- The second map literal of `DetectWindowsVersion`. -/
def versionAliasesGeneral : Aliases :=
  [("w11".toList, ["w11".toList, "win11".toList, "windows.?11".toList]),
   ("w10".toList, ["w10".toList, "win10".toList, "windows.?10".toList]),
   ("w8".toList, ["w8".toList, "win8".toList, "windows.?8".toList]),
   ("w7".toList, ["w7".toList, "win7".toList, "windows.?7".toList]),
   ("2k19".toList, ["2k19".toList, "w2k19".toList, "win2k19".toList,
      "windows.?server.?2019".toList]),
   ("2k12".toList, ["2k12".toList, "w2k12".toList, "win2k12".toList,
      "windows.?server.?2012".toList]),
   ("2k16".toList, ["2k16".toList, "w2k16".toList, "win2k16".toList,
      "windows.?server.?2016".toList]),
   ("2k22".toList, ["2k22".toList, "w2k22".toList, "win2k22".toList,
      "windows.?server.?2022".toList]),
   ("2k25".toList, ["2k25".toList, "w2k25".toList, "win2k25".toList,
      "windows.?server.?2025".toList]),
   ("2k3".toList, ["2k3".toList, "w2k3".toList, "win2k3".toList,
      "windows.?server.?2003".toList]),
   ("2k8".toList, ["2k8".toList, "w2k8".toList, "win2k8".toList,
      "windows.?server.?2008".toList]),
   ("xp".toList, ["xp".toList, "wxp".toList, "winxp".toList, "windows.?xp".toList])]

/-- The function `DetectWindowsVersion`; `ρ₁` and `ρ₂` are the orders in which the two
map literals are visited, `none` is a panic. -/
def DetectWindowsVersion (ρ₁ ρ₂ : RangeOrder) (desc : Str) : Option Str :=
  match Aliases.MatchString goRegexp ρ₁ versionAliases desc with
  | none => none
  | some version =>
    if version ≠ [] then some version
    else Aliases.MatchString goRegexp ρ₂ versionAliasesGeneral desc

/-- The first map literal of `DetectWindowsArchitecture`. -/
def archAliases : Aliases :=
  [("amd64".toList, ["amd64".toList, "x64".toList, "x86_64".toList]),
   ("ARM64".toList, ["arm64".toList, "aarch64".toList])]

/-- The second map literal of `DetectWindowsArchitecture`. -/
def archAliasesGeneral : Aliases :=
  [("x86".toList, ["x86_32".toList, "x86".toList])]

/-- The function `DetectWindowsArchitecture`; `ρ₁` and `ρ₂` are the orders in which the
two map literals are visited, `none` is a panic. -/
def DetectWindowsArchitecture (ρ₁ ρ₂ : RangeOrder) (desc : Str) : Option Str :=
  match Aliases.MatchString goRegexp ρ₁ archAliases desc with
  | none => none
  | some arch =>
    if arch ≠ [] then some arch
    else Aliases.MatchString goRegexp ρ₂ archAliasesGeneral desc

/-! ## The input format in the words of the specification

These definitions follow the wording of the specification, not the code; the theorems
compare the code with them.
-/

/-- The blocks of a text given by its lines: an empty line ends the block before it, the
end of the text ends the last block. -/
def specBlocks : List Str → List (List Str)
  | [] => []
  | line :: rest =>
    if line = [] then [] :: specBlocks rest
    else
      match specBlocks rest with
      | [] => [[line]]
      | b :: bs => (line :: b) :: bs

/-- The lines of a text: what stands between its line feeds, a line of a text with CR LF
line ends taken without its carriage return. -/
def specLines (r : Str) : List Str :=
  (rawLines r).map dropCR

/-- The field a line declares: the trimmed text before its first `:` as the key, the
trimmed text after it as the value; nothing for a line without `:` or with an empty
key. -/
def specLineField (line : Str) : Option (Str × Str) :=
  if ':' ∈ line then
    let key := TrimSpace (line.takeWhile (fun c => c ≠ ':'))
    if key = [] then none
    else some (key, TrimSpace ((line.dropWhile (fun c => c ≠ ':')).drop 1))
  else none

/-- The value a block gives to a key: that of the last line declaring the key. -/
def specField (block : List Str) (key : Str) : Option Str :=
  ((block.filterMap specLineField).reverse.find? (fun f => decide (f.1 = key))).map
    Prod.snd

/-- The value a block gives to a key, the empty string when no line declares it. -/
def specValue (block : List Str) (key : Str) : Str :=
  (specField block key).getD []

/-- A base-10 integer numeral: an optional sign and one decimal digit or more. -/
def specIsInteger (v : Str) : Bool :=
  let digits := if v.head? = some '+' ∨ v.head? = some '-' then v.tail else v
  digits ≠ [] && digits.all (fun c => '0' ≤ c ∧ c ≤ '9')

/-- Whether the text contains the lower-case marker, letter case ignored. -/
def specContainsFold (marker text : Str) : Prop :=
  marker <:+: text.map asciiLower

/-! ## Forms of the loops used in the proofs -/

/-- What one line that is not empty does to the section being read. -/
def addLine (sect : Section) (line : Str) : Section :=
  match specLineField line with
  | none => sect
  | some (key, val) => mapSet sect key val

/-- The section read from a block. -/
def sectionOf (block : List Str) : Section :=
  block.foldl addLine []

/-- The loop of `imageLoop`, over the blocks the scanner has left. -/
def blockLoop (count : Int) : Int → List (List Str) → WimInfo → Except Error WimInfo
  | i, [], info => if i ≤ count then .error (.numError [] .invalid) else .ok info
  | i, b :: bs, info =>
    if i ≤ count then
      match Atoi (mapGet [] (sectionOf b) "Index".toList) with
      | .error err => .error err
      | .ok index =>
        if index ≠ i then
          .error (.errorf ("Failed to parse wim info: ".toList ++ formatInt index ++
            " != ".toList ++ formatInt i))
        else blockLoop count (incrInt i) bs (mapSet info i (sectionOf b))
    else .ok info

/-- The function `ParseWimInfo`, over the blocks of the text. -/
def parseBlocks (blocks : List (List Str)) : Except Error WimInfo :=
  match Atoi (mapGet [] (sectionOf (blocks.headD [])) "Image Count".toList) with
  | .error err => .error err
  | .ok count =>
    if count = 0 then .error (.errorf "Failed to parse wim info".toList)
    else blockLoop count 1 blocks.tail [(0, sectionOf (blocks.headD []))]

/-- The record the loop adds for the blocks it accepts, the first under the index `i`. -/
def recordOf : Int → List (List Str) → WimInfo
  | _, [] => []
  | i, b :: bs => (i, sectionOf b) :: recordOf (i + 1) bs

/-- Whether the pattern `a` of an alias table, compiled under `(?i)`, matches the text. -/
def patternMatches (re : Regexp) (desc : Str) (a : Str) : Bool :=
  match re ("(?i)".toList ++ a) with
  | none => false
  | some m => m desc

/-- Whether some pattern of the entry matches the text. -/
def tagMatches (re : Regexp) (desc : Str) (e : Str × List Str) : Bool :=
  e.2.any (patternMatches re desc)

/-- The pieces of a pattern of literals only. -/
def literalPieces (m : Str) : List Piece :=
  m.map (fun c => ⟨.lit c, false⟩)

deriving instance DecidableEq for Except

/-- A text of two images, for the examples. -/
def sampleText : Str :=
  ("Image Count: 2\n\nIndex: 1\nName: Windows 10 Pro\nArchitecture: x86_64\n\n" ++
    "Index: 2\nName: Windows 10 Home\nMajor Version: 10\n").toList

/-- The image blocks of `sampleText`. -/
def sampleImages : List (List Str) :=
  [["Index: 1".toList, "Name: Windows 10 Pro".toList, "Architecture: x86_64".toList],
   ["Index: 2".toList, "Name: Windows 10 Home".toList, "Major Version: 10".toList]]

/-- The record of `sampleText`. -/
def sampleRecord : WimInfo :=
  [(0, [("Image Count".toList, "2".toList)]),
   (1, [("Index".toList, "1".toList), ("Name".toList, "Windows 10 Pro".toList),
     ("Architecture".toList, "x86_64".toList)]),
   (2, [("Index".toList, "2".toList), ("Name".toList, "Windows 10 Home".toList),
     ("Major Version".toList, "10".toList)])]

/-- A line of `MaxScanTokenSize` bytes without a colon, for the examples. -/
def longLine : Str :=
  List.replicate MaxScanTokenSize 'x'

/-- A line of `MaxScanTokenSize` bytes that declares a name, for the examples. -/
def longName : Str :=
  "Name: ".toList ++ List.replicate (MaxScanTokenSize - 6) 'x'

/-- A line of more than `MaxScanTokenSize` bytes, for the examples: the field followed
by `MaxScanTokenSize` spaces. -/
def padded (field : Str) : Str :=
  field ++ List.replicate MaxScanTokenSize ' '

/-- A string without surrounding white space: neither its first nor its last character
is a space. -/
def specTrimmed (s : Str) : Prop :=
  (∀ c, s.head? = some c → isSpace c = false) ∧
  (∀ c, s.getLast? = some c → isSpace c = false)

/-- A field as the specification has it: the key is not empty, has no surrounding white
space and no `:`, the value has no surrounding white space. -/
def specFieldOk (f : Str × Str) : Prop :=
  f.1 ≠ [] ∧ specTrimmed f.1 ∧ ':' ∉ f.1 ∧ specTrimmed f.2

/-- Whether some entry of the table matches the text and every entry that matches it
carries the tag `t`. -/
def uniqueTag (as : Aliases) (desc t : Str) : Bool :=
  as.any (tagMatches goRegexp desc) &&
  as.all (fun e => !tagMatches goRegexp desc e || decide (e.1 = t))

/-- Whether no entry of the table matches the text. -/
def noTag (as : Aliases) (desc : Str) : Bool :=
  as.all (fun e => !tagMatches goRegexp desc e)

/-- Whether a first and a second table classify the text as `t` in every visiting order:
the entries of the first that match all carry `t`, or none of the first matches and
the entries of the second that match all carry `t`. -/
def classifiesAs (first second : Aliases) (desc t : Str) : Bool :=
  uniqueTag first desc t || (noTag first desc && uniqueTag second desc t)

/-- The separators of the claim on optional separators. -/
def separators : List Str :=
  [[], " ".toList, ".".toList, "-".toList]

/-! # Lemmas

## Go maps -/

theorem mapGet_mapSet {κ ν : Type} [DecidableEq κ] (zero : ν) (m : List (κ × ν))
    (k k' : κ) (v : ν) :
    mapGet zero (mapSet m k v) k' = if k = k' then v else mapGet zero m k' := by
  induction m with
  | nil => simp [mapSet, mapGet]
  | cons e m ih =>
    obtain ⟨a, b⟩ := e
    by_cases h : a = k
    · subst h
      by_cases h' : a = k' <;> simp [mapSet, mapGet, h']
    · by_cases h' : a = k'
      · subst h'
        have : ¬ k = a := fun e => h e.symm
        simp [mapSet, mapGet, h, this]
      · simp [mapSet, mapGet, h, h', ih]

theorem mapSet_length_of_absent {κ ν : Type} [DecidableEq κ] (m : List (κ × ν)) (k : κ)
    (v : ν) (h : ∀ e ∈ m, e.1 ≠ k) : (mapSet m k v).length = m.length + 1 := by
  induction m with
  | nil => simp [mapSet]
  | cons e m ih =>
    obtain ⟨a, b⟩ := e
    have ha : a ≠ k := h (a, b) (List.mem_cons_self _ _)
    have := ih (fun e he => h e (List.mem_cons_of_mem _ he))
    simp [mapSet, ha, this]

theorem mem_mapSet {κ ν : Type} [DecidableEq κ] (m : List (κ × ν)) (k : κ) (v : ν)
    (e : κ × ν) (h : e ∈ mapSet m k v) : e ∈ m ∨ e = (k, v) := by
  induction m with
  | nil => simp [mapSet] at h; exact Or.inr h
  | cons x m ih =>
    obtain ⟨a, b⟩ := x
    by_cases ha : a = k
    · subst ha
      simp [mapSet] at h
      rcases h with h | h
      · exact Or.inr h
      · exact Or.inl (List.mem_cons_of_mem _ h)
    · simp [mapSet, ha] at h
      rcases h with h | h
      · exact Or.inl (h ▸ List.mem_cons_self _ _)
      · rcases ih h with h | h
        · exact Or.inl (List.mem_cons_of_mem _ h)
        · exact Or.inr h

/-! ## The closure `nextSection` and the blocks of the text -/

theorem IndexByte_nonneg_or (s : Str) (c : Char) :
    (IndexByte s c = -1 ∧ c ∉ s) ∨
    (c ∈ s ∧ IndexByte s c = ((s.takeWhile (fun x => x ≠ c)).length : Int)) := by
  induction s with
  | nil => simp [IndexByte]
  | cons x s ih =>
    by_cases h : x = c
    · subst h
      right
      simp [IndexByte]
    · have hc : ¬ c = x := fun e => h e.symm
      rcases ih with ⟨h1, h2⟩ | ⟨h1, h2⟩
      · left
        simp [IndexByte, h, h1, h2, hc]
      · right
        have : ¬ ((s.takeWhile (fun x => x ≠ c)).length : Int) = -1 := by omega
        simp [IndexByte, h, h1, h2, this]

theorem take_takeWhile_length (p : Char → Bool) (l : Str) :
    l.take (l.takeWhile p).length = l.takeWhile p ∧
    l.drop (l.takeWhile p).length = l.dropWhile p := by
  induction l with
  | nil => simp
  | cons x l ih =>
    by_cases h : p x
    · simp [List.takeWhile_cons, List.dropWhile_cons, h, ih.1, ih.2]
    · simp [List.takeWhile_cons, List.dropWhile_cons, h]

theorem nextSectionLoop_cons (sect : Section) (line : Str) (rest : List Str)
    (h : line ≠ []) :
    nextSectionLoop sect (line :: rest) = nextSectionLoop (addLine sect line) rest := by
  rw [nextSectionLoop]
  simp only [h, if_false]
  rcases IndexByte_nonneg_or line ':' with ⟨h1, h2⟩ | ⟨h1, h2⟩
  · simp [h1, addLine, specLineField, h2]
  · have hne : ¬ ((line.takeWhile (fun x => x ≠ ':')).length : Int) = -1 := by omega
    have ht := take_takeWhile_length (fun x => x ≠ ':') line
    simp only [h2, hne, if_false, Int.toNat_ofNat, ht.1, ← List.drop_drop, ht.2, addLine,
      specLineField, h1, if_true]
    by_cases hk : TrimSpace (line.takeWhile (fun x => x ≠ ':')) = []
    · simp only [hk, if_true]
    · simp only [hk, if_false]

theorem nextSectionLoop_nil (sect : Section) : nextSectionLoop sect [] = (sect, []) := by
  simp [nextSectionLoop]

theorem nextSectionLoop_empty_line (sect : Section) (rest : List Str) :
    nextSectionLoop sect ([] :: rest) = (sect, rest) := by
  simp [nextSectionLoop]

/-- A block of `specBlocks` has no empty line. -/
theorem specBlocks_no_empty_line (lines : List Str) :
    ∀ b ∈ specBlocks lines, ∀ line ∈ b, line ≠ [] := by
  induction lines with
  | nil => simp [specBlocks]
  | cons line rest ih =>
    by_cases h : line = []
    · subst h
      intro b hb
      simp only [specBlocks, if_true, List.mem_cons] at hb
      rcases hb with hb | hb
      · subst hb; simp
      · exact ih b hb
    · intro b hb
      simp only [specBlocks, h, if_false] at hb
      cases hsb : specBlocks rest with
      | nil =>
        rw [hsb] at hb
        simp at hb
        subst hb
        simpa using h
      | cons b' bs =>
        rw [hsb] at hb ih
        simp only [List.mem_cons] at hb
        rcases hb with hb | hb
        · subst hb
          intro l hl
          rcases List.mem_cons.1 hl with hl | hl
          · subst hl; exact h
          · exact ih b' (List.mem_cons_self _ _) l hl
        · exact ih b (List.mem_cons_of_mem _ hb)

/-- Reading a block line by line folds `addLine` over it. -/
theorem nextSectionLoop_block (b : List Str) (hb : ∀ line ∈ b, line ≠ []) (sect : Section) :
    (nextSectionLoop sect b).1 = b.foldl addLine sect := by
  induction b generalizing sect with
  | nil => simp [nextSectionLoop]
  | cons line rest ih =>
    rw [nextSectionLoop_cons sect line rest (hb line (List.mem_cons_self _ _))]
    rw [ih (fun l hl => hb l (List.mem_cons_of_mem _ hl))]
    rfl

/-- One call of `nextSection` reads the first block of the text and leaves the others. -/
theorem nextSectionLoop_specBlocks (lines : List Str) (sect : Section) :
    (nextSectionLoop sect lines).1 = ((specBlocks lines).headD []).foldl addLine sect ∧
    specBlocks (nextSectionLoop sect lines).2 = (specBlocks lines).tail := by
  induction lines generalizing sect with
  | nil => simp [nextSectionLoop, specBlocks]
  | cons line rest ih =>
    by_cases h : line = []
    · subst h
      simp [nextSectionLoop, specBlocks]
    · rw [nextSectionLoop_cons sect line rest h]
      obtain ⟨ih1, ih2⟩ := ih (addLine sect line)
      rw [ih1, ih2]
      simp only [specBlocks, h, if_false]
      cases hsb : specBlocks rest with
      | nil => simp
      | cons b bs => simp

theorem nextSection_specBlocks (lines : List Str) :
    (nextSection lines).1 = sectionOf ((specBlocks lines).headD []) ∧
    specBlocks (nextSection lines).2 = (specBlocks lines).tail :=
  nextSectionLoop_specBlocks lines []

theorem Atoi_nil : Atoi [] = .error (.numError [] .invalid) := by
  simp [Atoi, ParseUint]

/-- The loop of `ParseWimInfo` depends on the text through its blocks only. -/
theorem imageLoop_eq_blockLoop (count : Int) (blocks : List (List Str)) :
    ∀ (lines : List Str), specBlocks lines = blocks → ∀ (i : Int) (info : WimInfo),
      imageLoop count i lines info = blockLoop count i blocks info := by
  induction blocks with
  | nil =>
    intro lines hl i info
    obtain ⟨h1, h2⟩ := nextSection_specBlocks lines
    rw [hl] at h1 h2
    rw [imageLoop]
    by_cases hic : i ≤ count
    · simp only [hic, if_true, blockLoop]
      simp only [List.headD_nil] at h1
      have hA : Atoi (mapGet [] (nextSection lines).1 "Index".toList) =
          .error (.numError [] .invalid) := by
        rw [h1]
        simp only [sectionOf, List.foldl_nil, mapGet, Atoi_nil]
      split
      · rename_i err he
        rw [hA] at he
        cases he
        rfl
      · rename_i index he
        rw [hA] at he
        cases he
    · simp only [hic, if_false, blockLoop]
  | cons b bs ih =>
    intro lines hl i info
    obtain ⟨h1, h2⟩ := nextSection_specBlocks lines
    rw [hl] at h1 h2
    rw [imageLoop]
    by_cases hic : i ≤ count
    · simp only [hic, if_true, blockLoop]
      simp only [List.headD_cons, List.tail_cons] at h1 h2
      split
      · rename_i err he
        rw [h1] at he
        simp only [he]
      · rename_i index he
        rw [h1] at he
        simp only [he]
        by_cases hx : index = i
        · simp only [hx, ne_eq, not_true_eq_false, if_false]
          rw [ih _ h2, h1]
        · simp only [hx, ne_eq, not_false_eq_true, if_true]
    · simp only [hic, if_false, blockLoop]

/-- The function `ParseWimInfo` depends on the text through its blocks only. -/
theorem ParseWimInfo_eq_parseBlocks (r : Str) :
    ParseWimInfo r = parseBlocks (specBlocks (ScanLines r)) := by
  obtain ⟨h1, h2⟩ := nextSection_specBlocks (ScanLines r)
  unfold ParseWimInfo parseBlocks
  split
  rename_i header scanner hs
  rw [hs] at h1 h2
  simp only at h1 h2
  subst h1
  split
  · rfl
  · rename_i count he
    by_cases hc : count = 0
    · simp only [hc, if_true]
    · simp only [hc, if_false]
      exact imageLoop_eq_blockLoop count _ scanner h2 _ _

/-! ## Sections and fields -/

theorem find?_append_singleton {α : Type} (p : α → Bool) (l : List α) (x : α) :
    (l ++ [x]).reverse.find? p = if p x then some x else l.reverse.find? p := by
  simp [List.find?_cons]
  cases p x <;> simp

theorem specField_cons (line : Str) (b : List Str) (key : Str) :
    specField (line :: b) key =
      match specField b key with
      | some v => some v
      | none =>
        match specLineField line with
        | some (k, v) => if k = key then some v else none
        | none => none := by
  unfold specField
  cases hl : specLineField line with
  | none => simp [List.filterMap_cons, hl]; cases h : (List.find? (fun f => decide (f.1 = key)) (List.filterMap specLineField b).reverse) <;> simp
  | some f =>
    obtain ⟨k, v⟩ := f
    simp only [List.filterMap_cons, hl, List.reverse_cons, List.find?_append]
    cases h : (List.find? (fun f => decide (f.1 = key)) (List.filterMap specLineField b).reverse) with
    | some x => simp
    | none =>
      by_cases hk : k = key <;> simp [List.find?_cons, hk]

/-- Looking a key up in the section read from a block gives the value of the last line
of the block declaring the key. -/
theorem mapGet_foldl_addLine (b : List Str) (key : Str) (sect : Section) :
    mapGet [] (b.foldl addLine sect) key =
      match specField b key with
      | some v => v
      | none => mapGet [] sect key := by
  induction b generalizing sect with
  | nil => simp [specField]
  | cons line b ih =>
    rw [List.foldl_cons, ih, specField_cons]
    cases h : specField b key with
    | some v => rfl
    | none =>
      simp only [addLine]
      cases hl : specLineField line with
      | none => rfl
      | some f =>
        obtain ⟨k, v⟩ := f
        simp only [mapGet_mapSet]
        by_cases hk : k = key <;> simp [hk]

theorem mapGet_sectionOf (b : List Str) (key : Str) :
    mapGet [] (sectionOf b) key = specValue b key := by
  unfold sectionOf specValue
  rw [mapGet_foldl_addLine]
  cases specField b key <;> simp [mapGet]

/-! ## Integers -/

theorem incrInt_eq (i : Int) (h1 : -2 ^ 63 ≤ i) (h2 : i + 1 < 2 ^ 63) : incrInt i = i + 1 := by
  unfold incrInt
  have : (i + 1 + 2 ^ 63) % 2 ^ 64 = i + 1 + 2 ^ 63 := by
    apply Int.emod_eq_of_lt <;> omega
  omega

theorem Atoi_range (s : Str) (n : Int) (h : Atoi s = .ok n) : -2 ^ 63 ≤ n ∧ n < 2 ^ 63 := by
  unfold Atoi at h
  simp only at h
  split at h
  · cases h
  · rename_i un hu
    split at h
    · cases h
    · split at h
      · cases h
      · rename_i h1 h2
        injection h with h
        subst h
        by_cases hneg : s.head? = some '-'
        · simp only [hneg, if_true]
          simp only [hneg, true_and, not_lt] at h2
          have : (un : Int) ≤ 2 ^ 63 := by exact_mod_cast h2
          omega
        · simp only [hneg, if_false]
          simp only [hneg, not_false_eq_true, true_and, not_le] at h1
          have : (un : Int) < 2 ^ 63 := by exact_mod_cast h1
          omega

theorem parseUintLoop_not_digits (s : Str) (h : s.all (fun c => '0' ≤ c ∧ c ≤ '9') = false) :
    ∀ n, ∃ k, parseUintLoop n s = .error k := by
  induction s with
  | nil => simp at h
  | cons c s ih =>
    intro n
    unfold parseUintLoop
    by_cases hc : '0' ≤ c ∧ c ≤ '9'
    · simp only [hc, and_self, if_true]
      split
      · exact ⟨_, rfl⟩
      · split
        · exact ⟨_, rfl⟩
        · apply ih
          simpa [hc] using h
    · exact ⟨.invalid, by simp only [hc, if_false]⟩

/-- The function `Atoi` rejects what is not a base-10 integer numeral. -/
theorem Atoi_not_integer (v : Str) (h : specIsInteger v = false) :
    ∃ k, Atoi v = .error (.numError v k) := by
  unfold specIsInteger at h
  unfold Atoi
  simp only at h ⊢
  generalize (if v.head? = some '+' ∨ v.head? = some '-' then v.tail else v) = digits at h ⊢
  by_cases hd : digits = []
  · exact ⟨.invalid, by simp [hd, ParseUint]⟩
  · have hall : digits.all (fun c => '0' ≤ c ∧ c ≤ '9') = false := by
      simpa [hd] using h
    obtain ⟨k, hk⟩ := parseUintLoop_not_digits digits hall 0
    exact ⟨k, by simp [ParseUint, hd, hk]⟩

/-! ## The loop over the blocks -/

theorem mapSet_of_absent {κ ν : Type} [DecidableEq κ] (m : List (κ × ν)) (k : κ) (v : ν)
    (h : ∀ e ∈ m, e.1 ≠ k) : mapSet m k v = m ++ [(k, v)] := by
  induction m with
  | nil => simp [mapSet]
  | cons e m ih =>
    obtain ⟨a, b⟩ := e
    have ha : a ≠ k := h (a, b) (List.mem_cons_self _ _)
    have := ih (fun e he => h e (List.mem_cons_of_mem _ he))
    simp [mapSet, ha, this]

theorem blockLoop_done (count i : Int) (blocks : List (List Str)) (info : WimInfo)
    (h : ¬ i ≤ count) : blockLoop count i blocks info = .ok info := by
  cases blocks <;> simp [blockLoop, h]

/-- The loop accepts `n` blocks carrying the indices `i`, `i + 1`, ... up to `count`, and
does not look at the blocks after them. -/
theorem blockLoop_ok (count : Int) (n : Nat) :
    ∀ (blocks : List (List Str)) (i : Int) (info : WimInfo),
      n ≤ blocks.length →
      (∀ j, j < n →
        Atoi (mapGet [] (sectionOf (blocks.getD j [])) "Index".toList) = .ok (i + j)) →
      -2 ^ 63 ≤ i → count = i + n - 1 → count < 2 ^ 63 - 1 →
      (∀ e ∈ info, e.1 < i) →
      blockLoop count i blocks info = .ok (info ++ recordOf i (blocks.take n)) := by
  induction n with
  | zero =>
    intro blocks i info _ _ _ hc _ _
    rw [blockLoop_done count i blocks info (by omega)]
    simp [recordOf]
  | succ n ih =>
    intro blocks i info hlen hvalid hi hc hmax hkeys
    cases blocks with
    | nil => simp at hlen
    | cons b bs =>
      have h0 := hvalid 0 (Nat.succ_pos n)
      simp only [List.getD_cons_zero, Nat.cast_zero, add_zero] at h0
      have hic : i ≤ count := by push_cast at hc; omega
      have hset : mapSet info i (sectionOf b) = info ++ [(i, sectionOf b)] :=
        mapSet_of_absent info i _ (fun e he => ne_of_lt (hkeys e he))
      have hincr : incrInt i = i + 1 := incrInt_eq i hi (by push_cast at hc; omega)
      simp only [blockLoop, hic, if_true, h0, ne_eq, not_true_eq_false, if_false, hset, hincr]
      rw [ih bs (i + 1) (info ++ [(i, sectionOf b)]) (by simpa using hlen)
        (fun j hj => by
          have := hvalid (j + 1) (Nat.succ_lt_succ hj)
          simp only [List.getD_cons_succ] at this
          rw [this]; push_cast; congr 1; ring)
        (by omega) (by push_cast at hc ⊢; omega) hmax
        (fun e he => by
          rcases List.mem_append.1 he with he | he
          · have := hkeys e he; omega
          · simp at he; subst he; simp)]
      simp [recordOf]

/-- The loop stops with the mismatch error at the first block out of place. -/
theorem blockLoop_mismatch (count : Int) (good : List (List Str)) :
    ∀ (bad : List Str) (later : List (List Str)) (i j : Int) (info : WimInfo),
      (∀ k, k < good.length →
        Atoi (mapGet [] (sectionOf (good.getD k [])) "Index".toList) = .ok (i + k)) →
      Atoi (mapGet [] (sectionOf bad) "Index".toList) = .ok j →
      j ≠ i + good.length → -2 ^ 63 ≤ i → i + good.length ≤ count → count < 2 ^ 63 →
      blockLoop count i (good ++ bad :: later) info =
        .error (.errorf ("Failed to parse wim info: ".toList ++ formatInt j ++
          " != ".toList ++ formatInt (i + good.length))) := by
  induction good with
  | nil =>
    intro bad later i j info _ hbad hj _ hic _
    simp only [List.length_nil, Nat.cast_zero, add_zero] at hj hic
    simp only [List.nil_append, blockLoop, hic, if_true, hbad, ne_eq, hj, not_false_eq_true,
      List.length_nil, Nat.cast_zero, add_zero]
  | cons b bs ih =>
    intro bad later i j info hvalid hbad hj hi hic hmax
    have h0 := hvalid 0 (by simp)
    simp only [List.getD_cons_zero, Nat.cast_zero, add_zero] at h0
    simp only [List.length_cons, Nat.cast_add, Nat.cast_one] at hj hic
    have hic' : i ≤ count := by omega
    have hincr : incrInt i = i + 1 := incrInt_eq i hi (by omega)
    simp only [List.cons_append, blockLoop, hic', if_true, h0, ne_eq, not_true_eq_false,
      if_false, hincr, List.append_eq]
    rw [ih bad later (i + 1) j _
      (fun k hk => by
        have := hvalid (k + 1) (by simpa using hk)
        simp only [List.getD_cons_succ] at this
        rw [this]; push_cast; congr 1; ring)
      hbad (by intro h; apply hj; rw [h]; ring) (by omega) (by omega) hmax]
    have e : i + 1 + (bs.length : Int) = i + ((bs.length : Int) + 1) := by ring
    simp only [List.length_cons, Nat.cast_add, Nat.cast_one, e]

/-- The loop stops with the error of `Atoi` on the empty string once the blocks run
out before `count` is reached. -/
theorem blockLoop_exhausted (count : Int) (good : List (List Str)) :
    ∀ (i : Int) (info : WimInfo),
      (∀ k, k < good.length →
        Atoi (mapGet [] (sectionOf (good.getD k [])) "Index".toList) = .ok (i + k)) →
      -2 ^ 63 ≤ i → i + good.length ≤ count → count < 2 ^ 63 →
      blockLoop count i good info = .error (.numError [] .invalid) := by
  induction good with
  | nil =>
    intro i info _ _ hic _
    simp only [List.length_nil, Nat.cast_zero, add_zero] at hic
    simp [blockLoop, hic]
  | cons b bs ih =>
    intro i info hvalid hi hic hmax
    have h0 := hvalid 0 (by simp)
    simp only [List.getD_cons_zero, Nat.cast_zero, add_zero] at h0
    simp only [List.length_cons, Nat.cast_add, Nat.cast_one] at hic
    have hic' : i ≤ count := by omega
    have hincr : incrInt i = i + 1 := incrInt_eq i hi (by omega)
    simp only [blockLoop, hic', if_true, h0, ne_eq, not_true_eq_false, if_false, hincr]
    exact ih (i + 1) _
      (fun k hk => by
        have := hvalid (k + 1) (by simpa using hk)
        simp only [List.getD_cons_succ] at this
        rw [this]; push_cast; congr 1; ring)
      (by omega) (by omega) hmax

theorem incrInt_cases (i : Int) (h1 : -2 ^ 63 ≤ i) (h2 : i < 2 ^ 63) :
    incrInt i = i + 1 ∨ (i = 2 ^ 63 - 1 ∧ incrInt i = -2 ^ 63) := by
  by_cases h : i + 1 < 2 ^ 63
  · exact Or.inl (incrInt_eq i h1 h)
  · have hi : i = 2 ^ 63 - 1 := by omega
    subst hi
    exact Or.inr ⟨rfl, by decide⟩

/-- When the loop returns a record, the scanner has delivered a block that is not
empty for every index from `i` to `count`. -/
theorem blockLoop_ok_blocks (count : Int) (hmax : count < 2 ^ 63) (blocks : List (List Str)) :
    ∀ (i : Int) (info info' : WimInfo),
      blockLoop count i blocks info = .ok info' → i ≤ count →
      (count - i + 1).toNat ≤ (blocks.filter (fun b => decide (b ≠ []))).length := by
  induction blocks with
  | nil =>
    intro i info info' h hic
    simp [blockLoop, hic] at h
  | cons b bs ih =>
    intro i info info' h hic
    simp only [blockLoop, hic, if_true] at h
    split at h
    · cases h
    · rename_i index hidx
      by_cases hx : index = i
      · subst hx
        simp only [ne_eq, not_true_eq_false, if_false] at h
        have hb : b ≠ [] := by
          intro hb
          subst hb
          simp only [sectionOf, List.foldl_nil, mapGet, Atoi_nil] at hidx
          cases hidx
        obtain ⟨r1, r2⟩ := Atoi_range _ _ hidx
        have hlen : (List.filter (fun b => decide (b ≠ [])) (b :: bs)).length =
            (List.filter (fun b => decide (b ≠ [])) bs).length + 1 := by
          simp [List.filter_cons, hb]
        rw [hlen]
        by_cases hnext : incrInt index ≤ count
        · have := ih _ _ _ h hnext
          rcases incrInt_cases index r1 r2 with e | ⟨e1, e2⟩
          · rw [e] at this; omega
          · omega
        · rcases incrInt_cases index r1 r2 with e | ⟨e1, e2⟩
          · rw [e] at hnext; omega
          · omega
      · simp only [ne_eq, hx, not_false_eq_true, if_true] at h
        cases h

theorem recordOf_length (bs : List (List Str)) : ∀ i, (recordOf i bs).length = bs.length := by
  induction bs with
  | nil => intro i; rfl
  | cons b bs ih => intro i; simp [recordOf, ih]

theorem mapGet_recordOf (bs : List (List Str)) :
    ∀ (i : Int) (j : Nat), j < bs.length →
      mapGet [] (recordOf i bs) (i + j) = sectionOf (bs.getD j []) := by
  induction bs with
  | nil => intro i j hj; simp at hj
  | cons b bs ih =>
    intro i j hj
    cases j with
    | zero => simp [recordOf, mapGet]
    | succ j =>
      have hne : ¬ i = i + ((j + 1 : Nat) : Int) := by push_cast; omega
      have := ih (i + 1) j (by simpa using hj)
      simp only [recordOf, mapGet, hne, if_false, List.getD_cons_succ]
      rw [← this]
      congr 1
      push_cast
      ring

/-- The record `ParseWimInfo` returns for the header block `header` declaring the count
`N` and image blocks carrying the indices `1` to `N`: the blocks after the first `N`
are not read. -/
theorem parseBlocks_ok (header : List Str) (images : List (List Str)) (N : Nat)
    (hN : 1 ≤ N) (hmax : (N : Int) < 2 ^ 63 - 1) (hlen : N ≤ images.length)
    (hcount : Atoi (specValue header "Image Count".toList) = .ok (N : Int))
    (hindex : ∀ j, j < N →
      Atoi (specValue (images.getD j []) "Index".toList) = .ok ((j : Int) + 1)) :
    parseBlocks (header :: images) =
      .ok ((0, sectionOf header) :: recordOf 1 (images.take N)) := by
  have hne : ¬ (N : Int) = 0 := by omega
  simp only [parseBlocks, List.headD_cons, List.tail_cons, mapGet_sectionOf, hcount, hne,
    if_false]
  rw [blockLoop_ok (N : Int) N images 1 [(0, sectionOf header)] hlen
    (fun j hj => by rw [mapGet_sectionOf, hindex j hj]; congr 1; ring)
    (by norm_num) (by ring) hmax (fun e he => by simp at he; subst he; simp)]
  rfl

/-! ## Lines that declare no field -/

theorem nextSectionLoop_insert (line : Str) (post : List Str) (hne : line ≠ [])
    (hskip : specLineField line = none) :
    ∀ (pre : List Str) (sect : Section),
      (nextSectionLoop sect (pre ++ line :: post)).1 =
        (nextSectionLoop sect (pre ++ post)).1 ∧
      ((nextSectionLoop sect (pre ++ line :: post)).2 =
          (nextSectionLoop sect (pre ++ post)).2 ∨
        ∃ pre', (nextSectionLoop sect (pre ++ post)).2 = pre' ++ post ∧
          (nextSectionLoop sect (pre ++ line :: post)).2 = pre' ++ line :: post) := by
  intro pre
  induction pre with
  | nil =>
    intro sect
    have : addLine sect line = sect := by simp only [addLine, hskip]
    simp only [List.nil_append]
    rw [nextSectionLoop_cons sect line post hne, this]
    exact ⟨rfl, Or.inl rfl⟩
  | cons x pre ih =>
    intro sect
    by_cases hx : x = []
    · subst hx
      rw [List.cons_append, List.cons_append, nextSectionLoop_empty_line,
        nextSectionLoop_empty_line]
      exact ⟨rfl, Or.inr ⟨pre, rfl, rfl⟩⟩
    · simp only [List.cons_append]
      rw [nextSectionLoop_cons sect x _ hx, nextSectionLoop_cons sect x _ hx]
      exact ih _

/-- The loop of `ParseWimInfo` on a text into which a line declaring no field has been
put, against the blocks of the text without it. -/
theorem imageLoop_insert (line : Str) (post : List Str) (hne : line ≠ [])
    (hskip : specLineField line = none) (count : Int) (blocks : List (List Str)) :
    ∀ (l l' : List Str), specBlocks l = blocks →
      (l' = l ∨ ∃ pre, l = pre ++ post ∧ l' = pre ++ line :: post) →
      ∀ (i : Int) (info : WimInfo),
        imageLoop count i l' info = blockLoop count i blocks info := by
  induction blocks with
  | nil =>
    intro l l' hl hrel i info
    rcases hrel with rfl | ⟨pre, rfl, rfl⟩
    · exact imageLoop_eq_blockLoop count [] _ hl i info
    · obtain ⟨h1, _⟩ := nextSection_specBlocks (pre ++ post)
      obtain ⟨e1, _⟩ := nextSectionLoop_insert line post hne hskip pre []
      rw [hl] at h1
      simp only [List.headD_nil] at h1
      have hA : Atoi (mapGet [] (nextSection (pre ++ line :: post)).1 "Index".toList) =
          .error (.numError [] .invalid) := by
        unfold nextSection at h1 ⊢
        rw [e1, h1]
        simp only [sectionOf, List.foldl_nil, mapGet, Atoi_nil]
      rw [imageLoop]
      by_cases hic : i ≤ count
      · simp only [hic, if_true, blockLoop]
        split
        · rename_i err he
          rw [hA] at he
          cases he
          rfl
        · rename_i index he
          rw [hA] at he
          cases he
      · simp only [hic, if_false, blockLoop]
  | cons b bs ih =>
    intro l l' hl hrel i info
    rcases hrel with rfl | ⟨pre, rfl, rfl⟩
    · exact imageLoop_eq_blockLoop count _ _ hl i info
    · obtain ⟨h1, h2⟩ := nextSection_specBlocks (pre ++ post)
      obtain ⟨e1, e2⟩ := nextSectionLoop_insert line post hne hskip pre []
      rw [hl] at h1 h2
      simp only [List.headD_cons, List.tail_cons] at h1 h2
      have h1' : (nextSection (pre ++ line :: post)).1 = sectionOf b := by
        unfold nextSection at h1 ⊢
        rw [e1, h1]
      have hrest : ∀ (i : Int) (info : WimInfo),
          imageLoop count i (nextSection (pre ++ line :: post)).2 info =
            blockLoop count i bs info := by
        intro i info
        apply ih (nextSection (pre ++ post)).2 _ h2
        unfold nextSection
        rcases e2 with e2 | ⟨pre', e3, e4⟩
        · exact Or.inl e2
        · exact Or.inr ⟨pre', e3, e4⟩
      rw [imageLoop]
      by_cases hic : i ≤ count
      · simp only [hic, if_true, blockLoop]
        split
        · rename_i err he
          rw [h1'] at he
          simp only [he]
        · rename_i index he
          rw [h1'] at he
          simp only [he]
          by_cases hx : index = i
          · simp only [hx, ne_eq, not_true_eq_false, if_false]
            rw [hrest, h1']
          · simp only [hx, ne_eq, not_false_eq_true, if_true]
      · simp only [hic, if_false, blockLoop]

/-! ## Alias tables -/

theorem matchPatterns_true (re : Regexp) (desc : Str) (v : List Str)
    (h : matchPatterns re desc v = some true) : ∃ a ∈ v, patternMatches re desc a = true := by
  induction v with
  | nil => simp [matchPatterns] at h
  | cons a v ih =>
    unfold matchPatterns at h
    cases hre : re ("(?i)".toList ++ a) with
    | none => simp only [hre] at h; cases h
    | some m =>
      simp only [hre] at h
      by_cases hm : m desc = true
      · exact ⟨a, List.mem_cons_self _ _, by simp only [patternMatches, hre, hm]⟩
      · simp only [hm, if_false] at h
        obtain ⟨a', ha', h'⟩ := ih h
        exact ⟨a', List.mem_cons_of_mem _ ha', h'⟩

theorem matchPatterns_false (re : Regexp) (desc : Str) (v : List Str)
    (h : matchPatterns re desc v = some false) :
    ∀ a ∈ v, (re ("(?i)".toList ++ a)).isSome = true ∧ patternMatches re desc a = false := by
  induction v with
  | nil => intro a ha; simp at ha
  | cons a v ih =>
    unfold matchPatterns at h
    cases hre : re ("(?i)".toList ++ a) with
    | none => simp only [hre] at h; cases h
    | some m =>
      simp only [hre] at h
      by_cases hm : m desc = true
      · simp only [hm, if_true] at h
        cases h
      · simp only [hm, if_false] at h
        intro a' ha'
        rcases List.mem_cons.1 ha' with rfl | ha'
        · exact ⟨by simp only [hre, Option.isSome_some],
            by simpa only [patternMatches, hre, Bool.not_eq_true] using hm⟩
        · exact ih h a' ha'

theorem matchPatterns_isSome (re : Regexp) (desc : Str) (v : List Str)
    (h : ∀ a ∈ v, (re ("(?i)".toList ++ a)).isSome = true) :
    (matchPatterns re desc v).isSome = true := by
  induction v with
  | nil => rfl
  | cons a v ih =>
    unfold matchPatterns
    have ha := h a (List.mem_cons_self _ _)
    cases hre : re ("(?i)".toList ++ a) with
    | none => rw [hre] at ha; cases ha
    | some m =>
      simp only
      by_cases hm : m desc = true
      · simp only [hm, if_true, Option.isSome_some]
      · simp only [hm, if_false]
        exact ih (fun a' ha' => h a' (List.mem_cons_of_mem _ ha'))

theorem tagMatches_eq_false (re : Regexp) (desc : Str) (e : Str × List Str) :
    tagMatches re desc e = false ↔ ∀ a ∈ e.2, patternMatches re desc a = false := by
  simp [tagMatches, List.any_eq_false]

theorem tagMatches_eq_true (re : Regexp) (desc : Str) (e : Str × List Str) :
    tagMatches re desc e = true ↔ ∃ a ∈ e.2, patternMatches re desc a = true := by
  simp [tagMatches, List.any_eq_true]

/-- What the outer loop returns: a tag with a matching pattern, or the empty string
after every pattern of every entry has been tried without a match. -/
theorem matchEntries_sound (re : Regexp) (desc : Str) (l : List (Str × List Str)) :
    ∀ r, matchEntries re desc l = some r →
      (∃ e ∈ l, e.1 = r ∧ tagMatches re desc e = true) ∨
      (r = [] ∧ ∀ e ∈ l, tagMatches re desc e = false) := by
  induction l with
  | nil =>
    intro r h
    simp only [matchEntries, Option.some.injEq] at h
    exact Or.inr ⟨h.symm, fun e he => by simp at he⟩
  | cons x l ih =>
    obtain ⟨k, v⟩ := x
    intro r h
    unfold matchEntries at h
    cases hp : matchPatterns re desc v with
    | none => simp only [hp] at h; cases h
    | some b =>
      cases b with
      | true =>
        simp only [hp, Option.some.injEq] at h
        exact Or.inl ⟨(k, v), List.mem_cons_self _ _, h,
          (tagMatches_eq_true re desc (k, v)).2 (matchPatterns_true re desc v hp)⟩
      | false =>
        simp only [hp] at h
        have hkv : tagMatches re desc (k, v) = false :=
          (tagMatches_eq_false re desc (k, v)).2
            (fun a ha => (matchPatterns_false re desc v hp a ha).2)
        rcases ih r h with ⟨e, he, h1, h2⟩ | ⟨h1, h2⟩
        · exact Or.inl ⟨e, List.mem_cons_of_mem _ he, h1, h2⟩
        · refine Or.inr ⟨h1, fun e he => ?_⟩
          rcases List.mem_cons.1 he with rfl | he
          · exact hkv
          · exact h2 e he

theorem matchEntries_isSome (re : Regexp) (desc : Str) (l : List (Str × List Str))
    (h : ∀ e ∈ l, ∀ a ∈ e.2, (re ("(?i)".toList ++ a)).isSome = true) :
    (matchEntries re desc l).isSome = true := by
  induction l with
  | nil => rfl
  | cons x l ih =>
    obtain ⟨k, v⟩ := x
    unfold matchEntries
    have hv := matchPatterns_isSome re desc v (h (k, v) (List.mem_cons_self _ _))
    cases hp : matchPatterns re desc v with
    | none => rw [hp] at hv; cases hv
    | some b =>
      cases b with
      | true => rfl
      | false => exact ih (fun e he => h e (List.mem_cons_of_mem _ he))

theorem mem_iter (ρ : RangeOrder) (as : Aliases) (e : Str × List Str) :
    e ∈ ρ.iter as ↔ e ∈ as :=
  (ρ.perm as).mem_iff

theorem matchString_sound (re : Regexp) (ρ : RangeOrder) (as : Aliases) (desc r : Str)
    (h : Aliases.MatchString re ρ as desc = some r) :
    (∃ e ∈ as, e.1 = r ∧ tagMatches re desc e = true) ∨
    (r = [] ∧ ∀ e ∈ as, tagMatches re desc e = false) := by
  rcases matchEntries_sound re desc (ρ.iter as) r h with ⟨e, he, h1, h2⟩ | ⟨h1, h2⟩
  · exact Or.inl ⟨e, (mem_iter ρ as e).1 he, h1, h2⟩
  · exact Or.inr ⟨h1, fun e he => h2 e ((mem_iter ρ as e).2 he)⟩

theorem matchString_isSome (re : Regexp) (ρ : RangeOrder) (as : Aliases) (desc : Str)
    (h : ∀ e ∈ as, ∀ a ∈ e.2, (re ("(?i)".toList ++ a)).isSome = true) :
    ∃ r, Aliases.MatchString re ρ as desc = some r := by
  have := matchEntries_isSome re desc (ρ.iter as)
    (fun e he => h e ((mem_iter ρ as e).1 he))
  exact Option.isSome_iff_exists.1 this

/-- With valid patterns and tags that are not empty, a table some entry of which matches
gives the tag of an entry that matches, in whatever order it is visited. -/
theorem matchString_of_match (re : Regexp) (ρ : RangeOrder) (as : Aliases) (desc : Str)
    (hvalid : ∀ e ∈ as, ∀ a ∈ e.2, (re ("(?i)".toList ++ a)).isSome = true)
    (htags : ∀ e ∈ as, e.1 ≠ [])
    (h : ∃ e ∈ as, tagMatches re desc e = true) :
    ∃ e ∈ as, tagMatches re desc e = true ∧ e.1 ≠ [] ∧
      Aliases.MatchString re ρ as desc = some e.1 := by
  obtain ⟨r, hr⟩ := matchString_isSome re ρ as desc hvalid
  rcases matchString_sound re ρ as desc r hr with ⟨e, he, h1, h2⟩ | ⟨_, h2⟩
  · exact ⟨e, he, h2, htags e he, by rw [hr, h1]⟩
  · obtain ⟨e, he, h3⟩ := h
    rw [h2 e he] at h3
    cases h3

theorem matchString_of_no_match (re : Regexp) (ρ : RangeOrder) (as : Aliases) (desc : Str)
    (hvalid : ∀ e ∈ as, ∀ a ∈ e.2, (re ("(?i)".toList ++ a)).isSome = true)
    (h : ∀ e ∈ as, tagMatches re desc e = false) :
    Aliases.MatchString re ρ as desc = some [] := by
  obtain ⟨r, hr⟩ := matchString_isSome re ρ as desc hvalid
  rcases matchString_sound re ρ as desc r hr with ⟨e, he, _, h2⟩ | ⟨h1, _⟩
  · rw [h e he] at h2
    cases h2
  · rw [hr, h1]

theorem matchPatterns_eq_any (re : Regexp) (desc : Str) (v : List Str)
    (h : ∀ a ∈ v, (re ("(?i)".toList ++ a)).isSome = true) :
    matchPatterns re desc v = some (v.any (patternMatches re desc)) := by
  induction v with
  | nil => rfl
  | cons a v ih =>
    have ha := h a (List.mem_cons_self _ _)
    have ih' := ih (fun a' ha' => h a' (List.mem_cons_of_mem _ ha'))
    unfold matchPatterns
    cases hre : re ("(?i)".toList ++ a) with
    | none => rw [hre] at ha; cases ha
    | some m =>
      by_cases hm : m desc = true
      · simp only [hm, if_true, List.any_cons, patternMatches, hre, Bool.true_or]
      · have hm' : m desc = false := by simpa using hm
        simp only [hm', ih', List.any_cons, patternMatches, hre, Bool.false_or,
          Bool.false_eq_true, if_false]

/-- With valid patterns, the outer loop returns the tag of the first entry, in the order
visited, that has a matching pattern, and the empty string when there is none. -/
theorem matchEntries_eq_find (re : Regexp) (desc : Str) (l : List (Str × List Str))
    (h : ∀ e ∈ l, ∀ a ∈ e.2, (re ("(?i)".toList ++ a)).isSome = true) :
    matchEntries re desc l =
      some (match l.find? (tagMatches re desc) with
        | some e => e.1
        | none => []) := by
  induction l with
  | nil => rfl
  | cons x l ih =>
    obtain ⟨k, v⟩ := x
    have hv := matchPatterns_eq_any re desc v (h (k, v) (List.mem_cons_self _ _))
    have ih' := ih (fun e he => h e (List.mem_cons_of_mem _ he))
    unfold matchEntries
    rw [hv]
    cases hb : v.any (patternMatches re desc) with
    | true =>
      have : tagMatches re desc (k, v) = true := hb
      simp only [List.find?_cons, this]
    | false =>
      have : tagMatches re desc (k, v) = false := hb
      simp only [List.find?_cons, this, ih']

/-! ## The built-in tables -/

theorem versionAliases_valid :
    ∀ e ∈ versionAliases, ∀ a ∈ e.2, (goRegexp ("(?i)".toList ++ a)).isSome = true := by
  decide

theorem versionAliasesGeneral_valid :
    ∀ e ∈ versionAliasesGeneral, ∀ a ∈ e.2,
      (goRegexp ("(?i)".toList ++ a)).isSome = true := by
  decide

theorem archAliases_valid :
    ∀ e ∈ archAliases, ∀ a ∈ e.2, (goRegexp ("(?i)".toList ++ a)).isSome = true := by
  decide

theorem archAliasesGeneral_valid :
    ∀ e ∈ archAliasesGeneral, ∀ a ∈ e.2, (goRegexp ("(?i)".toList ++ a)).isSome = true := by
  decide

theorem detectVersion_of_first (ρ₁ ρ₂ : RangeOrder) (desc : Str)
    (h : ∃ e ∈ versionAliases, tagMatches goRegexp desc e = true) :
    ∃ e ∈ versionAliases, tagMatches goRegexp desc e = true ∧
      DetectWindowsVersion ρ₁ ρ₂ desc = some e.1 := by
  obtain ⟨e, he, hm, hne, hms⟩ := matchString_of_match goRegexp ρ₁ versionAliases desc
    versionAliases_valid (by decide) h
  refine ⟨e, he, hm, ?_⟩
  simp only [DetectWindowsVersion, hms, ne_eq, hne, not_false_eq_true, if_true]

theorem detectVersion_of_not_first (ρ₁ ρ₂ : RangeOrder) (desc : Str)
    (h : ∀ e ∈ versionAliases, tagMatches goRegexp desc e = false) :
    DetectWindowsVersion ρ₁ ρ₂ desc =
      Aliases.MatchString goRegexp ρ₂ versionAliasesGeneral desc := by
  have := matchString_of_no_match goRegexp ρ₁ versionAliases desc versionAliases_valid h
  simp only [DetectWindowsVersion, this, ne_eq, not_true_eq_false, if_false]

theorem detectArchitecture_of_first (ρ₁ ρ₂ : RangeOrder) (desc : Str)
    (h : ∃ e ∈ archAliases, tagMatches goRegexp desc e = true) :
    ∃ e ∈ archAliases, tagMatches goRegexp desc e = true ∧
      DetectWindowsArchitecture ρ₁ ρ₂ desc = some e.1 := by
  obtain ⟨e, he, hm, hne, hms⟩ := matchString_of_match goRegexp ρ₁ archAliases desc
    archAliases_valid (by decide) h
  refine ⟨e, he, hm, ?_⟩
  simp only [DetectWindowsArchitecture, hms, ne_eq, hne, not_false_eq_true, if_true]

theorem detectArchitecture_of_not_first (ρ₁ ρ₂ : RangeOrder) (desc : Str)
    (h : ∀ e ∈ archAliases, tagMatches goRegexp desc e = false) :
    DetectWindowsArchitecture ρ₁ ρ₂ desc =
      Aliases.MatchString goRegexp ρ₂ archAliasesGeneral desc := by
  have := matchString_of_no_match goRegexp ρ₁ archAliases desc archAliases_valid h
  simp only [DetectWindowsArchitecture, this, ne_eq, not_true_eq_false, if_false]

/-- A table in which the entries matching the text all carry the tag `t`, and one does,
gives `t` in whatever order it is visited. -/
theorem matchString_unique (ρ : RangeOrder) (as : Aliases) (desc t : Str)
    (hvalid : ∀ e ∈ as, ∀ a ∈ e.2, (goRegexp ("(?i)".toList ++ a)).isSome = true)
    (htags : ∀ e ∈ as, e.1 ≠ [])
    (h : ∃ e ∈ as, tagMatches goRegexp desc e = true)
    (huniq : ∀ e ∈ as, tagMatches goRegexp desc e = true → e.1 = t) :
    Aliases.MatchString goRegexp ρ as desc = some t := by
  obtain ⟨e, he, hm, _, hms⟩ := matchString_of_match goRegexp ρ as desc hvalid htags h
  rw [hms, huniq e he hm]

/-! ## Patterns of literals -/

theorem matchHere_literal (m : Str) (hm : ∀ c ∈ m, asciiLower c = c) :
    ∀ text : Str, m <+: text.map asciiLower →
      matchHere true (literalPieces m) text = true := by
  induction m with
  | nil => intro text _; rfl
  | cons p m ih =>
    intro text h
    obtain ⟨t, ht⟩ := h
    cases text with
    | nil => simp at ht
    | cons c text =>
      simp only [List.map_cons, List.cons_append, List.cons.injEq] at ht
      have hp : asciiLower p = p := hm p (List.mem_cons_self _ _)
      have hrest := ih (fun c hc => hm c (List.mem_cons_of_mem _ hc)) text ⟨t, ht.2⟩
      have hfold : foldEq p c = true := by
        have hc : asciiLower c = asciiLower p := by rw [hp]; exact ht.1.symm
        simp only [foldEq, hc, decide_True, Bool.true_or]
      simp only [literalPieces, List.map_cons, matchHere, Atom.accepts, if_true, hfold,
        Bool.true_and, Bool.false_and, Bool.or_false]
      exact hrest

theorem searchPieces_of_matchHere (fold : Bool) (ps : List Piece) (text : Str)
    (h : matchHere fold ps text = true) : searchPieces fold ps text = true := by
  cases text with
  | nil => simpa only [searchPieces] using h
  | cons c t => simp only [searchPieces, h, Bool.true_or]

/-- A pattern of lower-case literals matches every text that contains it, letter case
ignored. -/
theorem searchPieces_literal (m : Str) (hm : ∀ c ∈ m, asciiLower c = c) (text : Str)
    (h : specContainsFold m text) : searchPieces true (literalPieces m) text = true := by
  obtain ⟨s, t, hst⟩ := h
  induction s generalizing text with
  | nil =>
    exact searchPieces_of_matchHere true _ text
      (matchHere_literal m hm text ⟨t, by simpa using hst⟩)
  | cons x s ih =>
    cases text with
    | nil => simp at hst
    | cons c text =>
      simp only [List.map_cons, List.cons_append, List.cons.injEq] at hst
      simp only [searchPieces, ih text hst.2, Bool.or_true]


/-! ## The records `ParseWimInfo` returns -/

theorem incrInt_range (i : Int) : -2 ^ 63 ≤ incrInt i ∧ incrInt i < 2 ^ 63 := by
  unfold incrInt
  have h1 := Int.emod_nonneg (i + 1 + 2 ^ 63) (by norm_num : (2 : Int) ^ 64 ≠ 0)
  have h2 := Int.emod_lt_of_pos (i + 1 + 2 ^ 63) (by norm_num : (0 : Int) < 2 ^ 64)
  constructor <;> omega

/-- With the largest `int` as count the condition `i <= count` of the loop never
fails, and the loop ends with an error. -/
theorem blockLoop_max_error (blocks : List (List Str)) :
    ∀ (i : Int) (info : WimInfo), i < 2 ^ 63 →
      ∃ e, blockLoop (2 ^ 63 - 1) i blocks info = .error e := by
  induction blocks with
  | nil =>
    intro i info hi
    have hic : i ≤ 2 ^ 63 - 1 := by omega
    exact ⟨.numError [] .invalid, by simp only [blockLoop, hic, if_true]⟩
  | cons b bs ih =>
    intro i info hi
    have hic : i ≤ 2 ^ 63 - 1 := by omega
    simp only [blockLoop, hic, if_true]
    split
    · exact ⟨_, rfl⟩
    · rename_i index hidx
      by_cases hx : index = i
      · simp only [hx, ne_eq, not_true_eq_false, if_false]
        exact ih _ _ (incrInt_range i).2
      · simp only [ne_eq, hx, not_false_eq_true, if_true]
        exact ⟨_, rfl⟩

/-- What a record returned by the loop says of the blocks: the loop has accepted one
block for every index from `i` to `count`. -/
theorem blockLoop_ok_inv (count : Int) (hmax : count < 2 ^ 63 - 1)
    (blocks : List (List Str)) :
    ∀ (i : Int) (info info' : WimInfo),
      blockLoop count i blocks info = .ok info' → -2 ^ 63 ≤ i → i ≤ count + 1 →
      (∀ e ∈ info, e.1 < i) →
      ∃ n : Nat, i + (n : Int) = count + 1 ∧ n ≤ blocks.length ∧
        (∀ j, j < n →
          Atoi (mapGet [] (sectionOf (blocks.getD j [])) "Index".toList) = .ok (i + j)) ∧
        info' = info ++ recordOf i (blocks.take n) := by
  induction blocks with
  | nil =>
    intro i info info' h hi hle hkeys
    by_cases hic : i ≤ count
    · simp only [blockLoop, hic, if_true] at h
      cases h
    · simp only [blockLoop, hic, if_false, Except.ok.injEq] at h
      exact ⟨0, by push_cast; omega, le_refl _, fun j hj => absurd hj (Nat.not_lt_zero j),
        by simp [recordOf, h]⟩
  | cons b bs ih =>
    intro i info info' h hi hle hkeys
    by_cases hic : i ≤ count
    · simp only [blockLoop, hic, if_true] at h
      split at h
      · cases h
      · rename_i index hidx
        by_cases hx : index = i
        · subst hx
          have hincr : incrInt index = index + 1 := incrInt_eq index hi (by omega)
          have hset : mapSet info index (sectionOf b) = info ++ [(index, sectionOf b)] :=
            mapSet_of_absent info index _ (fun e he => ne_of_lt (hkeys e he))
          simp only [ne_eq, not_true_eq_false, if_false, hincr, hset] at h
          obtain ⟨n, hn1, hn2, hn3, hn4⟩ := ih (index + 1) _ info' h (by omega) (by omega)
            (fun e he => by
              rcases List.mem_append.1 he with he | he
              · have := hkeys e he; omega
              · simp at he; subst he; simp)
          refine ⟨n + 1, by push_cast; omega, by simpa using hn2, ?_, ?_⟩
          · intro j hj
            cases j with
            | zero => simpa using hidx
            | succ j =>
              have := hn3 j (by omega)
              simp only [List.getD_cons_succ]
              rw [this]
              push_cast
              congr 1
              ring
          · rw [hn4]
            simp [recordOf]
        · simp only [ne_eq, hx, not_false_eq_true, if_true] at h
          cases h
    · simp only [blockLoop, hic, if_false, Except.ok.injEq] at h
      exact ⟨0, by push_cast; omega, Nat.zero_le _,
        fun j hj => absurd hj (Nat.not_lt_zero j), by simp [recordOf, h]⟩

/-- What a record returned by `ParseWimInfo` says of the blocks of the text: the count of
the header is negative and the record has the header only, or the count is some
`N ≥ 1`, the first `N` image blocks carry the indices `1` to `N`, and the record has
the header and their sections. -/
theorem parseBlocks_ok_inv (blocks : List (List Str)) (info : WimInfo)
    (h : parseBlocks blocks = .ok info) :
    ∃ count : Int,
      Atoi (specValue (blocks.headD []) "Image Count".toList) = .ok count ∧
      ((count < 0 ∧ info = [(0, sectionOf (blocks.headD []))]) ∨
       (∃ N : Nat, count = (N : Int) ∧ 1 ≤ N ∧ (N : Int) < 2 ^ 63 - 1 ∧
          N ≤ blocks.tail.length ∧
          (∀ j, j < N →
            Atoi (specValue (blocks.tail.getD j []) "Index".toList) = .ok ((j : Int) + 1)) ∧
          info = (0, sectionOf (blocks.headD [])) :: recordOf 1 (blocks.tail.take N))) := by
  unfold parseBlocks at h
  rw [mapGet_sectionOf] at h
  split at h
  · cases h
  · rename_i count hcount
    refine ⟨count, hcount, ?_⟩
    obtain ⟨_, hr⟩ := Atoi_range _ _ hcount
    by_cases hz : count = 0
    · simp only [hz, if_true] at h
      cases h
    · simp only [hz, if_false] at h
      by_cases hneg : count < 0
      · left
        rw [blockLoop_done count 1 _ _ (by omega)] at h
        injection h with h
        exact ⟨hneg, h.symm⟩
      · right
        by_cases hm : count = 2 ^ 63 - 1
        · subst hm
          obtain ⟨e, he⟩ := blockLoop_max_error blocks.tail 1
            [(0, sectionOf (blocks.headD []))] (by norm_num)
          rw [he] at h
          cases h
        · obtain ⟨n, hn1, hn2, hn3, hn4⟩ := blockLoop_ok_inv count (by omega) blocks.tail 1 _
            info h (by norm_num) (by omega) (fun e he => by simp at he; subst he; simp)
          refine ⟨n, by omega, by omega, by omega, hn2, ?_, ?_⟩
          · intro j hj
            have := hn3 j hj
            rw [mapGet_sectionOf] at this
            rw [this]
            congr 1
            ring
          · rw [hn4]
            rfl


theorem recordOf_keys (bs : List (List Str)) :
    ∀ i : Int, (recordOf i bs).map Prod.fst =
      (List.range bs.length).map (fun j : Nat => i + (j : Int)) := by
  induction bs with
  | nil => intro i; rfl
  | cons b bs ih =>
    intro i
    simp only [recordOf, List.map_cons, List.length_cons, List.range_succ_eq_map,
      List.map_map, ih (i + 1), Nat.cast_zero, add_zero, List.cons.injEq, true_and]
    apply List.map_congr_left
    intro j _
    simp only [Function.comp_apply, Nat.cast_succ]
    ring

theorem getD_take (blocks : List (List Str)) (n j : Nat) (h : j < n) :
    (blocks.take n).getD j [] = blocks.getD j [] := by
  simp only [List.getD_eq_getElem?_getD, List.getElem?_take, h, if_true]

/-- The section a returned record holds at a position is the section of the block of the
text at that position. -/
theorem record_section (blocks : List (List Str)) (info : WimInfo)
    (h : parseBlocks blocks = .ok info) (p : Nat) (hp : (p : Int) ≤ info.ImageCount) :
    mapGet [] info (p : Int) = sectionOf (blocks.getD p []) := by
  have hhead : blocks.headD [] = blocks.getD 0 [] := by cases blocks <;> rfl
  have htail : ∀ j, blocks.tail.getD j [] = blocks.getD (j + 1) [] := by
    intro j; cases blocks <;> rfl
  obtain ⟨count, _, hcase⟩ := parseBlocks_ok_inv blocks info h
  rcases hcase with ⟨_, hinfo⟩ | ⟨N, _, hN, _, hlen, _, hinfo⟩
  · subst hinfo
    simp only [WimInfo.ImageCount, List.length_singleton, Nat.cast_one, sub_self] at hp
    have : p = 0 := by omega
    subst this
    simp only [Nat.cast_zero, mapGet, if_true, hhead]
  · subst hinfo
    simp only [WimInfo.ImageCount, List.length_cons, recordOf_length, List.length_take,
      Nat.min_eq_left hlen] at hp
    cases p with
    | zero => simp only [Nat.cast_zero, mapGet, if_true, hhead]
    | succ j =>
      have hj : j < N := by push_cast at hp; omega
      have hne : ¬ (0 : Int) = ((j + 1 : Nat) : Int) := by push_cast; omega
      simp only [mapGet, hne, if_false]
      have := mapGet_recordOf (blocks.tail.take N) 1 j
        (by simp only [List.length_take, Nat.min_eq_left hlen]; exact hj)
      rw [getD_take _ _ _ hj, htail] at this
      rw [← this]
      congr 1
      push_cast
      ring

theorem foldl_addLine_other (k : Str) (post : List Str)
    (h : ∀ l ∈ post, (specLineField l).map Prod.fst ≠ some k) :
    ∀ sect : Section, mapGet [] (post.foldl addLine sect) k = mapGet [] sect k := by
  induction post with
  | nil => intro sect; rfl
  | cons l post ih =>
    intro sect
    rw [List.foldl_cons, ih (fun l' hl' => h l' (List.mem_cons_of_mem _ hl'))]
    unfold addLine
    cases hl : specLineField l with
    | none => rfl
    | some f =>
      obtain ⟨k', v'⟩ := f
      have hne : ¬ k' = k := by
        intro e
        subst e
        exact h l (List.mem_cons_self _ _) (by rw [hl]; rfl)
      simp only [mapGet_mapSet, hne, if_false]

/-- The section of a block gives a key the value of the last line declaring it. -/
theorem sectionOf_last (pre post : List Str) (line k v : Str)
    (hline : specLineField line = some (k, v))
    (hlast : ∀ l ∈ post, (specLineField l).map Prod.fst ≠ some k) :
    mapGet [] (sectionOf (pre ++ line :: post)) k = v := by
  unfold sectionOf
  rw [List.foldl_append, List.foldl_cons, foldl_addLine_other k post hlast]
  simp only [addLine, hline, mapGet_mapSet, if_true]


/-! ## Trimmed keys and values -/

theorem TrimSpace_trimmed (s : Str) : specTrimmed (TrimSpace s) := by
  unfold TrimSpace specTrimmed
  constructor
  · intro c hc
    rw [List.head?_reverse] at hc
    obtain ⟨y, hy⟩ := List.dropWhile_suffix (l := (s.dropWhile isSpace).reverse) isSpace
    have hne : List.dropWhile isSpace (s.dropWhile isSpace).reverse ≠ [] := by
      intro h
      rw [h] at hc
      cases hc
    have hlast : (s.dropWhile isSpace).reverse.getLast? = some c := by
      rw [← hy, List.getLast?_append_of_ne_nil _ hne]
      exact hc
    rw [List.getLast?_reverse] at hlast
    have := List.head?_dropWhile_not isSpace s
    rw [hlast] at this
    exact this
  · intro c hc
    rw [List.getLast?_reverse] at hc
    have := List.head?_dropWhile_not isSpace (s.dropWhile isSpace).reverse
    rw [hc] at this
    exact this

theorem mem_TrimSpace (s : Str) (c : Char) (h : c ∈ TrimSpace s) : c ∈ s := by
  unfold TrimSpace at h
  rw [List.mem_reverse] at h
  have h1 := (List.dropWhile_sublist isSpace).subset h
  rw [List.mem_reverse] at h1
  exact (List.dropWhile_sublist isSpace).subset h1

/-- The field a line declares is as the specification has fields. -/
theorem specLineField_ok (line : Str) (f : Str × Str) (h : specLineField line = some f) :
    specFieldOk f := by
  unfold specLineField at h
  by_cases hc : ':' ∈ line
  · simp only [hc, if_true] at h
    by_cases hk : TrimSpace (line.takeWhile (fun c => c ≠ ':')) = []
    · simp only [hk, if_true] at h
      cases h
    · simp only [hk, if_false, Option.some.injEq] at h
      subst h
      refine ⟨hk, TrimSpace_trimmed _, ?_, TrimSpace_trimmed _⟩
      intro hmem
      have := List.mem_takeWhile_imp (mem_TrimSpace _ _ hmem)
      simp at this
  · simp only [hc, if_false] at h
    cases h

theorem foldl_addLine_ok (b : List Str) :
    ∀ sect : Section, (∀ f ∈ sect, specFieldOk f) → ∀ f ∈ b.foldl addLine sect, specFieldOk f := by
  induction b with
  | nil => intro sect h; exact h
  | cons line b ih =>
    intro sect h
    rw [List.foldl_cons]
    apply ih
    intro f hf
    unfold addLine at hf
    cases hl : specLineField line with
    | none => rw [hl] at hf; exact h f hf
    | some g =>
      obtain ⟨k, v⟩ := g
      rw [hl] at hf
      rcases mem_mapSet sect k v f hf with hf | hf
      · exact h f hf
      · rw [hf]
        exact specLineField_ok line _ hl

theorem sectionOf_ok (b : List Str) : ∀ f ∈ sectionOf b, specFieldOk f :=
  foldl_addLine_ok b [] (fun f hf => by simp at hf)

theorem mem_recordOf (bs : List (List Str)) :
    ∀ (i : Int) (e : Int × Section), e ∈ recordOf i bs → ∃ b ∈ bs, e.2 = sectionOf b := by
  induction bs with
  | nil => intro i e he; simp [recordOf] at he
  | cons b bs ih =>
    intro i e he
    simp only [recordOf, List.mem_cons] at he
    rcases he with rfl | he
    · exact ⟨b, List.mem_cons_self _ _, rfl⟩
    · obtain ⟨b', hb', h'⟩ := ih (i + 1) e he
      exact ⟨b', List.mem_cons_of_mem _ hb', h'⟩

/-- Every section of a returned record is the section of a block of the text. -/
theorem record_sections (blocks : List (List Str)) (info : WimInfo)
    (h : parseBlocks blocks = .ok info) :
    ∀ e ∈ info, ∃ b, e.2 = sectionOf b := by
  obtain ⟨count, _, hcase⟩ := parseBlocks_ok_inv blocks info h
  intro e he
  rcases hcase with ⟨_, hinfo⟩ | ⟨N, _, _, _, _, _, hinfo⟩
  · rw [hinfo] at he
    simp only [List.mem_singleton] at he
    exact ⟨_, by rw [he]⟩
  · rw [hinfo] at he
    rcases List.mem_cons.1 he with rfl | he
    · exact ⟨_, rfl⟩
    · obtain ⟨b, _, hb⟩ := mem_recordOf _ 1 e he
      exact ⟨b, hb⟩


/-- A line that is not empty and declares no field may be put anywhere among the lines
of the text without a change to the result of `ParseWimInfo`. -/
theorem ParseWimInfo_insert (r r' : Str) (pre post : List Str) (line : Str)
    (hr : ScanLines r = pre ++ post) (hr' : ScanLines r' = pre ++ line :: post)
    (hne : line ≠ []) (hskip : specLineField line = none) :
    ParseWimInfo r' = ParseWimInfo r := by
  obtain ⟨e1, e2⟩ := nextSectionLoop_insert line post hne hskip pre []
  have hloop : ∀ (count : Int) (info : WimInfo),
      imageLoop count 1 (nextSection (pre ++ line :: post)).2 info =
        imageLoop count 1 (nextSection (pre ++ post)).2 info := by
    intro count info
    rw [imageLoop_eq_blockLoop count _ (nextSection (pre ++ post)).2 rfl]
    apply imageLoop_insert line post hne hskip count _ (nextSection (pre ++ post)).2 _ rfl
    unfold nextSection
    rcases e2 with e2 | ⟨pre', e3, e4⟩
    · exact Or.inl e2
    · exact Or.inr ⟨pre', e3, e4⟩
  have hhead : (nextSection (pre ++ line :: post)).1 = (nextSection (pre ++ post)).1 := e1
  unfold ParseWimInfo
  rw [hr, hr']
  simp only [hhead, hloop]

theorem specLineField_white (ws : Str) (h : ws.all isSpace = true) :
    specLineField ws = none := by
  have hc : ':' ∉ ws := by
    intro hmem
    have := List.all_eq_true.1 h ':' hmem
    revert this
    decide
  simp only [specLineField, hc, if_false]


/-! ## Text after the last image block -/

theorem blockLoop_append_ok (count : Int) (extra : List (List Str))
    (blocks : List (List Str)) :
    ∀ (i : Int) (info info' : WimInfo),
      blockLoop count i blocks info = .ok info' →
      blockLoop count i (blocks ++ extra) info = .ok info' := by
  induction blocks with
  | nil =>
    intro i info info' h
    by_cases hic : i ≤ count
    · simp only [blockLoop, hic, if_true] at h
      cases h
    · simp only [blockLoop, hic, if_false] at h
      rw [List.nil_append, blockLoop_done count i extra info hic]
      exact h
  | cons b bs ih =>
    intro i info info' h
    by_cases hic : i ≤ count
    · simp only [List.cons_append, blockLoop, hic, if_true] at h ⊢
      split at h
      · cases h
      · rename_i index hidx
        by_cases hx : index = i
        · simp only [hx, ne_eq, not_true_eq_false, if_false, List.append_eq] at h ⊢
          exact ih _ _ _ h
        · simp only [ne_eq, hx, not_false_eq_true, if_true] at h
          cases h
    · simp only [blockLoop, hic, if_false] at h
      rw [blockLoop_done count i _ info hic]
      exact h

theorem parseBlocks_append_ok (blocks extra : List (List Str)) (info : WimInfo)
    (h : parseBlocks blocks = .ok info) : parseBlocks (blocks ++ extra) = .ok info := by
  cases blocks with
  | nil =>
    simp only [parseBlocks, List.headD_nil, sectionOf, List.foldl_nil, mapGet, Atoi_nil] at h
    cases h
  | cons b bs =>
    simp only [parseBlocks, List.cons_append, List.headD_cons, List.tail_cons] at h ⊢
    split at h
    · cases h
    · rename_i count hcount
      by_cases hz : count = 0
      · simp only [hz, if_true] at h
        cases h
      · simp only [hz, if_false, List.append_eq] at h ⊢
        exact blockLoop_append_ok count extra bs _ _ _ h

theorem specBlocks_eq_nil (lines : List Str) (h : specBlocks lines = []) : lines = [] := by
  cases lines with
  | nil => rfl
  | cons x rest =>
    by_cases hx : x = []
    · simp [specBlocks, hx] at h
    · simp only [specBlocks, hx, if_false] at h
      cases hsb : specBlocks rest with
      | nil => rw [hsb] at h; cases h
      | cons b bs => rw [hsb] at h; cases h

/-- The blocks of a text are the first blocks of the text followed by an empty line and
more text. -/
theorem specBlocks_append_empty (tail : List Str) (lines : List Str) :
    ∃ extra, specBlocks (lines ++ [] :: tail) = specBlocks lines ++ extra := by
  induction lines with
  | nil => exact ⟨_, rfl⟩
  | cons x rest ih =>
    obtain ⟨extra, he⟩ := ih
    by_cases hx : x = []
    · refine ⟨extra, ?_⟩
      simp only [List.cons_append, specBlocks, hx, if_true, List.append_eq, he]
    · cases hsb : specBlocks rest with
      | nil =>
        have hrest := specBlocks_eq_nil rest hsb
        subst hrest
        refine ⟨specBlocks tail, ?_⟩
        simp only [List.cons_append, List.nil_append, specBlocks, hx, if_false, if_true,
          List.singleton_append]
      | cons b bs =>
        refine ⟨extra, ?_⟩
        simp only [List.cons_append, specBlocks, hx, if_false, List.append_eq, he, hsb]

/-! ## Texts classified the same in every visiting order -/

theorem uniqueTag_spec (as : Aliases) (desc t : Str) (h : uniqueTag as desc t = true) :
    (∃ e ∈ as, tagMatches goRegexp desc e = true) ∧
    (∀ e ∈ as, tagMatches goRegexp desc e = true → e.1 = t) := by
  unfold uniqueTag at h
  rw [Bool.and_eq_true, List.any_eq_true, List.all_eq_true] at h
  refine ⟨h.1, fun e he hm => ?_⟩
  have := h.2 e he
  simpa [hm] using this

theorem noTag_spec (as : Aliases) (desc : Str) (h : noTag as desc = true) :
    ∀ e ∈ as, tagMatches goRegexp desc e = false := by
  unfold noTag at h
  rw [List.all_eq_true] at h
  intro e he
  simpa using h e he

theorem detectVersion_of_classifiesAs (ρ₁ ρ₂ : RangeOrder) (desc t : Str)
    (h : classifiesAs versionAliases versionAliasesGeneral desc t = true) :
    DetectWindowsVersion ρ₁ ρ₂ desc = some t := by
  unfold classifiesAs at h
  rw [Bool.or_eq_true, Bool.and_eq_true] at h
  rcases h with h | ⟨h1, h2⟩
  · obtain ⟨hex, huniq⟩ := uniqueTag_spec _ _ _ h
    obtain ⟨e, he, hm, hd⟩ := detectVersion_of_first ρ₁ ρ₂ desc hex
    rw [hd, huniq e he hm]
  · obtain ⟨hex, huniq⟩ := uniqueTag_spec _ _ _ h2
    rw [detectVersion_of_not_first ρ₁ ρ₂ desc (noTag_spec _ _ h1)]
    exact matchString_unique ρ₂ versionAliasesGeneral desc t versionAliasesGeneral_valid
      (by decide) hex huniq

theorem detectArchitecture_of_classifiesAs (ρ₁ ρ₂ : RangeOrder) (desc t : Str)
    (h : classifiesAs archAliases archAliasesGeneral desc t = true) :
    DetectWindowsArchitecture ρ₁ ρ₂ desc = some t := by
  unfold classifiesAs at h
  rw [Bool.or_eq_true, Bool.and_eq_true] at h
  rcases h with h | ⟨h1, h2⟩
  · obtain ⟨hex, huniq⟩ := uniqueTag_spec _ _ _ h
    obtain ⟨e, he, hm, hd⟩ := detectArchitecture_of_first ρ₁ ρ₂ desc hex
    rw [hd, huniq e he hm]
  · obtain ⟨hex, huniq⟩ := uniqueTag_spec _ _ _ h2
    rw [detectArchitecture_of_not_first ρ₁ ρ₂ desc (noTag_spec _ _ h1)]
    exact matchString_unique ρ₂ archAliasesGeneral desc t archAliasesGeneral_valid
      (by decide) hex huniq

/-- Every supported version tag, given as the text, is classified as itself. -/
theorem supportedVersions_classified :
    ∀ t ∈ SupportedWindowsVersions,
      classifiesAs versionAliases versionAliasesGeneral t t = true := by
  decide

/-- Every supported architecture tag, given as the text, is classified as itself. -/
theorem supportedArchitectures_classified :
    ∀ a ∈ SupportedWindowsArchitectures,
      classifiesAs archAliases archAliasesGeneral a a = true := by
  decide


theorem separators_2012 :
    ∀ s₁ ∈ separators, ∀ s₂ ∈ separators,
      classifiesAs versionAliases versionAliasesGeneral
        ("windows".toList ++ s₁ ++ "server".toList ++ s₂ ++ "2012".toList)
        "2k12".toList = true := by
  decide

theorem separators_2012r2 :
    ∀ s₁ ∈ separators, ∀ s₂ ∈ separators, ∀ s₃ ∈ separators,
      classifiesAs versionAliases versionAliasesGeneral
        ("windows".toList ++ s₁ ++ "server".toList ++ s₂ ++ "2012".toList ++ s₃ ++
          "r2".toList)
        "2k12r2".toList = true := by
  decide

theorem versionAliases_supported :
    (∀ e ∈ versionAliases, e.1 ∈ SupportedWindowsVersions) ∧
    (∀ e ∈ versionAliasesGeneral, e.1 ∈ SupportedWindowsVersions) := by
  decide

theorem archAliases_supported :
    (∀ e ∈ archAliases, e.1 ∈ SupportedWindowsArchitectures) ∧
    (∀ e ∈ archAliasesGeneral, e.1 ∈ SupportedWindowsArchitectures) := by
  decide

/-- What a table with valid patterns returns is empty or one of its tags. -/
theorem matchString_tag (ρ : RangeOrder) (as : Aliases) (desc : Str)
    (hvalid : ∀ e ∈ as, ∀ a ∈ e.2, (goRegexp ("(?i)".toList ++ a)).isSome = true) :
    ∃ r, Aliases.MatchString goRegexp ρ as desc = some r ∧ (r = [] ∨ ∃ e ∈ as, e.1 = r) := by
  obtain ⟨r, hr⟩ := matchString_isSome goRegexp ρ as desc hvalid
  refine ⟨r, hr, ?_⟩
  rcases matchString_sound goRegexp ρ as desc r hr with ⟨e, he, h1, _⟩ | ⟨h1, _⟩
  · exact Or.inr ⟨e, he, h1⟩
  · exact Or.inl h1


/-! ## Letter case -/

theorem asciiLower_lineFeed :
    ∀ n, n < 128 → asciiLower (Char.ofNat n) = '\n' → Char.ofNat n = '\n' := by
  decide

theorem accepts_case (a : Atom) (c c' : Char) (h : asciiLower c = asciiLower c')
    (hc : c.toNat < 128) (hc' : c'.toNat < 128) :
    a.accepts true c = a.accepts true c' := by
  cases a with
  | lit p =>
    have h1 : ¬ c.toNat = 0x212A := by omega
    have h2 : ¬ c.toNat = 0x17F := by omega
    have h3 : ¬ c'.toNat = 0x212A := by omega
    have h4 : ¬ c'.toNat = 0x17F := by omega
    simp only [Atom.accepts, if_true, foldEq, h, h1, h2, h3, h4, decide_False,
      Bool.and_false, Bool.or_false]
  | any =>
    have hl : asciiLower '\n' = '\n' := by decide
    have e1 : c = '\n' → c' = '\n' := by
      intro e
      have := asciiLower_lineFeed c'.toNat hc'
      rw [Char.ofNat_toNat] at this
      apply this
      rw [← h, e, hl]
    have e2 : c' = '\n' → c = '\n' := by
      intro e
      have := asciiLower_lineFeed c.toNat hc
      rw [Char.ofNat_toNat] at this
      apply this
      rw [h, e, hl]
    simp only [Atom.accepts]
    by_cases hn : c = '\n'
    · simp [hn, e1 hn]
    · have hn' : ¬ c' = '\n' := fun e => hn (e2 e)
      simp [hn, hn']

theorem matchHere_case (ps : List Piece) :
    ∀ t u : Str, t.map asciiLower = u.map asciiLower →
      (∀ c ∈ t, c.toNat < 128) → (∀ c ∈ u, c.toNat < 128) →
      matchHere true ps t = matchHere true ps u := by
  induction ps with
  | nil => intro t u _ _ _; rfl
  | cons p ps ih =>
    intro t u h ht hu
    cases t with
    | nil =>
      cases u with
      | nil => rfl
      | cons c' u => simp at h
    | cons c t =>
      cases u with
      | nil => simp at h
      | cons c' u =>
        simp only [List.map_cons, List.cons.injEq] at h
        have hacc := accepts_case p.atom c c' h.1 (ht c (List.mem_cons_self _ _))
          (hu c' (List.mem_cons_self _ _))
        have htail := ih t u h.2 (fun x hx => ht x (List.mem_cons_of_mem _ hx))
          (fun x hx => hu x (List.mem_cons_of_mem _ hx))
        have hwhole := ih (c :: t) (c' :: u)
          (by simp only [List.map_cons, h.1, h.2]) ht hu
        simp only [matchHere, hacc, htail, hwhole]

theorem searchPieces_case (ps : List Piece) :
    ∀ t u : Str, t.map asciiLower = u.map asciiLower →
      (∀ c ∈ t, c.toNat < 128) → (∀ c ∈ u, c.toNat < 128) →
      searchPieces true ps t = searchPieces true ps u := by
  intro t
  induction t with
  | nil =>
    intro u h _ _
    cases u with
    | nil => rfl
    | cons c' u => simp at h
  | cons c t ih =>
    intro u h ht hu
    cases u with
    | nil => simp at h
    | cons c' u =>
      have hhere := matchHere_case ps (c :: t) (c' :: u) h ht hu
      simp only [List.map_cons, List.cons.injEq] at h
      have htail := ih u h.2 (fun x hx => ht x (List.mem_cons_of_mem _ hx))
        (fun x hx => hu x (List.mem_cons_of_mem _ hx))
      simp only [searchPieces, hhere, htail]

theorem goRegexp_flag (a : Str) :
    goRegexp ("(?i)".toList ++ a) = (parsePieces a).map (fun ps => searchPieces true ps) :=
  rfl

theorem matchPatterns_case (t u : Str) (h : t.map asciiLower = u.map asciiLower)
    (ht : ∀ c ∈ t, c.toNat < 128) (hu : ∀ c ∈ u, c.toNat < 128) (v : List Str) :
    matchPatterns goRegexp t v = matchPatterns goRegexp u v := by
  induction v with
  | nil => rfl
  | cons a v ih =>
    unfold matchPatterns
    rw [goRegexp_flag]
    cases parsePieces a with
    | none => rfl
    | some ps =>
      simp only [Option.map_some', searchPieces_case ps t u h ht hu, ih]

theorem matchEntries_case (t u : Str) (h : t.map asciiLower = u.map asciiLower)
    (ht : ∀ c ∈ t, c.toNat < 128) (hu : ∀ c ∈ u, c.toNat < 128)
    (l : List (Str × List Str)) :
    matchEntries goRegexp t l = matchEntries goRegexp u l := by
  induction l with
  | nil => rfl
  | cons x l ih =>
    obtain ⟨k, v⟩ := x
    simp only [matchEntries, matchPatterns_case t u h ht hu v, ih]

/-! ## The scanner -/

theorem byteLen_append (a b : Str) : byteLen (a ++ b) = byteLen a + byteLen b := by
  induction a with
  | nil => simp [byteLen]
  | cons c a ih => simp only [List.cons_append, List.append_eq, byteLen, ih]; omega

theorem byteLen_replicate (n : Nat) (c : Char) :
    byteLen (List.replicate n c) = n * c.utf8Size := by
  induction n with
  | zero => simp [byteLen]
  | succ n ih => simp only [List.replicate_succ, byteLen, ih]; ring

theorem utf8Size_pos (c : Char) : 0 < c.utf8Size := Char.utf8Size_pos c

theorem takeBytes_of_le (l : Str) : ∀ n, byteLen l ≤ n → takeBytes n l = l := by
  induction l with
  | nil => intro n _; rfl
  | cons c l ih =>
    intro n h
    simp only [byteLen] at h
    have hc := utf8Size_pos c
    have h0 : ¬ n = 0 := by omega
    have h1 : c.utf8Size ≤ n := by omega
    simp only [takeBytes, h0, if_false, h1, if_true]
    rw [ih _ (by omega)]

theorem takeBytes_append (a b : Str) : ∀ n, byteLen a < n →
    takeBytes n (a ++ b) = a ++ takeBytes (n - byteLen a) b := by
  induction a with
  | nil => intro n _; simp [byteLen]
  | cons c a ih =>
    intro n h
    simp only [byteLen] at h
    have hc := utf8Size_pos c
    have h0 : ¬ n = 0 := by omega
    have h1 : c.utf8Size ≤ n := by omega
    simp only [List.cons_append, List.append_eq, takeBytes, h0, if_false, h1, if_true,
      byteLen]
    rw [ih (n - c.utf8Size) (by omega), Nat.sub_sub]

theorem takeBytes_replicate (c : Char) (hc : c.utf8Size = 1) (k : Nat) :
    ∀ n, n ≤ k → takeBytes n (List.replicate k c) = List.replicate n c := by
  induction k with
  | zero => intro n h; have : n = 0 := by omega
            subst this; rfl
  | succ k ih =>
    intro n h
    by_cases h0 : n = 0
    · subst h0; simp [takeBytes]
    · have h1 : c.utf8Size ≤ n := by omega
      simp only [List.replicate_succ, takeBytes, h0, if_false, h1, if_true, hc]
      rw [ih _ (by omega)]
      obtain ⟨m, rfl⟩ : ∃ m, n = m + 1 := ⟨n - 1, by omega⟩
      simp [List.replicate_succ]

theorem rawLines_eq_nil (s : Str) : rawLines s = [] ↔ s = [] := by
  cases s with
  | nil => simp [rawLines]
  | cons c s =>
    simp only [rawLines, reduceCtorEq, iff_false]
    split
    · simp
    · split <;> simp

/-- The lines of a text that begins with a line ended by a line feed. -/
theorem rawLines_line (l : Str) (hl : '\n' ∉ l) (rest : Str) :
    rawLines (l ++ '\n' :: rest) = l :: rawLines rest := by
  induction l with
  | nil => simp [rawLines]
  | cons c l ih =>
    have hc : ¬ c = '\n' := by
      intro h; exact hl (by simp [h])
    have hl2 : '\n' ∉ l := by
      intro h; exact hl (List.mem_cons_of_mem _ h)
    simp only [List.cons_append, List.append_eq, rawLines, hc, if_false, ih hl2]

/-- The lines of two texts in a row, the first ended by a line feed. -/
theorem rawLines_append (a b : Str) (ha : a = [] ∨ a.getLast? = some '\n') :
    rawLines (a ++ b) = rawLines a ++ rawLines b := by
  induction a with
  | nil => simp [rawLines]
  | cons c a ih =>
    have hlast : (c :: a).getLast? = some '\n' := by
      rcases ha with h | h
      · cases h
      · exact h
    by_cases hn : a = []
    · subst hn
      simp only [List.getLast?_singleton, Option.some.injEq] at hlast
      subst hlast
      simp [rawLines]
    · have ha2 : a.getLast? = some '\n' := by
        obtain ⟨y, ys, hy⟩ := List.exists_cons_of_ne_nil hn
        rw [hy, List.getLast?_cons_cons] at hlast
        rw [hy]
        exact hlast
      have e := ih (Or.inr ha2)
      by_cases hc : c = '\n'
      · subst hc; simp only [List.cons_append, List.append_eq, rawLines, if_true, e]
      · have hra : rawLines a ≠ [] := fun h => hn ((rawLines_eq_nil a).1 h)
        obtain ⟨x, xs, hx⟩ := List.exists_cons_of_ne_nil hra
        simp only [List.cons_append, List.append_eq, rawLines, hc, if_false, e, hx]

theorem scanTokens_short (ls : List Str) (h : ∀ l ∈ ls, byteLen l < MaxScanTokenSize) :
    scanTokens ls = ls.map dropCR := by
  induction ls with
  | nil => rfl
  | cons l ls ih =>
    have h1 := h l (List.mem_cons_self _ _)
    simp only [scanTokens, h1, if_true, List.map_cons,
      ih (fun x hx => h x (List.mem_cons_of_mem _ hx))]

theorem scanTokens_long (pre : List Str) (l : Str) (post : List Str)
    (hpre : ∀ x ∈ pre, byteLen x < MaxScanTokenSize) (hl : MaxScanTokenSize ≤ byteLen l) :
    scanTokens (pre ++ l :: post) =
      pre.map dropCR ++ [[], dropCR (takeBytes MaxScanTokenSize l)] := by
  induction pre with
  | nil =>
    have : ¬ byteLen l < MaxScanTokenSize := by omega
    simp only [List.nil_append, scanTokens, this, if_false, List.map_nil]
  | cons x pre ih =>
    have h1 := hpre x (List.mem_cons_self _ _)
    simp only [List.cons_append, List.append_eq, scanTokens, h1, if_true, List.map_cons,
      ih (fun y hy => hpre y (List.mem_cons_of_mem _ hy))]

/-- On a text whose lines all fit the buffer the scanner delivers the lines of the
text. -/
theorem ScanLines_short (r : Str) (h : ∀ l ∈ rawLines r, byteLen l < MaxScanTokenSize) :
    ScanLines r = specLines r :=
  scanTokens_short _ h

theorem ParseWimInfo_congr (r r' : Str) (h : ScanLines r = ScanLines r') :
    ParseWimInfo r = ParseWimInfo r' := by
  unfold ParseWimInfo
  rw [h]

theorem ScanLines_cons_lf (t : Str) : ScanLines ('\n' :: t) = [] :: ScanLines t := by
  have h : byteLen [] < MaxScanTokenSize := by decide
  simp only [ScanLines, rawLines, if_true, scanTokens, h, dropCR, List.getLast?_nil,
    reduceCtorEq, if_false]

theorem ScanLines_cr_lf (t : Str) : ScanLines ('\r' :: '\n' :: t) = [] :: ScanLines t := by
  have h : byteLen ['\r'] < MaxScanTokenSize := by decide
  have hc : ¬ '\r' = '\n' := by decide
  have hd : dropCR ['\r'] = [] := by decide
  simp only [ScanLines, rawLines, hc, if_false, if_true, scanTokens, h, hd]

/-- The lines of a text followed by a line feed: those of the text, and an empty line
when the text is empty or ends with a line feed. -/
theorem rawLines_closed (s : Str) :
    rawLines (s ++ ['\n']) = rawLines s ∨ rawLines (s ++ ['\n']) = rawLines s ++ [[]] := by
  induction s with
  | nil => right; simp [rawLines]
  | cons c s ih =>
    by_cases hc : c = '\n'
    · subst hc
      rcases ih with e | e
      · left; simp only [List.cons_append, List.append_eq, rawLines, if_true, e]
      · right; simp only [List.cons_append, List.append_eq, rawLines, if_true, e]
    · rcases ih with e | e
      · left; simp only [List.cons_append, List.append_eq, rawLines, hc, if_false, e]
      · by_cases hn : s = []
        · subst hn; left; simp [rawLines, hc]
        · have hra : rawLines s ≠ [] := fun h => hn ((rawLines_eq_nil s).1 h)
          obtain ⟨x, xs, hx⟩ := List.exists_cons_of_ne_nil hra
          right
          simp only [List.cons_append, List.append_eq, rawLines, hc, if_false, e, hx]

/-- The lines of a text followed by a line feed and more text. -/
theorem rawLines_append_lf (s u : Str) :
    rawLines (s ++ '\n' :: u) = rawLines (s ++ ['\n']) ++ rawLines u := by
  have h := rawLines_append (s ++ ['\n']) u (Or.inr (by simp))
  rw [← h]
  simp

theorem scanTokens_append_blank (a x : List Str) :
    scanTokens (a ++ [] :: x) = scanTokens a ∨
      ∃ tail, scanTokens (a ++ [] :: x) = scanTokens a ++ [] :: tail := by
  induction a with
  | nil =>
    right
    have h : byteLen [] < MaxScanTokenSize := by decide
    exact ⟨scanTokens x, by
      simp only [List.nil_append, scanTokens, h, if_true, dropCR, List.getLast?_nil,
        reduceCtorEq, if_false]⟩
  | cons l a ih =>
    by_cases hl : byteLen l < MaxScanTokenSize
    · rcases ih with e | ⟨tail, e⟩
      · left; simp only [List.cons_append, List.append_eq, scanTokens, hl, if_true, e]
      · right
        exact ⟨tail, by
          simp only [List.cons_append, List.append_eq, scanTokens, hl, if_true, e]⟩
    · left; simp only [List.cons_append, List.append_eq, scanTokens, hl, if_false]

/-- The scanner on a text followed by two line feeds and more text: what it delivers on
the text, and then, unless a line of the text was too long, an empty line and more. -/
theorem ScanLines_append_blank (s t : Str) :
    ScanLines (s ++ '\n' :: '\n' :: t) = ScanLines s ∨
      ∃ tail, ScanLines (s ++ '\n' :: '\n' :: t) = ScanLines s ++ [] :: tail := by
  have h1 : rawLines (s ++ '\n' :: '\n' :: t) =
      rawLines (s ++ ['\n']) ++ [] :: rawLines t := by
    rw [rawLines_append_lf]
    simp [rawLines]
  unfold ScanLines
  rw [h1]
  rcases rawLines_closed s with e | e
  · rw [e]
    exact scanTokens_append_blank _ _
  · rw [e, List.append_assoc, List.singleton_append]
    exact scanTokens_append_blank _ _

/-- The lines of a text with a line `l` after the part `a`. -/
theorem rawLines_mid (a l b : Str) (ha : a = [] ∨ a.getLast? = some '\n')
    (hl : '\n' ∉ l) :
    rawLines (a ++ (l ++ '\n' :: b)) = rawLines a ++ l :: rawLines b := by
  rw [rawLines_append a _ ha, rawLines_line l hl]

/-- The scanner on a text with a line of `MaxScanTokenSize` bytes or more after the part
`a`, whose lines fit the buffer: the lines of `a`, the call of `Scan` that returns
false, and the first `MaxScanTokenSize` bytes of the line. -/
theorem ScanLines_long (a l b : Str) (ha : a = [] ∨ a.getLast? = some '\n')
    (hl : '\n' ∉ l) (hlong : MaxScanTokenSize ≤ byteLen l)
    (hshort : ∀ x ∈ rawLines a, byteLen x < MaxScanTokenSize) :
    ScanLines (a ++ (l ++ '\n' :: b)) =
      specLines a ++ [[], dropCR (takeBytes MaxScanTokenSize l)] := by
  unfold ScanLines
  rw [rawLines_mid a l b ha hl]
  exact scanTokens_long _ _ _ hshort hlong

/-! ## White space at the end of a line -/

theorem dropWhile_all_append (p : Char → Bool) (w x : Str) (hw : ∀ c ∈ w, p c = true) :
    (w ++ x).dropWhile p = x.dropWhile p := by
  induction w with
  | nil => rfl
  | cons c w ih =>
    have hc := hw c (List.mem_cons_self _ _)
    simp only [List.cons_append, List.dropWhile_cons, hc, if_true]
    exact ih (fun d hd => hw d (List.mem_cons_of_mem _ hd))

theorem dropWhile_append_all (p : Char → Bool) (v w : Str) (hw : ∀ c ∈ w, p c = true) :
    (v ++ w).dropWhile p = if v.dropWhile p = [] then [] else v.dropWhile p ++ w := by
  induction v with
  | nil =>
    have := dropWhile_all_append p w [] hw
    simp only [List.append_nil, List.dropWhile_nil] at this
    simp [this]
  | cons c v ih =>
    by_cases hc : p c = true
    · simp only [List.cons_append, List.dropWhile_cons, hc, if_true]
      exact ih
    · simp [List.dropWhile_cons, hc]

/-- White space after a text is trimmed away. -/
theorem TrimSpace_append_spaces (v w : Str) (hw : ∀ c ∈ w, isSpace c = true) :
    TrimSpace (v ++ w) = TrimSpace v := by
  unfold TrimSpace
  rw [dropWhile_append_all isSpace v w hw]
  by_cases h : v.dropWhile isSpace = []
  · simp [h]
  · simp only [h, if_false, List.reverse_append]
    rw [dropWhile_all_append isSpace w.reverse _ (fun c hc => hw c (List.mem_reverse.1 hc))]

theorem takeWhile_append_of_mem (p : Char → Bool) (l w : Str)
    (h : ∃ c ∈ l, p c = false) : (l ++ w).takeWhile p = l.takeWhile p := by
  induction l with
  | nil => obtain ⟨c, hc, _⟩ := h; cases hc
  | cons x l ih =>
    by_cases hx : p x = true
    · simp only [List.cons_append, List.takeWhile_cons, hx, if_true]
      congr 1
      apply ih
      obtain ⟨c, hc, hpc⟩ := h
      rcases List.mem_cons.1 hc with e | e
      · subst e; rw [hx] at hpc; cases hpc
      · exact ⟨c, e, hpc⟩
    · simp [List.takeWhile_cons, hx]

theorem dropWhile_append_of_mem (p : Char → Bool) (l w : Str)
    (h : ∃ c ∈ l, p c = false) :
    (l ++ w).dropWhile p = l.dropWhile p ++ w ∧ l.dropWhile p ≠ [] := by
  induction l with
  | nil => obtain ⟨c, hc, _⟩ := h; cases hc
  | cons x l ih =>
    by_cases hx : p x = true
    · simp only [List.cons_append, List.dropWhile_cons, hx, if_true]
      apply ih
      obtain ⟨c, hc, hpc⟩ := h
      rcases List.mem_cons.1 hc with e | e
      · subst e; rw [hx] at hpc; cases hpc
      · exact ⟨c, e, hpc⟩
    · simp [List.dropWhile_cons, hx]

/-- White space after a line that has a colon does not change the field it declares. -/
theorem specLineField_append_spaces (l w : Str) (hl : ':' ∈ l)
    (hw : ∀ c ∈ w, isSpace c = true) : specLineField (l ++ w) = specLineField l := by
  have hex : ∃ c ∈ l, (fun c => decide (c ≠ ':')) c = false := ⟨':', hl, by simp⟩
  have h1 := takeWhile_append_of_mem (fun c => decide (c ≠ ':')) l w hex
  obtain ⟨h2, h3⟩ := dropWhile_append_of_mem (fun c => decide (c ≠ ':')) l w hex
  have hmem : ':' ∈ l ++ w := List.mem_append_left _ hl
  obtain ⟨d, ds, hd⟩ := List.exists_cons_of_ne_nil h3
  unfold specLineField
  simp only [hmem, hl, if_true, h1, h2, hd, List.cons_append, List.drop_succ_cons,
    List.drop_zero, TrimSpace_append_spaces ds w hw]

/-! ## Texts with a line that does not fit the buffer -/

theorem specBlocks_append_sep (rest : List Str) (lines : List Str) :
    specBlocks (lines ++ [] :: rest) = specBlocks (lines ++ [[]]) ++ specBlocks rest := by
  induction lines with
  | nil => simp [specBlocks]
  | cons x lines ih =>
    by_cases hx : x = []
    · simp only [List.cons_append, List.append_eq, specBlocks, hx, if_true, ih]
    · have hne : specBlocks (lines ++ [[]]) ≠ [] := by
        intro h
        have := specBlocks_eq_nil _ h
        simp at this
      obtain ⟨b, bs, hb⟩ := List.exists_cons_of_ne_nil hne
      simp only [List.cons_append, List.append_eq, specBlocks, hx, if_false, ih, hb]

theorem blockLoop_congr (count : Int) (bs : List (List Str)) :
    ∀ (bs' : List (List Str)) (i : Int) (info : WimInfo),
      bs.map sectionOf = bs'.map sectionOf →
      blockLoop count i bs info = blockLoop count i bs' info := by
  induction bs with
  | nil =>
    intro bs' i info h
    cases bs' with
    | nil => rfl
    | cons b' bs' => simp at h
  | cons b bs ih =>
    intro bs' i info h
    cases bs' with
    | nil => simp at h
    | cons b' bs' =>
      simp only [List.map_cons, List.cons.injEq] at h
      obtain ⟨h1, h2⟩ := h
      simp only [blockLoop, h1, ih bs' _ _ h2]

/-- The result depends on the blocks through the sections read from them. -/
theorem parseBlocks_congr (bs bs' : List (List Str))
    (h : bs.map sectionOf = bs'.map sectionOf) : parseBlocks bs = parseBlocks bs' := by
  cases bs with
  | nil =>
    cases bs' with
    | nil => rfl
    | cons b' bs' => simp at h
  | cons b bs =>
    cases bs' with
    | nil => simp at h
    | cons b' bs' =>
      simp only [List.map_cons, List.cons.injEq] at h
      obtain ⟨h1, h2⟩ := h
      simp only [parseBlocks, List.headD_cons, List.tail_cons, h1,
        blockLoop_congr _ bs bs' _ _ h2]

theorem parseBlocks_empty_header (bs : List (List Str)) :
    parseBlocks ([] :: bs) = .error (.numError [] .invalid) := by
  simp only [parseBlocks, List.headD_cons, sectionOf, List.foldl_nil, mapGet, Atoi_nil]

/-- The parse of a text with a line of `MaxScanTokenSize` bytes or more after the part
`a`: that of the blocks of `a`, the last of them ended, and a block of one line `t`
declaring what the first `MaxScanTokenSize` bytes of the long line declare. -/
theorem ParseWimInfo_long (a l b t : Str) (ha : a = [] ∨ a.getLast? = some '\n')
    (hl : '\n' ∉ l) (hlong : MaxScanTokenSize ≤ byteLen l)
    (hshort : ∀ x ∈ rawLines a, byteLen x < MaxScanTokenSize)
    (hne : dropCR (takeBytes MaxScanTokenSize l) ≠ [])
    (hfield : specLineField (dropCR (takeBytes MaxScanTokenSize l)) = specLineField t) :
    ParseWimInfo (a ++ (l ++ '\n' :: b)) =
      parseBlocks (specBlocks (specLines a ++ [[]]) ++ [[t]]) := by
  rw [ParseWimInfo_eq_parseBlocks, ScanLines_long a l b ha hl hlong hshort,
    specBlocks_append_sep]
  apply parseBlocks_congr
  simp only [specBlocks, hne, if_false, List.map_append, List.map_cons, List.map_nil,
    sectionOf, List.foldl_cons, List.foldl_nil, addLine, hfield]

/-- A text that parses to a record parses to the same record when a line of
`MaxScanTokenSize` bytes or more and further text follow it. -/
theorem ParseWimInfo_long_ok (a l b : Str) (info : WimInfo)
    (ha : a = [] ∨ a.getLast? = some '\n')
    (hl : '\n' ∉ l) (hlong : MaxScanTokenSize ≤ byteLen l)
    (hshort : ∀ x ∈ rawLines a, byteLen x < MaxScanTokenSize)
    (hok : ParseWimInfo a = .ok info) :
    ParseWimInfo (a ++ (l ++ '\n' :: b)) = .ok info := by
  rw [ParseWimInfo_eq_parseBlocks] at hok ⊢
  rw [ScanLines_short a hshort] at hok
  rw [ScanLines_long a l b ha hl hlong hshort]
  obtain ⟨extra, he⟩ := specBlocks_append_empty [dropCR (takeBytes MaxScanTokenSize l)]
    (specLines a)
  rw [he]
  exact parseBlocks_append_ok _ extra info hok

/-- The lines of a text with a line `l` after the part `a`, as the specification has
them. -/
theorem specLines_mid (a l b : Str) (ha : a = [] ∨ a.getLast? = some '\n')
    (hl : '\n' ∉ l) :
    specLines (a ++ (l ++ '\n' :: b)) = specLines a ++ dropCR l :: specLines b := by
  unfold specLines
  rw [rawLines_mid a l b ha hl, List.map_append, List.map_cons]

theorem getLast?_append_replicate (a : Str) (c : Char) (n : Nat) (hn : 0 < n) :
    (a ++ List.replicate n c).getLast? = some c := by
  obtain ⟨m, rfl⟩ : ∃ m, n = m + 1 := ⟨n - 1, by omega⟩
  rw [List.replicate_succ', ← List.append_assoc, List.getLast?_append]
  simp

theorem dropCR_append_replicate (a : Str) (c : Char) (n : Nat) (hn : 0 < n)
    (hc : c ≠ '\r') : dropCR (a ++ List.replicate n c) = a ++ List.replicate n c := by
  unfold dropCR
  rw [getLast?_append_replicate a c n hn]
  simp [hc]

theorem mem_append_replicate (a : Str) (c d : Char) (n : Nat) (ha : d ∉ a) (hc : d ≠ c) :
    d ∉ a ++ List.replicate n c := by
  intro h
  rcases List.mem_append.1 h with h | h
  · exact ha h
  · exact hc (List.eq_of_mem_replicate h)

/-! ## The long lines of the examples -/

theorem longLine_byteLen : byteLen longLine = MaxScanTokenSize := by
  unfold longLine
  rw [byteLen_replicate]
  have : 'x'.utf8Size = 1 := by decide
  rw [this, Nat.mul_one]

theorem longLine_lf : '\n' ∉ longLine :=
  fun h => (by decide : ¬ '\n' = 'x') (List.eq_of_mem_replicate h)

theorem longLine_colon : ':' ∉ longLine :=
  fun h => (by decide : ¬ ':' = 'x') (List.eq_of_mem_replicate h)

theorem longLine_token : dropCR (takeBytes MaxScanTokenSize longLine) = longLine := by
  rw [takeBytes_of_le _ _ (le_of_eq longLine_byteLen)]
  exact dropCR_append_replicate [] 'x' MaxScanTokenSize (by decide) (by decide)

theorem longLine_ne : longLine ≠ [] := by
  intro h
  have := longLine_byteLen
  rw [h] at this
  revert this
  decide

theorem longLine_field : specLineField longLine = none := by
  simp only [specLineField, longLine_colon, if_false]

theorem longName_byteLen : byteLen longName = MaxScanTokenSize := by
  unfold longName
  rw [byteLen_append, byteLen_replicate]
  have h1 : 'x'.utf8Size = 1 := by decide
  have h2 : byteLen "Name: ".toList = 6 := by decide
  rw [h1, h2, Nat.mul_one]
  decide

theorem longName_lf : '\n' ∉ longName :=
  mem_append_replicate _ 'x' '\n' _ (by decide) (by decide)

theorem longName_dropCR : dropCR longName = longName :=
  dropCR_append_replicate _ 'x' _ (by decide) (by decide)

theorem longName_ne : longName ≠ [] := by
  intro h
  have := longName_byteLen
  rw [h] at this
  revert this
  decide

theorem TrimSpace_replicate (c : Char) (hc : isSpace c = false) (n : Nat) :
    TrimSpace (List.replicate n c) = List.replicate n c := by
  cases n with
  | zero => rfl
  | succ n =>
    unfold TrimSpace
    have h1 : (List.replicate (n + 1) c).dropWhile isSpace = List.replicate (n + 1) c := by
      simp [List.replicate_succ, List.dropWhile_cons, hc]
    rw [h1, List.reverse_replicate, h1, List.reverse_replicate]

theorem longName_field :
    specLineField longName =
      some ("Name".toList, List.replicate (MaxScanTokenSize - 6) 'x') := by
  have hmem : ':' ∈ longName := by
    unfold longName
    exact List.mem_append_left _ (by decide)
  have hex : ∃ c ∈ "Name: ".toList, (fun c => decide (c ≠ ':')) c = false :=
    ⟨':', by decide, by simp⟩
  have h1 := takeWhile_append_of_mem (fun c => decide (c ≠ ':')) "Name: ".toList
    (List.replicate (MaxScanTokenSize - 6) 'x') hex
  obtain ⟨h2, _⟩ := dropWhile_append_of_mem (fun c => decide (c ≠ ':')) "Name: ".toList
    (List.replicate (MaxScanTokenSize - 6) 'x') hex
  have h3 : "Name: ".toList.takeWhile (fun c => decide (c ≠ ':')) = "Name".toList := by
    decide
  have h4 : "Name: ".toList.dropWhile (fun c => decide (c ≠ ':')) = [':', ' '] := by
    decide
  have h5 : TrimSpace "Name".toList = "Name".toList := by decide
  have h6 : TrimSpace (' ' :: List.replicate (MaxScanTokenSize - 6) 'x') =
      List.replicate (MaxScanTokenSize - 6) 'x' := by
    have := TrimSpace_replicate 'x' (by decide) (MaxScanTokenSize - 6)
    unfold TrimSpace at this ⊢
    rw [List.dropWhile_cons]
    simp only [(by decide : isSpace ' ' = true), if_true]
    exact this
  have h7 : ¬ "Name".toList = [] := by decide
  unfold specLineField
  simp only [hmem, if_true]
  unfold longName
  rw [h1, h2, h3, h4, h5]
  simp only [h7, if_false, List.cons_append, List.nil_append, List.drop_succ_cons,
    List.drop_zero, h6]

theorem padded_byteLen (f : Str) : MaxScanTokenSize ≤ byteLen (padded f) := by
  unfold padded
  rw [byteLen_append, byteLen_replicate]
  have h1 : ' '.utf8Size = 1 := by decide
  rw [h1]
  omega

theorem padded_lf (f : Str) (hf : '\n' ∉ f) : '\n' ∉ padded f :=
  mem_append_replicate f ' ' '\n' _ hf (by decide)

/-- The token the scanner delivers for a field followed by `MaxScanTokenSize` spaces
declares the field. -/
theorem padded_token (f : Str) (hf : ':' ∈ f) (hlen : byteLen f < MaxScanTokenSize) :
    dropCR (takeBytes MaxScanTokenSize (padded f)) ≠ [] ∧
    specLineField (dropCR (takeBytes MaxScanTokenSize (padded f))) = specLineField f := by
  have h1 : takeBytes MaxScanTokenSize (padded f) =
      f ++ List.replicate (MaxScanTokenSize - byteLen f) ' ' := by
    unfold padded
    rw [takeBytes_append f _ _ hlen, takeBytes_replicate ' ' (by decide) _ _ (by omega)]
  have h2 := dropCR_append_replicate f ' ' (MaxScanTokenSize - byteLen f) (by omega)
    (by decide)
  rw [h1, h2]
  constructor
  · intro h
    rw [List.append_eq_nil] at h
    rw [h.1] at hf
    cases hf
  · apply specLineField_append_spaces f _ hf
    intro c hc
    rw [List.eq_of_mem_replicate hc]
    decide

/-! ## Lines with a carriage return -/

theorem mem_dropCR (l : Str) (c : Char) (h : c ∈ dropCR l) : c ∈ l := by
  unfold dropCR at h
  split at h
  · exact List.mem_of_mem_dropLast h
  · exact h

theorem takeWhile_dropCR (l : Str) (h : ':' ∈ dropCR l) :
    (dropCR l).takeWhile (fun c => decide (c ≠ ':')) =
      l.takeWhile (fun c => decide (c ≠ ':')) := by
  unfold dropCR at h ⊢
  by_cases hlast : l.getLast? = some '\r'
  · rw [if_pos hlast] at h ⊢
    have e : l.dropLast ++ ['\r'] = l := List.dropLast_append_getLast? '\r' hlast
    conv_rhs => rw [← e]
    exact (takeWhile_append_of_mem _ _ _ ⟨':', h, by simp⟩).symm
  · rw [if_neg hlast]

/-- A line without a colon, or with white space only before its first colon, declares no
field, with or without its carriage return. -/
theorem specLineField_dropCR_stray (line : Str)
    (hstray : ':' ∉ line ∨ TrimSpace (line.takeWhile (fun c => c ≠ ':')) = []) :
    specLineField (dropCR line) = none := by
  unfold specLineField
  by_cases hc : ':' ∈ dropCR line
  · have hmem := mem_dropCR _ _ hc
    rcases hstray with h | h
    · exact absurd hmem h
    · simp only [hc, if_true, takeWhile_dropCR line hc, h]
  · simp only [hc, if_false]

theorem all_dropCR (ws : Str) (h : ws.all isSpace = true) :
    (dropCR ws).all isSpace = true := by
  rw [List.all_eq_true] at h ⊢
  intro c hc
  exact h c (mem_dropCR _ _ hc)

/-- The scanner on two texts whose lines fit the buffer, the second with one line
more. -/
theorem ScanLines_insert (r r' : Str) (pre post : List Str) (line : Str)
    (hshort : ∀ l ∈ rawLines r', byteLen l < MaxScanTokenSize)
    (hr : rawLines r = pre ++ post) (hr' : rawLines r' = pre ++ line :: post) :
    ScanLines r = pre.map dropCR ++ post.map dropCR ∧
    ScanLines r' = pre.map dropCR ++ dropCR line :: post.map dropCR := by
  have hs : ∀ l ∈ rawLines r, byteLen l < MaxScanTokenSize := by
    intro l hl
    apply hshort
    rw [hr] at hl
    rw [hr']
    rcases List.mem_append.1 hl with h | h
    · exact List.mem_append_left _ h
    · exact List.mem_append_right _ (List.mem_cons_of_mem _ h)
  constructor
  · rw [ScanLines_short r hs]
    unfold specLines
    rw [hr, List.map_append]
  · rw [ScanLines_short r' hshort]
    unfold specLines
    rw [hr', List.map_append, List.map_cons]

/-! ## Letter case and the tags that match -/

theorem patternMatches_case (t u : Str) (h : t.map asciiLower = u.map asciiLower)
    (ht : ∀ c ∈ t, c.toNat < 128) (hu : ∀ c ∈ u, c.toNat < 128) (a : Str) :
    patternMatches goRegexp t a = patternMatches goRegexp u a := by
  unfold patternMatches
  rw [goRegexp_flag]
  cases parsePieces a with
  | none => rfl
  | some ps => simp only [Option.map_some', searchPieces_case ps t u h ht hu]

theorem classifiesAs_case (t u : Str) (h : t.map asciiLower = u.map asciiLower)
    (ht : ∀ c ∈ t, c.toNat < 128) (hu : ∀ c ∈ u, c.toNat < 128)
    (first second : Aliases) (tag : Str) :
    classifiesAs first second t tag = classifiesAs first second u tag := by
  have hp : patternMatches goRegexp t = patternMatches goRegexp u :=
    funext (patternMatches_case t u h ht hu)
  have hm : tagMatches goRegexp t = tagMatches goRegexp u := by
    funext e
    simp only [tagMatches, hp]
  simp only [classifiesAs, uniqueTag, noTag, hm]

/-! # The claims -/

/-- C1, as amended. An input whose lines are each shorter than `MaxScanTokenSize` bytes,
made of a header block declaring the count `N ≥ 1` and `N` image blocks, block `i`
declaring the index `i`, parses to a record with `ImageCount() = N` whose accessors
`Name`, `MajorVersion` and `Architecture` return, for every image `i`, the trimmed value
block `i` gives to `Name`, `Major Version` and `Architecture`, or the empty string when
the block has no such key. The count is taken below the largest `int`, so that the
counter of the loop does not wrap. -/
theorem parse_wellformed_input (r : Str) (N : Nat) (header : List Str)
    (images : List (List Str))
    (hshort : ∀ l ∈ rawLines r, byteLen l < MaxScanTokenSize)
    (hblocks : specBlocks (specLines r) = header :: images)
    (hN : 1 ≤ N) (hmax : (N : Int) < 2 ^ 63 - 1) (hlen : images.length = N)
    (hcount : Atoi (specValue header "Image Count".toList) = .ok (N : Int))
    (hindex : ∀ j, j < N →
      Atoi (specValue (images.getD j []) "Index".toList) = .ok ((j : Int) + 1)) :
    ∃ info, ParseWimInfo r = .ok info ∧ info.ImageCount = (N : Int) ∧
      ∀ j, j < N →
        info.Name ((j : Int) + 1) = specValue (images.getD j []) "Name".toList ∧
        info.MajorVersion ((j : Int) + 1) =
          specValue (images.getD j []) "Major Version".toList ∧
        info.Architecture ((j : Int) + 1) =
          specValue (images.getD j []) "Architecture".toList := by
  rw [← ScanLines_short r hshort] at hblocks
  have hp := parseBlocks_ok header images N hN hmax (le_of_eq hlen.symm) hcount hindex
  have htake : images.take N = images := by rw [← hlen]; exact List.take_length images
  rw [htake] at hp
  refine ⟨_, by rw [ParseWimInfo_eq_parseBlocks, hblocks, hp], ?_, ?_⟩
  · simp only [WimInfo.ImageCount, List.length_cons, recordOf_length, hlen]
    push_cast
    ring
  · intro j hj
    have hne : ¬ (0 : Int) = (j : Int) + 1 := by omega
    have hrec : mapGet [] ((0, sectionOf header) :: recordOf 1 images) ((j : Int) + 1) =
        sectionOf (images.getD j []) := by
      simp only [mapGet, hne, if_false]
      rw [add_comm]
      exact mapGet_recordOf images 1 j (by omega)
    simp only [WimInfo.Name, WimInfo.MajorVersion, WimInfo.Architecture, hrec,
      mapGet_sectionOf, and_self]

theorem parse_wellformed_input_witness :
    ∃ info, ParseWimInfo sampleText = .ok info ∧ info.ImageCount = ((2 : Nat) : Int) ∧
      ∀ j : Nat, j < 2 →
        info.Name ((j : Int) + 1) = specValue (sampleImages.getD j []) "Name".toList ∧
        info.MajorVersion ((j : Int) + 1) =
          specValue (sampleImages.getD j []) "Major Version".toList ∧
        info.Architecture ((j : Int) + 1) =
          specValue (sampleImages.getD j []) "Architecture".toList :=
  parse_wellformed_input sampleText 2 ["Image Count: 2".toList] sampleImages (by decide)
    (by decide) (by decide) (by decide) (by decide) (by decide) (by decide)

/-- C1, the claim as stated fails: a header declaring one image and one image block, with
`Index: 1`, a name on a line of `MaxScanTokenSize` bytes and `Architecture: x86`. The
scanner gives up at the long line, which the code takes for the end of the text, and
the record returned has neither the name nor the architecture of the block. -/
theorem parse_wellformed_input_counterexample :
    specBlocks (specLines ("Image Count: 1\n\nIndex: 1\n".toList ++
        (longName ++ '\n' :: "Architecture: x86\n".toList))) =
      [["Image Count: 1".toList],
        ["Index: 1".toList, longName, "Architecture: x86".toList]] ∧
    Atoi (specValue ["Image Count: 1".toList] "Image Count".toList) = .ok 1 ∧
    Atoi (specValue ["Index: 1".toList, longName, "Architecture: x86".toList]
      "Index".toList) = .ok 1 ∧
    specValue ["Index: 1".toList, longName, "Architecture: x86".toList] "Name".toList =
      List.replicate (MaxScanTokenSize - 6) 'x' ∧
    specValue ["Index: 1".toList, longName, "Architecture: x86".toList]
      "Architecture".toList = "x86".toList ∧
    ParseWimInfo ("Image Count: 1\n\nIndex: 1\n".toList ++
        (longName ++ '\n' :: "Architecture: x86\n".toList)) =
      .ok [(0, [("Image Count".toList, "1".toList)]), (1, [("Index".toList, "1".toList)])] ∧
    WimInfo.Name [(0, [("Image Count".toList, "1".toList)]),
      (1, [("Index".toList, "1".toList)])] 1 = [] ∧
    WimInfo.Architecture [(0, [("Image Count".toList, "1".toList)]),
      (1, [("Index".toList, "1".toList)])] 1 = [] := by
  have hlines := specLines_mid "Image Count: 1\n\nIndex: 1\n".toList longName
    "Architecture: x86\n".toList (Or.inr (by decide)) longName_lf
  have ha : specLines "Image Count: 1\n\nIndex: 1\n".toList =
      ["Image Count: 1".toList, [], "Index: 1".toList] := by decide
  have hb : specLines "Architecture: x86\n".toList = ["Architecture: x86".toList] := by
    decide
  have h1 : specLineField "Index: 1".toList = some ("Index".toList, "1".toList) := by
    decide
  have h3 : specLineField "Architecture: x86".toList =
      some ("Architecture".toList, "x86".toList) := by decide
  have key : ∀ (L R : Str), specLineField L = some ("Name".toList, R) →
      Atoi (specValue ["Index: 1".toList, L, "Architecture: x86".toList]
        "Index".toList) = .ok 1 ∧
      specValue ["Index: 1".toList, L, "Architecture: x86".toList] "Name".toList = R ∧
      specValue ["Index: 1".toList, L, "Architecture: x86".toList]
        "Architecture".toList = "x86".toList := by
    intro L R h
    simp only [specValue, specField, List.filterMap_cons, h, h1, h3, List.filterMap_nil]
    exact ⟨rfl, rfl, rfl⟩
  have hblocks : ∀ L : Str, L ≠ [] →
      specBlocks (["Image Count: 1".toList, [], "Index: 1".toList] ++
        L :: ["Architecture: x86".toList]) =
      [["Image Count: 1".toList], ["Index: 1".toList, L, "Architecture: x86".toList]] := by
    intro L hL
    simp [specBlocks, hL]
  obtain ⟨k1, k2, k3⟩ := key longName _ longName_field
  refine ⟨?_, by decide, k1, k2, k3, ?_, by decide, by decide⟩
  · rw [hlines, ha, hb, longName_dropCR]
    exact hblocks longName longName_ne
  · exact ParseWimInfo_long_ok _ longName _ _ (Or.inr (by decide)) longName_lf
      (le_of_eq longName_byteLen.symm) (by decide)
      (by rw [ParseWimInfo_eq_parseBlocks]; decide)

/-- C2, as amended. On an input whose lines are each shorter than `MaxScanTokenSize`
bytes: when the header declares the count `N`, the image blocks before block `i ≤ N`
carry the indices `1` to `i - 1`, and the `Index` of block `i` parses to an integer
`j ≠ i`, `ParseWimInfo` returns no record but the error
`Failed to parse wim info: j != i`, whatever follows block `i`. -/
theorem parse_index_mismatch (r : Str) (N : Nat) (header : List Str)
    (good : List (List Str)) (bad : List Str) (later : List (List Str)) (j : Int)
    (hshort : ∀ l ∈ rawLines r, byteLen l < MaxScanTokenSize)
    (hblocks : specBlocks (specLines r) = header :: (good ++ bad :: later))
    (hcount : Atoi (specValue header "Image Count".toList) = .ok (N : Int))
    (hi : good.length + 1 ≤ N)
    (hgood : ∀ k, k < good.length →
      Atoi (specValue (good.getD k []) "Index".toList) = .ok ((k : Int) + 1))
    (hbad : Atoi (specValue bad "Index".toList) = .ok j)
    (hj : j ≠ (good.length : Int) + 1) :
    ParseWimInfo r =
      .error (.errorf ("Failed to parse wim info: ".toList ++ formatInt j ++
        " != ".toList ++ formatInt ((good.length : Int) + 1))) := by
  rw [← ScanLines_short r hshort] at hblocks
  have hne : ¬ (N : Int) = 0 := by omega
  obtain ⟨_, hmax⟩ := Atoi_range _ _ hcount
  rw [ParseWimInfo_eq_parseBlocks, hblocks]
  simp only [parseBlocks, List.headD_cons, List.tail_cons, mapGet_sectionOf, hcount, hne,
    if_false]
  rw [blockLoop_mismatch (N : Int) good bad later 1 j _
    (fun k hk => by rw [mapGet_sectionOf, hgood k hk]; congr 1; ring)
    (by rw [mapGet_sectionOf]; exact hbad) (by rw [add_comm]; exact hj) (by norm_num)
    (by omega) hmax]
  rw [add_comm]

theorem parse_index_mismatch_witness :
    ParseWimInfo "Image Count: 2\n\nIndex: 2\nName: Windows 10 Pro\n".toList =
      .error (.errorf "Failed to parse wim info: 2 != 1".toList) :=
  parse_index_mismatch _ 2 ["Image Count: 2".toList] []
    ["Index: 2".toList, "Name: Windows 10 Pro".toList] [] 2 (by decide) (by decide)
    (by decide) (by decide) (by decide) (by decide) (by decide)

/-- C2, the claim as stated fails: the header declares two images and the first image
block is a line of `MaxScanTokenSize` bytes followed by `Index: 2`. The scanner gives
up at the long line, the first section is read empty, and the error is that of
`strconv.Atoi` on the empty string, not the mismatch `2 != 1`. -/
theorem parse_index_mismatch_counterexample :
    specBlocks (specLines ("Image Count: 2\n\n".toList ++
        (longLine ++ '\n' :: "Index: 2\n".toList))) =
      [["Image Count: 2".toList], [longLine, "Index: 2".toList]] ∧
    Atoi (specValue ["Image Count: 2".toList] "Image Count".toList) = .ok 2 ∧
    Atoi (specValue [longLine, "Index: 2".toList] "Index".toList) = .ok 2 ∧
    ParseWimInfo ("Image Count: 2\n\n".toList ++
        (longLine ++ '\n' :: "Index: 2\n".toList)) = .error (.numError [] .invalid) := by
  have hlines := specLines_mid "Image Count: 2\n\n".toList longLine "Index: 2\n".toList
    (Or.inr (by decide)) longLine_lf
  have ha : specLines "Image Count: 2\n\n".toList = ["Image Count: 2".toList, []] := by
    decide
  have hb : specLines "Index: 2\n".toList = ["Index: 2".toList] := by decide
  have h2 : specLineField "Index: 2".toList = some ("Index".toList, "2".toList) := by
    decide
  have key : ∀ L : Str, specLineField L = none →
      Atoi (specValue [L, "Index: 2".toList] "Index".toList) = .ok 2 := by
    intro L h
    simp only [specValue, specField, List.filterMap_cons, h, h2, List.filterMap_nil]
    rfl
  have hblocks : ∀ L : Str, L ≠ [] →
      specBlocks (["Image Count: 2".toList, []] ++ L :: ["Index: 2".toList]) =
      [["Image Count: 2".toList], [L, "Index: 2".toList]] := by
    intro L hL
    simp [specBlocks, hL]
  have htok : dropCR longLine = longLine :=
    dropCR_append_replicate [] 'x' MaxScanTokenSize (by decide) (by decide)
  refine ⟨?_, by decide, key longLine longLine_field, ?_⟩
  · rw [hlines, ha, hb, htok]
    exact hblocks longLine longLine_ne
  · rw [ParseWimInfo_long _ longLine _ "x".toList (Or.inr (by decide)) longLine_lf
      (le_of_eq longLine_byteLen.symm) (by decide)
      (by rw [longLine_token]; exact longLine_ne)
      (by rw [longLine_token, longLine_field]; decide)]
    decide

/-- C3, as amended. On an input whose lines are each shorter than `MaxScanTokenSize`
bytes: when the `Image Count` of the header block parses to zero, `ParseWimInfo`
returns no record but the error `Failed to parse wim info`, whatever follows the
header. -/
theorem parse_rejects_zero_count (r : Str)
    (hshort : ∀ l ∈ rawLines r, byteLen l < MaxScanTokenSize)
    (h : Atoi (specValue ((specBlocks (specLines r)).headD []) "Image Count".toList) =
      .ok 0) :
    ParseWimInfo r = .error (.errorf "Failed to parse wim info".toList) := by
  rw [← ScanLines_short r hshort] at h
  rw [ParseWimInfo_eq_parseBlocks]
  simp only [parseBlocks, mapGet_sectionOf, h, if_true]

theorem parse_rejects_zero_count_witness :
    ParseWimInfo "Image Count: 0\n\nIndex: 1\nName: Windows 10 Pro\n\nno fields".toList =
      .error (.errorf "Failed to parse wim info".toList) :=
  parse_rejects_zero_count _ (by decide) (by decide)

/-- C3, the claim as stated fails: the header block is a line of `MaxScanTokenSize` bytes
followed by `Image Count: 0`. The scanner gives up at the long line, the header is read
empty, and the error is that of `strconv.Atoi` on the empty string, not
`Failed to parse wim info`. -/
theorem parse_rejects_zero_count_counterexample :
    specBlocks (specLines (longLine ++ '\n' :: "Image Count: 0\n".toList)) =
      [[longLine, "Image Count: 0".toList]] ∧
    Atoi (specValue [longLine, "Image Count: 0".toList] "Image Count".toList) = .ok 0 ∧
    ParseWimInfo (longLine ++ '\n' :: "Image Count: 0\n".toList) =
      .error (.numError [] .invalid) := by
  have hlines := specLines_mid [] longLine "Image Count: 0\n".toList (Or.inl rfl)
    longLine_lf
  have hb : specLines "Image Count: 0\n".toList = ["Image Count: 0".toList] := by decide
  have h2 : specLineField "Image Count: 0".toList =
      some ("Image Count".toList, "0".toList) := by decide
  have key : ∀ L : Str, specLineField L = none →
      Atoi (specValue [L, "Image Count: 0".toList] "Image Count".toList) = .ok 0 := by
    intro L h
    simp only [specValue, specField, List.filterMap_cons, h, h2, List.filterMap_nil]
    rfl
  have hblocks : ∀ L : Str, L ≠ [] →
      specBlocks (L :: ["Image Count: 0".toList]) = [[L, "Image Count: 0".toList]] := by
    intro L hL
    simp [specBlocks, hL]
  have htok : dropCR longLine = longLine :=
    dropCR_append_replicate [] 'x' MaxScanTokenSize (by decide) (by decide)
  have hparse := ParseWimInfo_long [] longLine "Image Count: 0\n".toList "x".toList
    (Or.inl rfl) longLine_lf (le_of_eq longLine_byteLen.symm) (by decide)
    (by rw [longLine_token]; exact longLine_ne)
    (by rw [longLine_token, longLine_field]; decide)
  refine ⟨?_, key longLine longLine_field, ?_⟩
  · have e : specLines (longLine ++ '\n' :: "Image Count: 0\n".toList) =
        dropCR longLine :: specLines "Image Count: 0\n".toList := hlines
    rw [e, htok, hb]
    exact hblocks longLine longLine_ne
  · have e : ParseWimInfo (longLine ++ '\n' :: "Image Count: 0\n".toList) =
        parseBlocks (specBlocks (specLines [] ++ [[]]) ++ [["x".toList]]) := hparse
    rw [e]
    decide

/-- C4, as amended. On an input whose lines are each shorter than `MaxScanTokenSize`
bytes: when the first block has no `Image Count` key, or gives it a value that is not a
base-10 integer, `ParseWimInfo` returns no record but the error of `strconv.Atoi` on
that value. So it does on the empty input and on every input that begins with an empty
line, whatever the length of the lines after it. -/
theorem parse_rejects_missing_count (r : Str)
    (hshort : ∀ l ∈ rawLines r, byteLen l < MaxScanTokenSize)
    (h : specField ((specBlocks (specLines r)).headD []) "Image Count".toList = none ∨
      specIsInteger (specValue ((specBlocks (specLines r)).headD []) "Image Count".toList)
        = false) :
    (∃ k, ParseWimInfo r = .error (.numError
      (specValue ((specBlocks (specLines r)).headD []) "Image Count".toList) k)) ∧
    ParseWimInfo [] = .error (.numError [] .invalid) ∧
    (∀ t, ParseWimInfo ('\n' :: t) = .error (.numError [] .invalid)) ∧
    (∀ t, ParseWimInfo ('\r' :: '\n' :: t) = .error (.numError [] .invalid)) := by
  rw [← ScanLines_short r hshort] at h ⊢
  refine ⟨?_, ?_, ?_, ?_⟩
  · have hnot : specIsInteger
        (specValue ((specBlocks (ScanLines r)).headD []) "Image Count".toList) = false := by
      rcases h with h | h
      · simp only [specValue, h, Option.getD_none]
        decide
      · exact h
    obtain ⟨k, hk⟩ := Atoi_not_integer _ hnot
    refine ⟨k, ?_⟩
    rw [ParseWimInfo_eq_parseBlocks]
    simp only [parseBlocks, mapGet_sectionOf, hk]
  · rw [ParseWimInfo_eq_parseBlocks]
    decide
  · intro t
    rw [ParseWimInfo_eq_parseBlocks, ScanLines_cons_lf]
    simp only [specBlocks, if_true]
    exact parseBlocks_empty_header _
  · intro t
    rw [ParseWimInfo_eq_parseBlocks, ScanLines_cr_lf]
    simp only [specBlocks, if_true]
    exact parseBlocks_empty_header _

theorem parse_rejects_missing_count_witness :
    (∃ k, ParseWimInfo "Image Count: two\n\nIndex: 1\n".toList = .error (.numError
      (specValue ((specBlocks (specLines "Image Count: two\n\nIndex: 1\n".toList)).headD [])
        "Image Count".toList) k)) ∧
    ParseWimInfo [] = .error (.numError [] .invalid) ∧
    (∀ t, ParseWimInfo ('\n' :: t) = .error (.numError [] .invalid)) ∧
    (∀ t, ParseWimInfo ('\r' :: '\n' :: t) = .error (.numError [] .invalid)) :=
  parse_rejects_missing_count "Image Count: two\n\nIndex: 1\n".toList (by decide)
    (Or.inr (by decide))

/-- C4, the claim as stated fails: the first block is `Image Count: 1`, then `Index: 1`
followed by `MaxScanTokenSize` spaces, then `Image Count: two`, so that the value of
`Image Count` is `two`, not an integer. The scanner gives up at the long line: the
header is read with the count `1`, the first `MaxScanTokenSize` bytes of the long line
are read as the section of image `1`, and a record is returned. -/
theorem parse_rejects_missing_count_counterexample :
    specBlocks (specLines ("Image Count: 1\n".toList ++
        (padded "Index: 1".toList ++ '\n' :: "Image Count: two\n".toList))) =
      [["Image Count: 1".toList, padded "Index: 1".toList, "Image Count: two".toList]] ∧
    specValue ["Image Count: 1".toList, padded "Index: 1".toList,
      "Image Count: two".toList] "Image Count".toList = "two".toList ∧
    specIsInteger "two".toList = false ∧
    ParseWimInfo ("Image Count: 1\n".toList ++
        (padded "Index: 1".toList ++ '\n' :: "Image Count: two\n".toList)) =
      .ok [(0, [("Image Count".toList, "1".toList)]),
        (1, [("Index".toList, "1".toList)])] := by
  have hlf : '\n' ∉ padded "Index: 1".toList := padded_lf _ (by decide)
  have hlines := specLines_mid "Image Count: 1\n".toList (padded "Index: 1".toList)
    "Image Count: two\n".toList (Or.inr (by decide)) hlf
  have ha : specLines "Image Count: 1\n".toList = ["Image Count: 1".toList] := by decide
  have hb : specLines "Image Count: two\n".toList = ["Image Count: two".toList] := by
    decide
  have hcr : dropCR (padded "Index: 1".toList) = padded "Index: 1".toList :=
    dropCR_append_replicate _ ' ' MaxScanTokenSize (by decide) (by decide)
  have hne : padded "Index: 1".toList ≠ [] := by
    intro h
    have := padded_byteLen "Index: 1".toList
    rw [h] at this
    revert this
    decide
  have hfield : specLineField (padded "Index: 1".toList) =
      some ("Index".toList, "1".toList) := by
    have e : specLineField "Index: 1".toList = some ("Index".toList, "1".toList) := by
      decide
    rw [← e]
    apply specLineField_append_spaces _ _ (by decide)
    intro c hc
    rw [List.eq_of_mem_replicate hc]
    decide
  have h1 : specLineField "Image Count: 1".toList =
      some ("Image Count".toList, "1".toList) := by decide
  have h3 : specLineField "Image Count: two".toList =
      some ("Image Count".toList, "two".toList) := by decide
  have key : ∀ L : Str, specLineField L = some ("Index".toList, "1".toList) →
      specValue ["Image Count: 1".toList, L, "Image Count: two".toList]
        "Image Count".toList = "two".toList := by
    intro L h
    simp only [specValue, specField, List.filterMap_cons, h, h1, h3, List.filterMap_nil]
    rfl
  have hblocks : ∀ L : Str, L ≠ [] →
      specBlocks (["Image Count: 1".toList] ++ L :: ["Image Count: two".toList]) =
      [["Image Count: 1".toList, L, "Image Count: two".toList]] := by
    intro L hL
    simp [specBlocks, hL]
  obtain ⟨t1, t2⟩ := padded_token "Index: 1".toList (by decide) (by decide)
  refine ⟨?_, key _ hfield, by decide, ?_⟩
  · rw [hlines, ha, hb, hcr]
    exact hblocks _ hne
  · rw [ParseWimInfo_long _ (padded "Index: 1".toList) _ "Index: 1".toList
      (Or.inr (by decide)) hlf (padded_byteLen _) (by decide) t1 t2]
    decide

/-- C5, as amended. On an input whose lines are each shorter than `MaxScanTokenSize`
bytes: when the header declares the count `N ≥ 1` and fewer than `N` image blocks
(blocks that are not empty) follow it, `ParseWimInfo` returns no record but an error,
so the parse never succeeds with fewer image sections than declared; when the blocks
present carry the indices `1`, `2`, ... in order, the error is that of `strconv.Atoi` on
the missing `Index` field, returned at the first section read after the text is
exhausted. -/
theorem parse_fewer_blocks (r : Str) (N : Nat) (header : List Str)
    (images : List (List Str))
    (hshort : ∀ l ∈ rawLines r, byteLen l < MaxScanTokenSize)
    (hblocks : specBlocks (specLines r) = header :: images)
    (hN : 1 ≤ N)
    (hcount : Atoi (specValue header "Image Count".toList) = .ok (N : Int))
    (hfew : (images.filter (fun b => decide (b ≠ []))).length < N) :
    (∃ e, ParseWimInfo r = .error e) ∧
    ((∀ k, k < images.length →
        Atoi (specValue (images.getD k []) "Index".toList) = .ok ((k : Int) + 1)) →
      ParseWimInfo r = .error (.numError [] .invalid)) := by
  rw [← ScanLines_short r hshort] at hblocks
  have hne : ¬ (N : Int) = 0 := by omega
  obtain ⟨_, hmax⟩ := Atoi_range _ _ hcount
  have hparse : ParseWimInfo r = blockLoop (N : Int) 1 images [(0, sectionOf header)] := by
    rw [ParseWimInfo_eq_parseBlocks, hblocks]
    simp only [parseBlocks, List.headD_cons, List.tail_cons, mapGet_sectionOf, hcount, hne,
      if_false]
  refine ⟨?_, ?_⟩
  · rw [hparse]
    cases hres : blockLoop (N : Int) 1 images [(0, sectionOf header)] with
    | error e => exact ⟨e, rfl⟩
    | ok info =>
      have := blockLoop_ok_blocks (N : Int) hmax images 1 _ info hres (by omega)
      omega
  · intro hvalid
    have hall : ∀ b ∈ images, decide (b ≠ []) = true := by
      intro b hb
      obtain ⟨k, hk, rfl⟩ := List.getElem_of_mem hb
      have := hvalid k hk
      rw [List.getD_eq_getElem _ _ hk] at this
      simp only [ne_eq, decide_not, Bool.not_eq_eq_eq_not, Bool.not_true,
        decide_eq_false_iff_not]
      intro he
      rw [he] at this
      simp [specValue, specField, Atoi_nil] at this
    rw [List.filter_eq_self.2 hall] at hfew
    rw [hparse]
    exact blockLoop_exhausted (N : Int) images 1 _
      (fun k hk => by rw [mapGet_sectionOf, hvalid k hk]; congr 1; ring)
      (by norm_num) (by omega) hmax

theorem parse_fewer_blocks_witness :
    (∃ e, ParseWimInfo "Image Count: 3\n\nIndex: 1\n\nIndex: 2\n".toList = .error e) ∧
    ((∀ k, k < [["Index: 1".toList], ["Index: 2".toList]].length →
        Atoi (specValue ([["Index: 1".toList], ["Index: 2".toList]].getD k [])
          "Index".toList) = .ok ((k : Int) + 1)) →
      ParseWimInfo "Image Count: 3\n\nIndex: 1\n\nIndex: 2\n".toList =
        .error (.numError [] .invalid)) :=
  parse_fewer_blocks _ 3 ["Image Count: 3".toList] _ (by decide) (by decide) (by decide)
    (by decide) (by decide)

/-- C5, the claim as stated fails, in two ways. The header declares three images, one
image block follows, and the error is the index mismatch `2 != 1` of that block, not an
error of `strconv.Atoi` on a missing `Index` field. And the header declares two images,
one image block follows, of the lines `Index: 1` and `Index: 2` followed by
`MaxScanTokenSize` spaces: the scanner gives up at the long line, whose first
`MaxScanTokenSize` bytes are then read as a second section, and a record of two images
is returned. -/
theorem parse_fewer_blocks_counterexample :
    specBlocks (ScanLines "Image Count: 3\n\nIndex: 2\n".toList) =
      [["Image Count: 3".toList], ["Index: 2".toList]] ∧
    ParseWimInfo "Image Count: 3\n\nIndex: 2\n".toList =
      .error (.errorf "Failed to parse wim info: 2 != 1".toList) ∧
    (∀ num k, ParseWimInfo "Image Count: 3\n\nIndex: 2\n".toList ≠
      .error (.numError num k)) ∧
    specBlocks (specLines ("Image Count: 2\n\nIndex: 1\n".toList ++
        (padded "Index: 2".toList ++ ['\n']))) =
      [["Image Count: 2".toList], ["Index: 1".toList, padded "Index: 2".toList]] ∧
    ParseWimInfo ("Image Count: 2\n\nIndex: 1\n".toList ++
        (padded "Index: 2".toList ++ ['\n'])) =
      .ok [(0, [("Image Count".toList, "2".toList)]),
        (1, [("Index".toList, "1".toList)]), (2, [("Index".toList, "2".toList)])] := by
  have h : ParseWimInfo "Image Count: 3\n\nIndex: 2\n".toList =
      .error (.errorf "Failed to parse wim info: 2 != 1".toList) := by
    rw [ParseWimInfo_eq_parseBlocks]
    decide
  have hlf : '\n' ∉ padded "Index: 2".toList := padded_lf _ (by decide)
  have hlines := specLines_mid "Image Count: 2\n\nIndex: 1\n".toList
    (padded "Index: 2".toList) [] (Or.inr (by decide)) hlf
  have ha : specLines "Image Count: 2\n\nIndex: 1\n".toList =
      ["Image Count: 2".toList, [], "Index: 1".toList] := by decide
  have hb : specLines [] = [] := rfl
  have hcr : dropCR (padded "Index: 2".toList) = padded "Index: 2".toList :=
    dropCR_append_replicate _ ' ' MaxScanTokenSize (by decide) (by decide)
  have hne : padded "Index: 2".toList ≠ [] := by
    intro h
    have := padded_byteLen "Index: 2".toList
    rw [h] at this
    revert this
    decide
  have hblocks : ∀ L : Str, L ≠ [] →
      specBlocks (["Image Count: 2".toList, [], "Index: 1".toList] ++ L :: []) =
      [["Image Count: 2".toList], ["Index: 1".toList, L]] := by
    intro L hL
    simp [specBlocks, hL]
  obtain ⟨t1, t2⟩ := padded_token "Index: 2".toList (by decide) (by decide)
  refine ⟨by decide, h, ?_, ?_, ?_⟩
  · intro num k hk
    rw [h] at hk
    cases hk
  · rw [hlines, ha, hb, hcr]
    exact hblocks _ hne
  · rw [ParseWimInfo_long _ (padded "Index: 2".toList) [] "Index: 2".toList
      (Or.inr (by decide)) hlf (padded_byteLen _) (by decide) t1 t2]
    decide

/-- C6. On a text that some pattern of the first table of `DetectWindowsVersion`
matches, the function returns, in whatever order the two tables are visited, one of
the tags `2k12r2`, `2k8r2`, `w8.1` of that table; on `Windows Server 2012 R2 Standard`
it returns `2k12r2`, though the second table alone gives `2k12` on that text. -/
theorem detect_version_first_tier (ρ₁ ρ₂ : RangeOrder) (desc : Str)
    (h : ∃ e ∈ versionAliases, ∃ a ∈ e.2, patternMatches goRegexp desc a = true) :
    (DetectWindowsVersion ρ₁ ρ₂ desc = some "2k12r2".toList ∨
      DetectWindowsVersion ρ₁ ρ₂ desc = some "2k8r2".toList ∨
      DetectWindowsVersion ρ₁ ρ₂ desc = some "w8.1".toList) ∧
    DetectWindowsVersion ρ₁ ρ₂ "Windows Server 2012 R2 Standard".toList =
      some "2k12r2".toList ∧
    Aliases.MatchString goRegexp ρ₂ versionAliasesGeneral
      "Windows Server 2012 R2 Standard".toList = some "2k12".toList := by
  refine ⟨?_, ?_, ?_⟩
  · obtain ⟨e, he, a, ha, hm⟩ := h
    obtain ⟨e', he', _, hd⟩ := detectVersion_of_first ρ₁ ρ₂ desc
      ⟨e, he, (tagMatches_eq_true goRegexp desc e).2 ⟨a, ha, hm⟩⟩
    rw [hd]
    simp only [versionAliases, List.mem_cons, List.mem_singleton, List.not_mem_nil,
      or_false] at he'
    rcases he' with rfl | rfl | rfl
    · exact Or.inl rfl
    · exact Or.inr (Or.inl rfl)
    · exact Or.inr (Or.inr rfl)
  · obtain ⟨e, he, hm, hd⟩ := detectVersion_of_first ρ₁ ρ₂
      "Windows Server 2012 R2 Standard".toList (by decide)
    have huniq : ∀ e ∈ versionAliases,
        tagMatches goRegexp "Windows Server 2012 R2 Standard".toList e = true →
          e.1 = "2k12r2".toList := by decide
    rw [hd, huniq e he hm]
  · exact matchString_unique ρ₂ versionAliasesGeneral _ _ versionAliasesGeneral_valid
      (by decide) (by decide) (by decide)

theorem detect_version_first_tier_witness :
    (DetectWindowsVersion RangeOrder.reversed RangeOrder.declared
        "Microsoft Windows 8.1 Pro".toList = some "2k12r2".toList ∨
      DetectWindowsVersion RangeOrder.reversed RangeOrder.declared
        "Microsoft Windows 8.1 Pro".toList = some "2k8r2".toList ∨
      DetectWindowsVersion RangeOrder.reversed RangeOrder.declared
        "Microsoft Windows 8.1 Pro".toList = some "w8.1".toList) ∧
    DetectWindowsVersion RangeOrder.reversed RangeOrder.declared
      "Windows Server 2012 R2 Standard".toList = some "2k12r2".toList ∧
    Aliases.MatchString goRegexp RangeOrder.declared versionAliasesGeneral
      "Windows Server 2012 R2 Standard".toList = some "2k12".toList :=
  detect_version_first_tier RangeOrder.reversed RangeOrder.declared
    "Microsoft Windows 8.1 Pro".toList (by decide)

/-- C7, as amended. `MatchString` visits the tags in the order the runtime picks for the
map and, within a tag, the patterns in the declared order, and returns the tag of the
first pattern that matches: with patterns that compile, the result is the tag of the
first entry visited that has a matching pattern, and the empty string when there is
none. When the entries matching the text all carry one tag `t`, the result is `t` in
every visiting order, a function of the table and the text alone. -/
theorem matchString_first_visited (re : Regexp) (ρ : RangeOrder) (as : Aliases) (desc : Str)
    (hvalid : ∀ e ∈ as, ∀ a ∈ e.2, (re ("(?i)".toList ++ a)).isSome = true) :
    Aliases.MatchString re ρ as desc =
      some (match (ρ.iter as).find? (tagMatches re desc) with
        | some e => e.1
        | none => []) ∧
    ∀ t, (∃ e ∈ as, tagMatches re desc e = true) →
      (∀ e ∈ as, tagMatches re desc e = true → e.1 = t) →
      ∀ ρ' : RangeOrder, Aliases.MatchString re ρ' as desc = some t := by
  refine ⟨matchEntries_eq_find re desc (ρ.iter as)
    (fun e he => hvalid e ((mem_iter ρ as e).1 he)), ?_⟩
  intro t hex huniq ρ'
  have hfind := matchEntries_eq_find re desc (ρ'.iter as)
    (fun e he => hvalid e ((mem_iter ρ' as e).1 he))
  unfold Aliases.MatchString
  rw [hfind]
  cases hf : (ρ'.iter as).find? (tagMatches re desc) with
  | some e =>
    have hmem : e ∈ as := (mem_iter ρ' as e).1 (List.mem_of_find?_eq_some hf)
    have hmatch : tagMatches re desc e = true := List.find?_some hf
    simp only [huniq e hmem hmatch]
  | none =>
    obtain ⟨e, he, hm⟩ := hex
    have := List.find?_eq_none.1 hf e ((mem_iter ρ' as e).2 he)
    rw [hm] at this
    exact absurd rfl this

theorem matchString_first_visited_witness :
    Aliases.MatchString goRegexp RangeOrder.reversed versionAliasesGeneral
        "Windows 10 Pro".toList =
      some (match (RangeOrder.reversed.iter versionAliasesGeneral).find?
          (tagMatches goRegexp "Windows 10 Pro".toList) with
        | some e => e.1
        | none => []) ∧
    ∀ t, (∃ e ∈ versionAliasesGeneral,
        tagMatches goRegexp "Windows 10 Pro".toList e = true) →
      (∀ e ∈ versionAliasesGeneral,
        tagMatches goRegexp "Windows 10 Pro".toList e = true → e.1 = t) →
      ∀ ρ' : RangeOrder, Aliases.MatchString goRegexp ρ' versionAliasesGeneral
        "Windows 10 Pro".toList = some t :=
  matchString_first_visited goRegexp RangeOrder.reversed versionAliasesGeneral
    "Windows 10 Pro".toList versionAliasesGeneral_valid

/-- C7, the claim as stated fails: on `Windows 10 Experience Pack`, matched by the pattern
`windows.?10` of `w10` and by the pattern `xp` of `xp`, the second table of
`DetectWindowsVersion` gives `w10` when its entries are visited in the order of the
literal and `xp` when they are visited backwards, and so does `DetectWindowsVersion`:
the result is not a function of the table and the text alone, and is not always the
tag declared first. -/
theorem matchString_depends_on_order :
    Aliases.MatchString goRegexp RangeOrder.declared versionAliasesGeneral
      "Windows 10 Experience Pack".toList = some "w10".toList ∧
    Aliases.MatchString goRegexp RangeOrder.reversed versionAliasesGeneral
      "Windows 10 Experience Pack".toList = some "xp".toList ∧
    DetectWindowsVersion RangeOrder.declared RangeOrder.declared
      "Windows 10 Experience Pack".toList = some "w10".toList ∧
    DetectWindowsVersion RangeOrder.declared RangeOrder.reversed
      "Windows 10 Experience Pack".toList = some "xp".toList := by
  decide

/-- C8. On a text that contains, letter case ignored, one of the markers `amd64`, `x64`,
`x86_64`, `arm64`, `aarch64`, `DetectWindowsArchitecture` returns `amd64` or `ARM64`, in
whatever order the tables are visited, and not `x86`; it returns `amd64` on
`Windows 10 x64`, `x86` on `Windows 10 x86` and the empty string on `Windows 10`. -/
theorem detect_architecture_64bit (ρ₁ ρ₂ : RangeOrder) (desc : Str)
    (h : ∃ m ∈ ["amd64".toList, "x64".toList, "x86_64".toList, "arm64".toList,
      "aarch64".toList], specContainsFold m desc) :
    (DetectWindowsArchitecture ρ₁ ρ₂ desc = some "amd64".toList ∨
      DetectWindowsArchitecture ρ₁ ρ₂ desc = some "ARM64".toList) ∧
    DetectWindowsArchitecture ρ₁ ρ₂ desc ≠ some "x86".toList ∧
    DetectWindowsArchitecture ρ₁ ρ₂ "Windows 10 x64".toList = some "amd64".toList ∧
    DetectWindowsArchitecture ρ₁ ρ₂ "Windows 10 x86".toList = some "x86".toList ∧
    DetectWindowsArchitecture ρ₁ ρ₂ "Windows 10".toList = some [] := by
  have hfirst : DetectWindowsArchitecture ρ₁ ρ₂ desc = some "amd64".toList ∨
      DetectWindowsArchitecture ρ₁ ρ₂ desc = some "ARM64".toList := by
    have hmatch : ∃ e ∈ archAliases, tagMatches goRegexp desc e = true := by
      obtain ⟨m, hm, hc⟩ := h
      have hpat : ∀ m' : Str, (∀ c ∈ m', asciiLower c = c) →
          goRegexp ("(?i)".toList ++ m') = some (searchPieces true (literalPieces m')) →
          specContainsFold m' desc → patternMatches goRegexp desc m' = true := by
        intro m' hlow hre hc'
        simp only [patternMatches, hre]
        exact searchPieces_literal m' hlow desc hc'
      simp only [List.mem_cons, List.mem_singleton, List.not_mem_nil, or_false] at hm
      rcases hm with rfl | rfl | rfl | rfl | rfl
      · exact ⟨_, List.mem_cons_self _ _, (tagMatches_eq_true _ _ _).2
          ⟨"amd64".toList, by decide, hpat _ (by decide) rfl hc⟩⟩
      · exact ⟨_, List.mem_cons_self _ _, (tagMatches_eq_true _ _ _).2
          ⟨"x64".toList, by decide, hpat _ (by decide) rfl hc⟩⟩
      · exact ⟨_, List.mem_cons_self _ _, (tagMatches_eq_true _ _ _).2
          ⟨"x86_64".toList, by decide, hpat _ (by decide) rfl hc⟩⟩
      · exact ⟨("ARM64".toList, ["arm64".toList, "aarch64".toList]), by decide,
          (tagMatches_eq_true _ _ _).2
            ⟨"arm64".toList, by decide, hpat _ (by decide) rfl hc⟩⟩
      · exact ⟨("ARM64".toList, ["arm64".toList, "aarch64".toList]), by decide,
          (tagMatches_eq_true _ _ _).2
            ⟨"aarch64".toList, by decide, hpat _ (by decide) rfl hc⟩⟩
    obtain ⟨e, he, _, hd⟩ := detectArchitecture_of_first ρ₁ ρ₂ desc hmatch
    rw [hd]
    simp only [archAliases, List.mem_cons, List.mem_singleton, List.not_mem_nil,
      or_false] at he
    rcases he with rfl | rfl
    · exact Or.inl rfl
    · exact Or.inr rfl
  refine ⟨hfirst, ?_, ?_, ?_, ?_⟩
  · rcases hfirst with h1 | h1 <;> rw [h1] <;> decide
  · obtain ⟨e, he, hm, hd⟩ := detectArchitecture_of_first ρ₁ ρ₂ "Windows 10 x64".toList
      (by decide)
    have huniq : ∀ e ∈ archAliases, tagMatches goRegexp "Windows 10 x64".toList e = true →
        e.1 = "amd64".toList := by decide
    rw [hd, huniq e he hm]
  · rw [detectArchitecture_of_not_first ρ₁ ρ₂ "Windows 10 x86".toList (by decide)]
    exact matchString_unique ρ₂ archAliasesGeneral _ _ archAliasesGeneral_valid (by decide)
      (by decide) (by decide)
  · rw [detectArchitecture_of_not_first ρ₁ ρ₂ "Windows 10".toList (by decide)]
    exact matchString_of_no_match goRegexp ρ₂ archAliasesGeneral _ archAliasesGeneral_valid
      (by decide)

theorem detect_architecture_64bit_witness :
    (DetectWindowsArchitecture RangeOrder.reversed RangeOrder.declared
        "Windows 11 Pro X86_64".toList = some "amd64".toList ∨
      DetectWindowsArchitecture RangeOrder.reversed RangeOrder.declared
        "Windows 11 Pro X86_64".toList = some "ARM64".toList) ∧
    DetectWindowsArchitecture RangeOrder.reversed RangeOrder.declared
      "Windows 11 Pro X86_64".toList ≠ some "x86".toList ∧
    DetectWindowsArchitecture RangeOrder.reversed RangeOrder.declared
      "Windows 10 x64".toList = some "amd64".toList ∧
    DetectWindowsArchitecture RangeOrder.reversed RangeOrder.declared
      "Windows 10 x86".toList = some "x86".toList ∧
    DetectWindowsArchitecture RangeOrder.reversed RangeOrder.declared
      "Windows 10".toList = some [] :=
  detect_architecture_64bit RangeOrder.reversed RangeOrder.declared
    "Windows 11 Pro X86_64".toList
    ⟨"x86_64".toList, by decide,
      "windows 11 pro ".toList, [], by decide⟩

/-- C9. For an alias table whose tags are not empty, in whatever order it is visited:
when `MatchString` returns, it returns the empty string if and only if no pattern of
the table matches the text, and otherwise a tag of the table one of whose patterns
matches the text; it returns whenever every pattern of the table compiles, and so it
does, without a panic, on the four built-in tables, as do `DetectWindowsVersion` and
`DetectWindowsArchitecture`. -/
theorem matchString_result (re : Regexp) (ρ : RangeOrder) (as : Aliases) (desc : Str)
    (htags : ∀ e ∈ as, e.1 ≠ []) :
    (∀ r, Aliases.MatchString re ρ as desc = some r →
      (r = [] ↔ ∀ e ∈ as, ∀ a ∈ e.2, patternMatches re desc a = false) ∧
      (r ≠ [] → ∃ e ∈ as, e.1 = r ∧ ∃ a ∈ e.2, patternMatches re desc a = true)) ∧
    ((∀ e ∈ as, ∀ a ∈ e.2, (re ("(?i)".toList ++ a)).isSome = true) →
      ∃ r, Aliases.MatchString re ρ as desc = some r) ∧
    (∀ (ρ' : RangeOrder) (d : Str),
      (∃ r, Aliases.MatchString goRegexp ρ' versionAliases d = some r) ∧
      (∃ r, Aliases.MatchString goRegexp ρ' versionAliasesGeneral d = some r) ∧
      (∃ r, Aliases.MatchString goRegexp ρ' archAliases d = some r) ∧
      (∃ r, Aliases.MatchString goRegexp ρ' archAliasesGeneral d = some r)) ∧
    (∀ (ρ₁ ρ₂ : RangeOrder) (d : Str),
      (∃ r, DetectWindowsVersion ρ₁ ρ₂ d = some r) ∧
      (∃ r, DetectWindowsArchitecture ρ₁ ρ₂ d = some r)) := by
  refine ⟨?_, matchString_isSome re ρ as desc, ?_, ?_⟩
  · intro r hr
    rcases matchString_sound re ρ as desc r hr with ⟨e, he, h1, h2⟩ | ⟨h1, h2⟩
    · have hne : r ≠ [] := h1 ▸ htags e he
      obtain ⟨a, ha, hm⟩ := (tagMatches_eq_true re desc e).1 h2
      refine ⟨⟨fun h => absurd h hne, fun h => ?_⟩, fun _ => ⟨e, he, h1, a, ha, hm⟩⟩
      rw [h e he a ha] at hm
      cases hm
    · exact ⟨⟨fun _ e he => (tagMatches_eq_false re desc e).1 (h2 e he), fun _ => h1⟩,
        fun h => absurd h1 h⟩
  · intro ρ' d
    exact ⟨matchString_isSome _ ρ' _ d versionAliases_valid,
      matchString_isSome _ ρ' _ d versionAliasesGeneral_valid,
      matchString_isSome _ ρ' _ d archAliases_valid,
      matchString_isSome _ ρ' _ d archAliasesGeneral_valid⟩
  · intro ρ₁ ρ₂ d
    constructor
    · obtain ⟨r, hr⟩ := matchString_isSome goRegexp ρ₁ versionAliases d versionAliases_valid
      by_cases hne : r = []
      · subst hne
        obtain ⟨r', hr'⟩ := matchString_isSome goRegexp ρ₂ versionAliasesGeneral d
          versionAliasesGeneral_valid
        exact ⟨r', by simp only [DetectWindowsVersion, hr, ne_eq, not_true_eq_false,
          if_false, hr']⟩
      · exact ⟨r, by simp only [DetectWindowsVersion, hr, ne_eq, hne, not_false_eq_true,
          if_true]⟩
    · obtain ⟨r, hr⟩ := matchString_isSome goRegexp ρ₁ archAliases d archAliases_valid
      by_cases hne : r = []
      · subst hne
        obtain ⟨r', hr'⟩ := matchString_isSome goRegexp ρ₂ archAliasesGeneral d
          archAliasesGeneral_valid
        exact ⟨r', by simp only [DetectWindowsArchitecture, hr, ne_eq, not_true_eq_false,
          if_false, hr']⟩
      · exact ⟨r, by simp only [DetectWindowsArchitecture, hr, ne_eq, hne,
          not_false_eq_true, if_true]⟩

theorem matchString_result_witness :
    ("ARM64".toList = [] ↔
      ∀ e ∈ archAliases, ∀ a ∈ e.2,
        patternMatches goRegexp "Windows 11 Pro arm64".toList a = false) ∧
    ("ARM64".toList ≠ [] → ∃ e ∈ archAliases, e.1 = "ARM64".toList ∧
      ∃ a ∈ e.2, patternMatches goRegexp "Windows 11 Pro arm64".toList a = true) :=
  (matchString_result goRegexp RangeOrder.reversed archAliases "Windows 11 Pro arm64".toList
    (by decide)).1 "ARM64".toList (by decide)

/-- C10, as amended. Putting into a text, at any place, a line that is neither empty nor
a lone carriage return and either has no `:` or has only white space before its first
`:`, every line of the text so made being shorter than `MaxScanTokenSize` bytes, leaves
the result of `ParseWimInfo` as it is: the same error, or the same record. -/
theorem parse_ignores_stray_line (r r' : Str) (pre post : List Str) (line : Str)
    (hshort : ∀ l ∈ rawLines r', byteLen l < MaxScanTokenSize)
    (hr : rawLines r = pre ++ post) (hr' : rawLines r' = pre ++ line :: post)
    (hne : dropCR line ≠ [])
    (hstray : ':' ∉ line ∨ TrimSpace (line.takeWhile (fun c => c ≠ ':')) = []) :
    ParseWimInfo r' = ParseWimInfo r := by
  obtain ⟨hs, hs'⟩ := ScanLines_insert r r' pre post line hshort hr hr'
  exact ParseWimInfo_insert r r' _ _ _ hs hs' hne (specLineField_dropCR_stray line hstray)

theorem parse_ignores_stray_line_witness :
    ParseWimInfo ("Image Count: 1\n\nIndex: 1\ncomment text\n: value\n" ++
        "Name: Windows 10 Pro\n").toList =
      ParseWimInfo "Image Count: 1\n\nIndex: 1\ncomment text\nName: Windows 10 Pro\n".toList :=
  parse_ignores_stray_line _ _
    ["Image Count: 1".toList, [], "Index: 1".toList, "comment text".toList]
    ["Name: Windows 10 Pro".toList] ": value".toList (by decide) (by decide) (by decide)
    (by decide) (Or.inr (by decide))

/-- C10, the claim as stated fails, in two ways. A line of `MaxScanTokenSize` bytes
without a colon, put before the header of a text that parses to a record, makes the
scanner give up at once: the header is read empty and the result is the error of
`strconv.Atoi` on the empty string. And a line that is a lone carriage return, not empty
and without a colon, put between `Index: 1` and the name of an image block, is read as
an empty line and ends the block: the name is lost. -/
theorem parse_ignores_stray_line_counterexample :
    ParseWimInfo "Image Count: 1\n\nIndex: 1\n".toList =
      .ok [(0, [("Image Count".toList, "1".toList)]), (1, [("Index".toList, "1".toList)])] ∧
    rawLines (longLine ++ '\n' :: "Image Count: 1\n\nIndex: 1\n".toList) =
      longLine :: rawLines "Image Count: 1\n\nIndex: 1\n".toList ∧
    longLine ≠ [] ∧ ':' ∉ longLine ∧
    ParseWimInfo (longLine ++ '\n' :: "Image Count: 1\n\nIndex: 1\n".toList) =
      .error (.numError [] .invalid) ∧
    rawLines "Image Count: 1\n\nIndex: 1\nName: Windows 10\n".toList =
      ["Image Count: 1".toList, [], "Index: 1".toList, "Name: Windows 10".toList] ∧
    rawLines "Image Count: 1\n\nIndex: 1\n\r\nName: Windows 10\n".toList =
      ["Image Count: 1".toList, [], "Index: 1".toList, ['\r'],
        "Name: Windows 10".toList] ∧
    ParseWimInfo "Image Count: 1\n\nIndex: 1\nName: Windows 10\n".toList =
      .ok [(0, [("Image Count".toList, "1".toList)]),
        (1, [("Index".toList, "1".toList), ("Name".toList, "Windows 10".toList)])] ∧
    ParseWimInfo "Image Count: 1\n\nIndex: 1\n\r\nName: Windows 10\n".toList =
      .ok [(0, [("Image Count".toList, "1".toList)]),
        (1, [("Index".toList, "1".toList)])] := by
  have hparse := ParseWimInfo_long [] longLine "Image Count: 1\n\nIndex: 1\n".toList
    "x".toList (Or.inl rfl) longLine_lf (le_of_eq longLine_byteLen.symm) (by decide)
    (by rw [longLine_token]; exact longLine_ne)
    (by rw [longLine_token, longLine_field]; decide)
  have e : ParseWimInfo (longLine ++ '\n' :: "Image Count: 1\n\nIndex: 1\n".toList) =
      parseBlocks (specBlocks (specLines [] ++ [[]]) ++ [["x".toList]]) := hparse
  refine ⟨by rw [ParseWimInfo_eq_parseBlocks]; decide,
    rawLines_line longLine longLine_lf _, longLine_ne, longLine_colon, ?_, by decide,
    by decide, by rw [ParseWimInfo_eq_parseBlocks]; decide,
    by rw [ParseWimInfo_eq_parseBlocks]; decide⟩
  rw [e]
  decide

/-- C11, as amended. On an input whose lines are each shorter than `MaxScanTokenSize`
bytes, in every section of the record `ParseWimInfo` returns a key has the trimmed value
of the last line of the block that declares it: for the block at the position `p` of
the record, a line declaring `k` with the value `v` and no line after it in the block
declaring `k` again, section `p` maps `k` to `v`. So a first image block with `Index: 2`
followed by `Index: 1` validates as index `1`. -/
theorem section_last_occurrence (r : Str) (info : WimInfo) (p : Nat)
    (pre post : List Str) (line k v : Str)
    (hshort : ∀ l ∈ rawLines r, byteLen l < MaxScanTokenSize)
    (hok : ParseWimInfo r = .ok info) (hp : (p : Int) ≤ info.ImageCount)
    (hblock : (specBlocks (specLines r)).getD p [] = pre ++ line :: post)
    (hline : specLineField line = some (k, v))
    (hlast : ∀ l ∈ post, (specLineField l).map Prod.fst ≠ some k) :
    mapGet [] (mapGet [] info (p : Int)) k = v ∧
    ParseWimInfo "Image Count: 1\n\nIndex: 2\nIndex: 1\n".toList =
      .ok [(0, [("Image Count".toList, "1".toList)]), (1, [("Index".toList, "1".toList)])] := by
  rw [← ScanLines_short r hshort] at hblock
  constructor
  · rw [ParseWimInfo_eq_parseBlocks] at hok
    rw [record_section _ info hok p hp, hblock]
    exact sectionOf_last pre post line k v hline hlast
  · rw [ParseWimInfo_eq_parseBlocks]
    decide

theorem section_last_occurrence_witness :
    mapGet [] (mapGet []
      [(0, [("Image Count".toList, "1".toList)]),
       (1, [("Index".toList, "1".toList), ("Name".toList, "Windows 11".toList),
         ("Flags".toList, "9".toList)])]
      ((1 : Nat) : Int)) "Name".toList = "Windows 11".toList ∧
    ParseWimInfo "Image Count: 1\n\nIndex: 2\nIndex: 1\n".toList =
      .ok [(0, [("Image Count".toList, "1".toList)]), (1, [("Index".toList, "1".toList)])] :=
  section_last_occurrence
    "Image Count: 1\n\nIndex: 1\nName: Windows 10\nName : Windows 11 \nFlags: 9\n".toList
    _ 1 ["Index: 1".toList, "Name: Windows 10".toList] ["Flags: 9".toList]
    "Name : Windows 11 ".toList "Name".toList "Windows 11".toList (by decide)
    (by rw [ParseWimInfo_eq_parseBlocks]; decide) (by decide) (by decide) (by decide)
    (by decide)

/-- C11, the claim as stated fails: the image block has the lines `Index: 1`, `Name: a`,
a line of `MaxScanTokenSize` bytes and `Name: b`, so that the last occurrence of `Name`
has the value `b`. The scanner gives up at the long line, and the section of the record
returned maps `Name` to `a`. -/
theorem section_last_occurrence_counterexample :
    specBlocks (specLines ("Image Count: 1\n\nIndex: 1\nName: a\n".toList ++
        (longLine ++ '\n' :: "Name: b\n".toList))) =
      [["Image Count: 1".toList],
        ["Index: 1".toList, "Name: a".toList, longLine, "Name: b".toList]] ∧
    specValue ["Index: 1".toList, "Name: a".toList, longLine, "Name: b".toList]
      "Name".toList = "b".toList ∧
    ParseWimInfo ("Image Count: 1\n\nIndex: 1\nName: a\n".toList ++
        (longLine ++ '\n' :: "Name: b\n".toList)) =
      .ok [(0, [("Image Count".toList, "1".toList)]),
        (1, [("Index".toList, "1".toList), ("Name".toList, "a".toList)])] ∧
    mapGet [] (mapGet [] [((0 : Int), [("Image Count".toList, "1".toList)]),
        (1, [("Index".toList, "1".toList), ("Name".toList, "a".toList)])] 1)
      "Name".toList = "a".toList := by
  have hlines := specLines_mid "Image Count: 1\n\nIndex: 1\nName: a\n".toList longLine
    "Name: b\n".toList (Or.inr (by decide)) longLine_lf
  have ha : specLines "Image Count: 1\n\nIndex: 1\nName: a\n".toList =
      ["Image Count: 1".toList, [], "Index: 1".toList, "Name: a".toList] := by decide
  have hb : specLines "Name: b\n".toList = ["Name: b".toList] := by decide
  have htok : dropCR longLine = longLine :=
    dropCR_append_replicate [] 'x' MaxScanTokenSize (by decide) (by decide)
  have h1 : specLineField "Index: 1".toList = some ("Index".toList, "1".toList) := by
    decide
  have h2 : specLineField "Name: a".toList = some ("Name".toList, "a".toList) := by decide
  have h3 : specLineField "Name: b".toList = some ("Name".toList, "b".toList) := by decide
  have key : ∀ L : Str, specLineField L = none →
      specValue ["Index: 1".toList, "Name: a".toList, L, "Name: b".toList]
        "Name".toList = "b".toList := by
    intro L h
    simp only [specValue, specField, List.filterMap_cons, h, h1, h2, h3,
      List.filterMap_nil]
    rfl
  have hblocks : ∀ L : Str, L ≠ [] →
      specBlocks (["Image Count: 1".toList, [], "Index: 1".toList, "Name: a".toList] ++
        L :: ["Name: b".toList]) =
      [["Image Count: 1".toList],
        ["Index: 1".toList, "Name: a".toList, L, "Name: b".toList]] := by
    intro L hL
    simp [specBlocks, hL]
  refine ⟨?_, key longLine longLine_field, ?_, by decide⟩
  · rw [hlines, ha, hb, htok]
    exact hblocks longLine longLine_ne
  · exact ParseWimInfo_long_ok _ longLine _ _ (Or.inr (by decide)) longLine_lf
      (le_of_eq longLine_byteLen.symm) (by decide)
      (by rw [ParseWimInfo_eq_parseBlocks]; decide)

/-- C12, the code at the failing input: on a header with `Image Count: -3` the count
parses to `-3`, which is not zero, the loop is not entered, and `ParseWimInfo` returns
the record of the header alone with no error, whose `ImageCount()` is `0`. -/
theorem parse_negative_count :
    ParseWimInfo "Image Count: -3\n".toList =
      .ok [(0, [("Image Count".toList, "-3".toList)])] ∧
    Atoi (specValue ((specBlocks (ScanLines "Image Count: -3\n".toList)).headD [])
      "Image Count".toList) = .ok (-3) ∧
    WimInfo.ImageCount [(0, [("Image Count".toList, "-3".toList)])] = 0 := by
  refine ⟨?_, by decide, by decide⟩
  rw [ParseWimInfo_eq_parseBlocks]
  decide

/-- C13. In a record `ParseWimInfo` returns for a header declaring the count `N ≥ 1`, the
positions are `0`, `1`, ..., `N`, each once, and for every `i` from `1` to `N` the
`Index` field of section `i` parses to `i`. -/
theorem record_positions (r : Str) (info : WimInfo) (N : Nat)
    (hok : ParseWimInfo r = .ok info)
    (hcount : Atoi (specValue ((specBlocks (ScanLines r)).headD []) "Image Count".toList) =
      .ok (N : Int))
    (hN : 1 ≤ N) :
    info.map Prod.fst = (List.range (N + 1)).map (fun j : Nat => (j : Int)) ∧
    ∀ i : Nat, 1 ≤ i → i ≤ N →
      Atoi (mapGet [] (mapGet [] info (i : Int)) "Index".toList) = .ok (i : Int) := by
  rw [ParseWimInfo_eq_parseBlocks] at hok
  obtain ⟨count, hc, hcase⟩ := parseBlocks_ok_inv _ info hok
  rw [hcount] at hc
  injection hc with hc
  subst hc
  rcases hcase with ⟨hneg, _⟩ | ⟨N', hN', _, _, hlen, hvalid, hinfo⟩
  · omega
  · have hNN : N' = N := by exact_mod_cast hN'.symm
    subst hNN
    constructor
    · rw [hinfo]
      simp only [List.map_cons, recordOf_keys, List.length_take, Nat.min_eq_left hlen,
        List.range_succ_eq_map, List.map_map, Nat.cast_zero, List.cons.injEq, true_and]
      apply List.map_congr_left
      intro j _
      simp only [Function.comp_apply, Nat.cast_succ]
      ring
    · intro i hi1 hi2
      have hp : ((i : Nat) : Int) ≤ info.ImageCount := by
        rw [hinfo]
        simp only [WimInfo.ImageCount, List.length_cons, recordOf_length, List.length_take,
          Nat.min_eq_left hlen]
        push_cast
        omega
      rw [record_section _ info hok i hp, mapGet_sectionOf]
      obtain ⟨j, rfl⟩ : ∃ j, i = j + 1 := ⟨i - 1, by omega⟩
      have hv := hvalid j (by omega)
      have htail : ∀ (bs : List (List Str)) (j : Nat),
          bs.tail.getD j [] = bs.getD (j + 1) [] := by
        intro bs j; cases bs <;> rfl
      rw [htail] at hv
      rw [hv]
      push_cast
      rfl

theorem record_positions_witness :
    sampleRecord.map Prod.fst = (List.range (2 + 1)).map (fun j : Nat => (j : Int)) ∧
    ∀ i : Nat, 1 ≤ i → i ≤ 2 →
      Atoi (mapGet [] (mapGet [] sampleRecord (i : Int)) "Index".toList) = .ok (i : Int) :=
  record_positions sampleText sampleRecord 2 (by rw [ParseWimInfo_eq_parseBlocks]; decide)
    (by decide) (by decide)

/-- C14, as amended. A line with a `:` whose text before the first `:` trims to a key `k`
that is not empty assigns to `k`, in the section being read, the trimmed text after
that first `:`, later colons included; on an input whose lines are each shorter than
`MaxScanTokenSize` bytes, the section of the line's block in the record returned maps
`k` to that value, unless a later line of the block declares `k` again. So
`Creation Time : 12:30:05 ` gives the key `Creation Time` and the value `12:30:05`, and
`Name:` the empty value. Every key of every section of a returned record is not
empty, has no surrounding white space and no `:`, and every value has no surrounding
white space. -/
theorem line_field (r : Str) (info : WimInfo) (p : Nat) (pre post : List Str) (line : Str)
    (hshort : ∀ l ∈ rawLines r, byteLen l < MaxScanTokenSize)
    (hok : ParseWimInfo r = .ok info) (hp : (p : Int) ≤ info.ImageCount)
    (hblock : (specBlocks (specLines r)).getD p [] = pre ++ line :: post)
    (hcolon : ':' ∈ line)
    (hkey : TrimSpace (line.takeWhile (fun c => c ≠ ':')) ≠ [])
    (hlast : ∀ l ∈ post, (specLineField l).map Prod.fst ≠
      some (TrimSpace (line.takeWhile (fun c => c ≠ ':')))) :
    mapGet [] (mapGet [] info (p : Int)) (TrimSpace (line.takeWhile (fun c => c ≠ ':'))) =
      TrimSpace ((line.dropWhile (fun c => c ≠ ':')).drop 1) ∧
    (∀ (sect : Section) (rest : List Str),
      nextSectionLoop sect (line :: rest) =
        nextSectionLoop (mapSet sect (TrimSpace (line.takeWhile (fun c => c ≠ ':')))
          (TrimSpace ((line.dropWhile (fun c => c ≠ ':')).drop 1))) rest) ∧
    (∀ e ∈ info, ∀ f ∈ e.2, specFieldOk f) ∧
    nextSection ["Creation Time : 12:30:05 ".toList, "Name:".toList] =
      ([("Creation Time".toList, "12:30:05".toList), ("Name".toList, [])], []) := by
  rw [← ScanLines_short r hshort] at hblock
  have hline : specLineField line = some (TrimSpace (line.takeWhile (fun c => c ≠ ':')),
      TrimSpace ((line.dropWhile (fun c => c ≠ ':')).drop 1)) := by
    simp only [specLineField, hcolon, if_true, hkey, if_false]
  have hne : line ≠ [] := by
    intro h
    rw [h] at hcolon
    cases hcolon
  rw [ParseWimInfo_eq_parseBlocks] at hok
  refine ⟨?_, ?_, ?_, by decide⟩
  · rw [record_section _ info hok p hp, hblock]
    exact sectionOf_last pre post line _ _ hline hlast
  · intro sect rest
    rw [nextSectionLoop_cons sect line rest hne]
    simp only [addLine, hline]
  · intro e he f hf
    obtain ⟨b, hb⟩ := record_sections _ info hok e he
    rw [hb] at hf
    exact sectionOf_ok b f hf

theorem line_field_witness :
    mapGet [] (mapGet []
        [((0 : Int), [("Image Count".toList, "1".toList)]),
         (1, [("Index".toList, "1".toList), ("Creation Time".toList, "12:30:05".toList),
           ("Name".toList, [])])]
        ((1 : Nat) : Int))
      (TrimSpace ("Creation Time : 12:30:05 ".toList.takeWhile (fun c => c ≠ ':'))) =
      TrimSpace (("Creation Time : 12:30:05 ".toList.dropWhile (fun c => c ≠ ':')).drop 1) ∧
    (∀ (sect : Section) (rest : List Str),
      nextSectionLoop sect ("Creation Time : 12:30:05 ".toList :: rest) =
        nextSectionLoop (mapSet sect
          (TrimSpace ("Creation Time : 12:30:05 ".toList.takeWhile (fun c => c ≠ ':')))
          (TrimSpace (("Creation Time : 12:30:05 ".toList.dropWhile
            (fun c => c ≠ ':')).drop 1))) rest) ∧
    (∀ e ∈ [((0 : Int), [("Image Count".toList, "1".toList)]),
         (1, [("Index".toList, "1".toList), ("Creation Time".toList, "12:30:05".toList),
           ("Name".toList, [])])], ∀ f ∈ e.2, specFieldOk f) ∧
    nextSection ["Creation Time : 12:30:05 ".toList, "Name:".toList] =
      ([("Creation Time".toList, "12:30:05".toList), ("Name".toList, [])], []) :=
  line_field "Image Count: 1\n\nIndex: 1\nCreation Time : 12:30:05 \nName:\n".toList _ 1
    ["Index: 1".toList] ["Name:".toList] "Creation Time : 12:30:05 ".toList (by decide)
    (by rw [ParseWimInfo_eq_parseBlocks]; decide) (by decide) (by decide) (by decide)
    (by decide) (by decide)

/-- C14, the claim as stated fails, in two ways. In an image block with the lines
`Name: a` and `Name: b` the first is a line with a colon and the key `Name`, and the
section maps `Name` to `b`, not to the text `a` after the colon of that line. And a
line of `MaxScanTokenSize` bytes with the key `Name` in an image block ends the reading
of the text: the section of the block has no `Name`. -/
theorem line_field_counterexample :
    specBlocks (specLines "Image Count: 1\n\nIndex: 1\nName: a\nName: b\n".toList) =
      [["Image Count: 1".toList],
        ["Index: 1".toList, "Name: a".toList, "Name: b".toList]] ∧
    specLineField "Name: a".toList = some ("Name".toList, "a".toList) ∧
    ParseWimInfo "Image Count: 1\n\nIndex: 1\nName: a\nName: b\n".toList =
      .ok [(0, [("Image Count".toList, "1".toList)]),
        (1, [("Index".toList, "1".toList), ("Name".toList, "b".toList)])] ∧
    specBlocks (specLines ("Image Count: 1\n\nIndex: 1\n".toList ++
        (longName ++ ['\n']))) =
      [["Image Count: 1".toList], ["Index: 1".toList, longName]] ∧
    specLineField longName =
      some ("Name".toList, List.replicate (MaxScanTokenSize - 6) 'x') ∧
    ParseWimInfo ("Image Count: 1\n\nIndex: 1\n".toList ++ (longName ++ ['\n'])) =
      .ok [(0, [("Image Count".toList, "1".toList)]),
        (1, [("Index".toList, "1".toList)])] := by
  have hlines := specLines_mid "Image Count: 1\n\nIndex: 1\n".toList longName []
    (Or.inr (by decide)) longName_lf
  have ha : specLines "Image Count: 1\n\nIndex: 1\n".toList =
      ["Image Count: 1".toList, [], "Index: 1".toList] := by decide
  have hb : specLines [] = [] := rfl
  have hblocks : ∀ L : Str, L ≠ [] →
      specBlocks (["Image Count: 1".toList, [], "Index: 1".toList] ++ L :: []) =
      [["Image Count: 1".toList], ["Index: 1".toList, L]] := by
    intro L hL
    simp [specBlocks, hL]
  refine ⟨by decide, by decide, by rw [ParseWimInfo_eq_parseBlocks]; decide, ?_,
    longName_field, ?_⟩
  · rw [hlines, ha, hb, longName_dropCR]
    exact hblocks longName longName_ne
  · exact ParseWimInfo_long_ok _ longName _ _ (Or.inr (by decide)) longName_lf
      (le_of_eq longName_byteLen.symm) (by decide)
      (by rw [ParseWimInfo_eq_parseBlocks]; decide)

/-- C15, as amended. A line of white space only that is neither empty nor a lone carriage
return, in a text whose lines are each shorter than `MaxScanTokenSize` bytes, does not
end a block: between two lines declaring fields, the scanner delivers the three lines
in a row and the loop of `nextSection` reads both fields into the section being read,
and the result of `ParseWimInfo` is that of the text without the line. -/
theorem white_line_keeps_block (r r' : Str) (pre post : List Str) (l₁ ws l₂ : Str)
    (k₁ v₁ k₂ v₂ : Str)
    (hshort : ∀ l ∈ rawLines r', byteLen l < MaxScanTokenSize)
    (hr : rawLines r = pre ++ l₁ :: l₂ :: post)
    (hr' : rawLines r' = pre ++ l₁ :: ws :: l₂ :: post)
    (hne : dropCR ws ≠ []) (hws : ws.all isSpace = true)
    (h₁ : specLineField (dropCR l₁) = some (k₁, v₁))
    (h₂ : specLineField (dropCR l₂) = some (k₂, v₂)) :
    ParseWimInfo r' = ParseWimInfo r ∧
    ScanLines r' =
      pre.map dropCR ++ dropCR l₁ :: dropCR ws :: dropCR l₂ :: post.map dropCR ∧
    (∀ (sect : Section) (rest : List Str),
      nextSectionLoop sect (dropCR l₁ :: dropCR ws :: dropCR l₂ :: rest) =
        nextSectionLoop (mapSet (mapSet sect k₁ v₁) k₂ v₂) rest) ∧
    ParseWimInfo "Image Count: 1\n\nIndex: 1\n \t \nName: Windows 10 Pro\n".toList =
      .ok [(0, [("Image Count".toList, "1".toList)]),
        (1, [("Index".toList, "1".toList), ("Name".toList, "Windows 10 Pro".toList)])] := by
  have hskip := specLineField_white (dropCR ws) (all_dropCR ws hws)
  have hne₁ : dropCR l₁ ≠ [] := by
    intro h
    rw [h] at h₁
    simp [specLineField] at h₁
  have hne₂ : dropCR l₂ ≠ [] := by
    intro h
    rw [h] at h₂
    simp [specLineField] at h₂
  obtain ⟨hs, hs'⟩ := ScanLines_insert r r' (pre ++ [l₁]) (l₂ :: post) ws hshort
    (by rw [hr, List.append_assoc, List.singleton_append])
    (by rw [hr', List.append_assoc, List.singleton_append])
  refine ⟨ParseWimInfo_insert r r' _ _ _ hs hs' hne hskip, ?_, ?_, ?_⟩
  · rw [hs']
    simp only [List.map_append, List.map_cons, List.map_nil, List.append_assoc,
      List.singleton_append]
  · intro sect rest
    rw [nextSectionLoop_cons sect _ _ hne₁, nextSectionLoop_cons _ _ _ hne,
      nextSectionLoop_cons _ _ _ hne₂]
    simp only [addLine, h₁, hskip, h₂]
  · rw [ParseWimInfo_eq_parseBlocks]
    decide

theorem white_line_keeps_block_witness :
    ParseWimInfo "Image Count: 1\n\nIndex: 1\n \t \nName: Windows 10 Pro\n".toList =
      ParseWimInfo "Image Count: 1\n\nIndex: 1\nName: Windows 10 Pro\n".toList ∧
    ScanLines "Image Count: 1\n\nIndex: 1\n \t \nName: Windows 10 Pro\n".toList =
      ["Image Count: 1".toList, []].map dropCR ++ dropCR "Index: 1".toList ::
        dropCR " \t ".toList :: dropCR "Name: Windows 10 Pro".toList :: [].map dropCR ∧
    (∀ (sect : Section) (rest : List Str),
      nextSectionLoop sect (dropCR "Index: 1".toList :: dropCR " \t ".toList ::
          dropCR "Name: Windows 10 Pro".toList :: rest) =
        nextSectionLoop (mapSet (mapSet sect "Index".toList "1".toList) "Name".toList
          "Windows 10 Pro".toList) rest) ∧
    ParseWimInfo "Image Count: 1\n\nIndex: 1\n \t \nName: Windows 10 Pro\n".toList =
      .ok [(0, [("Image Count".toList, "1".toList)]),
        (1, [("Index".toList, "1".toList), ("Name".toList, "Windows 10 Pro".toList)])] :=
  white_line_keeps_block "Image Count: 1\n\nIndex: 1\nName: Windows 10 Pro\n".toList
    "Image Count: 1\n\nIndex: 1\n \t \nName: Windows 10 Pro\n".toList
    ["Image Count: 1".toList, []] [] "Index: 1".toList
    " \t ".toList "Name: Windows 10 Pro".toList "Index".toList "1".toList "Name".toList
    "Windows 10 Pro".toList (by decide) (by decide) (by decide) (by decide) (by decide)
    (by decide) (by decide)

/-- C15, the claim as stated fails, in two ways. A line that is a lone carriage return,
white space only, between `Index: 1` and the name of an image block is read as an empty
line and ends the block: the section has no name. And so does a line of
`MaxScanTokenSize` spaces, at which the scanner gives up. -/
theorem white_line_keeps_block_counterexample :
    rawLines "Image Count: 1\n\nIndex: 1\n\r\nName: Windows 10 Pro\n".toList =
      ["Image Count: 1".toList, [], "Index: 1".toList, ['\r'],
        "Name: Windows 10 Pro".toList] ∧
    ['\r'].all isSpace = true ∧
    ParseWimInfo "Image Count: 1\n\nIndex: 1\n\r\nName: Windows 10 Pro\n".toList =
      .ok [(0, [("Image Count".toList, "1".toList)]),
        (1, [("Index".toList, "1".toList)])] ∧
    rawLines ("Image Count: 1\n\nIndex: 1\n".toList ++
        (List.replicate MaxScanTokenSize ' ' ++ '\n' :: "Name: Windows 10 Pro\n".toList)) =
      ["Image Count: 1".toList, [], "Index: 1".toList, List.replicate MaxScanTokenSize ' ',
        "Name: Windows 10 Pro".toList] ∧
    (List.replicate MaxScanTokenSize ' ').all isSpace = true ∧
    ParseWimInfo ("Image Count: 1\n\nIndex: 1\n".toList ++
        (List.replicate MaxScanTokenSize ' ' ++ '\n' :: "Name: Windows 10 Pro\n".toList)) =
      .ok [(0, [("Image Count".toList, "1".toList)]),
        (1, [("Index".toList, "1".toList)])] := by
  have hlf : '\n' ∉ List.replicate MaxScanTokenSize ' ' :=
    fun h => (by decide : ¬ '\n' = ' ') (List.eq_of_mem_replicate h)
  have hlen : MaxScanTokenSize ≤ byteLen (List.replicate MaxScanTokenSize ' ') :=
    padded_byteLen []
  have hlines := rawLines_mid "Image Count: 1\n\nIndex: 1\n".toList
    (List.replicate MaxScanTokenSize ' ') "Name: Windows 10 Pro\n".toList
    (Or.inr (by decide)) hlf
  have ha : rawLines "Image Count: 1\n\nIndex: 1\n".toList =
      ["Image Count: 1".toList, [], "Index: 1".toList] := by decide
  have hb : rawLines "Name: Windows 10 Pro\n".toList = ["Name: Windows 10 Pro".toList] := by
    decide
  refine ⟨by decide, by decide, by rw [ParseWimInfo_eq_parseBlocks]; decide, ?_, ?_, ?_⟩
  · rw [hlines, ha, hb]
    rfl
  · rw [List.all_eq_true]
    intro c hc
    rw [List.eq_of_mem_replicate hc]
    decide
  · exact ParseWimInfo_long_ok _ _ _ _ (Or.inr (by decide)) hlf hlen (by decide)
      (by rw [ParseWimInfo_eq_parseBlocks]; decide)

/-- C19. When `ParseWimInfo` returns a record on a text, it returns the same record on
the text followed by an empty line and any further text: on every text whose lines
are those of the first, an empty line, and more lines, and so on the first text followed
by two line feeds and any text, whatever blocks that text holds. -/
theorem parse_ignores_trailing_text (s t : Str) (info : WimInfo)
    (hok : ParseWimInfo s = .ok info) :
    ParseWimInfo (s ++ '\n' :: '\n' :: t) = .ok info ∧
    ∀ (s' : Str) (tail : List Str), ScanLines s' = ScanLines s ++ [] :: tail →
      ParseWimInfo s' = .ok info := by
  have hlines : ∀ (s' : Str) (tail : List Str), ScanLines s' = ScanLines s ++ [] :: tail →
      ParseWimInfo s' = .ok info := by
    intro s' tail hs'
    rw [ParseWimInfo_eq_parseBlocks] at hok ⊢
    obtain ⟨extra, he⟩ := specBlocks_append_empty tail (ScanLines s)
    rw [hs', he]
    exact parseBlocks_append_ok _ extra info hok
  refine ⟨?_, hlines⟩
  rcases ScanLines_append_blank s t with e | ⟨tail, e⟩
  · rw [ParseWimInfo_congr _ _ e]
    exact hok
  · exact hlines _ tail e

theorem parse_ignores_trailing_text_witness :
    ParseWimInfo ("Image Count: 1\n\nIndex: 1\nName: Windows 10 Pro\n".toList ++
        '\n' :: '\n' :: "Index: 1\nName: again\n\nIndex: 7\n\nno index here\n".toList) =
      .ok [(0, [("Image Count".toList, "1".toList)]),
        (1, [("Index".toList, "1".toList), ("Name".toList, "Windows 10 Pro".toList)])] ∧
    ∀ (s' : Str) (tail : List Str),
      ScanLines s' =
        ScanLines "Image Count: 1\n\nIndex: 1\nName: Windows 10 Pro\n".toList ++ [] :: tail →
      ParseWimInfo s' =
        .ok [(0, [("Image Count".toList, "1".toList)]),
          (1, [("Index".toList, "1".toList), ("Name".toList, "Windows 10 Pro".toList)])] :=
  parse_ignores_trailing_text "Image Count: 1\n\nIndex: 1\nName: Windows 10 Pro\n".toList
    "Index: 1\nName: again\n\nIndex: 7\n\nno index here\n".toList _
    (by rw [ParseWimInfo_eq_parseBlocks]; decide)

/-- C20. Every canonical tag classifies to itself, in whatever order the tables are
visited: `DetectWindowsVersion` returns `t` on every `t` of `SupportedWindowsVersions`
(so `2k12r2` on `2k12r2` and `w8.1` on `w8.1`), and `DetectWindowsArchitecture` returns
`a` on every `a` of `SupportedWindowsArchitectures`. -/
theorem detect_canonical_tags (ρ₁ ρ₂ : RangeOrder) :
    (∀ t ∈ SupportedWindowsVersions, DetectWindowsVersion ρ₁ ρ₂ t = some t) ∧
    (∀ a ∈ SupportedWindowsArchitectures, DetectWindowsArchitecture ρ₁ ρ₂ a = some a) ∧
    DetectWindowsVersion ρ₁ ρ₂ "2k12r2".toList = some "2k12r2".toList ∧
    DetectWindowsVersion ρ₁ ρ₂ "w8.1".toList = some "w8.1".toList :=
  ⟨fun t ht => detectVersion_of_classifiesAs ρ₁ ρ₂ t t (supportedVersions_classified t ht),
   fun a ha =>
     detectArchitecture_of_classifiesAs ρ₁ ρ₂ a a (supportedArchitectures_classified a ha),
   detectVersion_of_classifiesAs ρ₁ ρ₂ _ _ (by decide),
   detectVersion_of_classifiesAs ρ₁ ρ₂ _ _ (by decide)⟩

/-- C16. With each of the separators `s₁`, `s₂`, `s₃` empty, a space, a dot or a hyphen,
`DetectWindowsVersion` returns `2k12` on `windows`, `s₁`, `server`, `s₂`, `2012` and
`2k12r2` on that text followed by `s₃` and `r2`, in whatever order the tables are
visited. -/
theorem detect_version_separators (ρ₁ ρ₂ : RangeOrder) (s₁ s₂ s₃ : Str)
    (h₁ : s₁ ∈ separators) (h₂ : s₂ ∈ separators) (h₃ : s₃ ∈ separators) :
    DetectWindowsVersion ρ₁ ρ₂
      ("windows".toList ++ s₁ ++ "server".toList ++ s₂ ++ "2012".toList) =
        some "2k12".toList ∧
    DetectWindowsVersion ρ₁ ρ₂
      ("windows".toList ++ s₁ ++ "server".toList ++ s₂ ++ "2012".toList ++ s₃ ++
        "r2".toList) = some "2k12r2".toList :=
  ⟨detectVersion_of_classifiesAs ρ₁ ρ₂ _ _ (separators_2012 s₁ h₁ s₂ h₂),
   detectVersion_of_classifiesAs ρ₁ ρ₂ _ _ (separators_2012r2 s₁ h₁ s₂ h₂ s₃ h₃)⟩

theorem detect_version_separators_witness :
    DetectWindowsVersion RangeOrder.reversed RangeOrder.reversed
      ("windows".toList ++ ".".toList ++ "server".toList ++ "-".toList ++ "2012".toList) =
        some "2k12".toList ∧
    DetectWindowsVersion RangeOrder.reversed RangeOrder.reversed
      ("windows".toList ++ ".".toList ++ "server".toList ++ "-".toList ++ "2012".toList ++
        [] ++ "r2".toList) = some "2k12r2".toList :=
  detect_version_separators RangeOrder.reversed RangeOrder.reversed ".".toList "-".toList []
    (by decide) (by decide) (by decide)

/-- C17. In whatever order the tables are visited, `DetectWindowsVersion` returns, without
a panic, the empty string or a member of `SupportedWindowsVersions`, and
`DetectWindowsArchitecture` the empty string or a member of
`SupportedWindowsArchitectures`; and every member of each list is returned for some
text, the member itself. -/
theorem detect_results_supported (ρ₁ ρ₂ : RangeOrder) (desc : Str) :
    (∃ r, DetectWindowsVersion ρ₁ ρ₂ desc = some r ∧
      (r = [] ∨ r ∈ SupportedWindowsVersions)) ∧
    (∃ r, DetectWindowsArchitecture ρ₁ ρ₂ desc = some r ∧
      (r = [] ∨ r ∈ SupportedWindowsArchitectures)) ∧
    (∀ t ∈ SupportedWindowsVersions, ∃ text,
      ∀ ρ₁' ρ₂' : RangeOrder, DetectWindowsVersion ρ₁' ρ₂' text = some t) ∧
    (∀ a ∈ SupportedWindowsArchitectures, ∃ text,
      ∀ ρ₁' ρ₂' : RangeOrder, DetectWindowsArchitecture ρ₁' ρ₂' text = some a) := by
  refine ⟨?_, ?_, ?_, ?_⟩
  · obtain ⟨v, hv, hv'⟩ := matchString_tag ρ₁ versionAliases desc versionAliases_valid
    by_cases hne : v = []
    · subst hne
      obtain ⟨r, hr, hr'⟩ := matchString_tag ρ₂ versionAliasesGeneral desc
        versionAliasesGeneral_valid
      refine ⟨r, by simp only [DetectWindowsVersion, hv, ne_eq, not_true_eq_false, if_false,
        hr], ?_⟩
      rcases hr' with h | ⟨e, he, h⟩
      · exact Or.inl h
      · exact Or.inr (h ▸ versionAliases_supported.2 e he)
    · refine ⟨v, by simp only [DetectWindowsVersion, hv, ne_eq, hne, not_false_eq_true,
        if_true], ?_⟩
      rcases hv' with h | ⟨e, he, h⟩
      · exact Or.inl h
      · exact Or.inr (h ▸ versionAliases_supported.1 e he)
  · obtain ⟨v, hv, hv'⟩ := matchString_tag ρ₁ archAliases desc archAliases_valid
    by_cases hne : v = []
    · subst hne
      obtain ⟨r, hr, hr'⟩ := matchString_tag ρ₂ archAliasesGeneral desc
        archAliasesGeneral_valid
      refine ⟨r, by simp only [DetectWindowsArchitecture, hv, ne_eq, not_true_eq_false,
        if_false, hr], ?_⟩
      rcases hr' with h | ⟨e, he, h⟩
      · exact Or.inl h
      · exact Or.inr (h ▸ archAliases_supported.2 e he)
    · refine ⟨v, by simp only [DetectWindowsArchitecture, hv, ne_eq, hne, not_false_eq_true,
        if_true], ?_⟩
      rcases hv' with h | ⟨e, he, h⟩
      · exact Or.inl h
      · exact Or.inr (h ▸ archAliases_supported.1 e he)
  · intro t ht
    exact ⟨t, fun ρ₁' ρ₂' =>
      detectVersion_of_classifiesAs ρ₁' ρ₂' t t (supportedVersions_classified t ht)⟩
  · intro a ha
    exact ⟨a, fun ρ₁' ρ₂' =>
      detectArchitecture_of_classifiesAs ρ₁' ρ₂' a a (supportedArchitectures_classified a ha)⟩

/-- C18, as amended. Classification ignores letter case: for two ASCII texts that differ
in the case of letters only, every pattern matches both or neither, so that
`DetectWindowsVersion` returns the same on both and so does `DetectWindowsArchitecture`
when the two calls visit the tables in the same orders, and in any orders when the
patterns that match the text all carry one tag; `AMD64`, `amd64` and `Amd64` all give
`amd64`, and `arm64` gives the tag `ARM64`, in every order. -/
theorem detect_ignores_case (ρ₁ ρ₂ ρ₃ ρ₄ : RangeOrder) (t u : Str)
    (hcase : t.map asciiLower = u.map asciiLower)
    (ht : ∀ c ∈ t, c.toNat < 128) (hu : ∀ c ∈ u, c.toNat < 128) :
    (∀ a, patternMatches goRegexp t a = patternMatches goRegexp u a) ∧
    DetectWindowsVersion ρ₁ ρ₂ t = DetectWindowsVersion ρ₁ ρ₂ u ∧
    DetectWindowsArchitecture ρ₁ ρ₂ t = DetectWindowsArchitecture ρ₁ ρ₂ u ∧
    (∀ tag, classifiesAs versionAliases versionAliasesGeneral t tag = true →
      DetectWindowsVersion ρ₁ ρ₂ t = some tag ∧ DetectWindowsVersion ρ₃ ρ₄ u = some tag) ∧
    (∀ tag, classifiesAs archAliases archAliasesGeneral t tag = true →
      DetectWindowsArchitecture ρ₁ ρ₂ t = some tag ∧
      DetectWindowsArchitecture ρ₃ ρ₄ u = some tag) ∧
    DetectWindowsArchitecture ρ₁ ρ₂ "AMD64".toList = some "amd64".toList ∧
    DetectWindowsArchitecture ρ₁ ρ₂ "amd64".toList = some "amd64".toList ∧
    DetectWindowsArchitecture ρ₁ ρ₂ "Amd64".toList = some "amd64".toList ∧
    DetectWindowsArchitecture ρ₁ ρ₂ "arm64".toList = some "ARM64".toList := by
  refine ⟨patternMatches_case t u hcase ht hu, ?_, ?_, ?_, ?_,
    detectArchitecture_of_classifiesAs ρ₁ ρ₂ _ _ (by decide),
    detectArchitecture_of_classifiesAs ρ₁ ρ₂ _ _ (by decide),
    detectArchitecture_of_classifiesAs ρ₁ ρ₂ _ _ (by decide),
    detectArchitecture_of_classifiesAs ρ₁ ρ₂ _ _ (by decide)⟩
  · simp only [DetectWindowsVersion, Aliases.MatchString, matchEntries_case t u hcase ht hu]
  · simp only [DetectWindowsArchitecture, Aliases.MatchString,
      matchEntries_case t u hcase ht hu]
  · intro tag h
    refine ⟨detectVersion_of_classifiesAs ρ₁ ρ₂ t tag h,
      detectVersion_of_classifiesAs ρ₃ ρ₄ u tag ?_⟩
    rw [← classifiesAs_case t u hcase ht hu]
    exact h
  · intro tag h
    refine ⟨detectArchitecture_of_classifiesAs ρ₁ ρ₂ t tag h,
      detectArchitecture_of_classifiesAs ρ₃ ρ₄ u tag ?_⟩
    rw [← classifiesAs_case t u hcase ht hu]
    exact h

theorem detect_ignores_case_witness :
    (∀ a, patternMatches goRegexp "WINDOWS Server 2019 Datacenter X64".toList a =
      patternMatches goRegexp "windows server 2019 DataCenter x64".toList a) ∧
    DetectWindowsVersion RangeOrder.reversed RangeOrder.declared
        "WINDOWS Server 2019 Datacenter X64".toList =
      DetectWindowsVersion RangeOrder.reversed RangeOrder.declared
        "windows server 2019 DataCenter x64".toList ∧
    DetectWindowsArchitecture RangeOrder.reversed RangeOrder.declared
        "WINDOWS Server 2019 Datacenter X64".toList =
      DetectWindowsArchitecture RangeOrder.reversed RangeOrder.declared
        "windows server 2019 DataCenter x64".toList ∧
    (∀ tag, classifiesAs versionAliases versionAliasesGeneral
        "WINDOWS Server 2019 Datacenter X64".toList tag = true →
      DetectWindowsVersion RangeOrder.reversed RangeOrder.declared
        "WINDOWS Server 2019 Datacenter X64".toList = some tag ∧
      DetectWindowsVersion RangeOrder.declared RangeOrder.reversed
        "windows server 2019 DataCenter x64".toList = some tag) ∧
    (∀ tag, classifiesAs archAliases archAliasesGeneral
        "WINDOWS Server 2019 Datacenter X64".toList tag = true →
      DetectWindowsArchitecture RangeOrder.reversed RangeOrder.declared
        "WINDOWS Server 2019 Datacenter X64".toList = some tag ∧
      DetectWindowsArchitecture RangeOrder.declared RangeOrder.reversed
        "windows server 2019 DataCenter x64".toList = some tag) ∧
    DetectWindowsArchitecture RangeOrder.reversed RangeOrder.declared "AMD64".toList =
      some "amd64".toList ∧
    DetectWindowsArchitecture RangeOrder.reversed RangeOrder.declared "amd64".toList =
      some "amd64".toList ∧
    DetectWindowsArchitecture RangeOrder.reversed RangeOrder.declared "Amd64".toList =
      some "amd64".toList ∧
    DetectWindowsArchitecture RangeOrder.reversed RangeOrder.declared "arm64".toList =
      some "ARM64".toList :=
  detect_ignores_case RangeOrder.reversed RangeOrder.declared RangeOrder.declared
    RangeOrder.reversed "WINDOWS Server 2019 Datacenter X64".toList
    "windows server 2019 DataCenter x64".toList (by decide) (by decide) (by decide)

/-- C18, the claim as stated fails: `X64 ARM64` and `x64 arm64` differ in the case of
letters only, and patterns of the two tags `amd64` and `ARM64` of the first
architecture table match them. Each call ranges over a map of its own: the call on the
first text, visiting the table in the order of the literal, returns `amd64`, and the
call on the second, visiting it backwards, returns `ARM64`. -/
theorem detect_case_depends_on_order :
    "X64 ARM64".toList.map asciiLower = "x64 arm64".toList.map asciiLower ∧
    (∀ c ∈ "X64 ARM64".toList, c.toNat < 128) ∧
    (∀ c ∈ "x64 arm64".toList, c.toNat < 128) ∧
    DetectWindowsArchitecture RangeOrder.declared RangeOrder.declared "X64 ARM64".toList =
      some "amd64".toList ∧
    DetectWindowsArchitecture RangeOrder.reversed RangeOrder.declared "x64 arm64".toList =
      some "ARM64".toList := by
  refine ⟨by decide, by decide, by decide, by decide, by decide⟩

end Windows
